import Mathlib

/-!
Verification of the rclone-manager localization maintenance scripts
(`src/scripts/update_flags.py` and `src/scripts/update_providers.py`).

The scripts are text-rewriting utilities: they fetch flag/provider metadata
from the external `rclone` tool, compare it against JSON translation files,
and textually splice commented JSON fragments for missing keys into the
files.  This file gives a shallow embedding of those scripts over
`List Char` (Python `str` values are sequences of Unicode code points,
which `List Char` models directly) and proves the specified properties.

Contents:
* a strict JSON parser modelling Python's `json.loads`;
* models of the Python helper semantics the scripts rely on
  (`in` membership, `str.strip`, `str.title`, `json.dumps` for the
  specific shapes the scripts serialize);
* faithful translations of `update_file`, `format_new_key_block`,
  `title_case`, `parse_flags`, `get_flags` and `main` from both scripts;
* theorems for the specification claims.
-/

namespace RcloneManager

/-! ### Character classes -/

/-- Whitespace characters accepted between JSON tokens by Python's
`json.loads` (only space, tab, newline and carriage return). -/
def jsonWs (c : Char) : Bool :=
  c = ' ' || c = '\t' || c = '\n' || c = '\r'

/-- Whitespace in the sense of Python's `str.strip()` / `str.isspace()` and
of the regex class `\s` on `str` patterns: the ASCII whitespace characters
together with the Unicode whitespace code points. -/
def pyWs (c : Char) : Bool :=
  let n := c.toNat
  (0x09 ≤ n && n ≤ 0x0D) || n = 0x20 || (0x1C ≤ n && n ≤ 0x1F) ||
  n = 0x85 || n = 0xA0 || n = 0x1680 || (0x2000 ≤ n && n ≤ 0x200A) ||
  n = 0x2028 || n = 0x2029 || n = 0x202F || n = 0x205F || n = 0x3000

/-- ASCII decimal digit. -/
def isDigitCh (c : Char) : Bool := '0' ≤ c && c ≤ '9'

/-- Left brace and right brace characters, named to keep them out of
string literals. -/
def lbrace : Char := Char.ofNat 123

/-- Right brace character. -/
def rbrace : Char := Char.ofNat 125

/-! ### JSON values

Numbers are kept as their source lexemes: the scripts never perform
arithmetic on parsed values, they only test key membership, so the lexeme
is an adequate (and faithful-to-the-text) representation. -/

inductive Json where
  | null
  | bool (b : Bool)
  | num (lex : List Char)
  | str (s : List Char)
  | arr (items : List Json)
  | obj (members : List (List Char × Json))

/-! ### A strict JSON parser modelling `json.loads`

Recursive-descent with explicit fuel.  Matches Python's default
`json.loads`: strict strings (raw control characters rejected), no
comments, no trailing commas, `NaN`/`Infinity`/`-Infinity` accepted as
number tokens.  Deviation (documented): `\uXXXX` escapes denoting lone
UTF-16 surrogates are rejected because a Lean `Char` cannot carry a lone
surrogate; correctly paired surrogate escapes are combined as Python does.
No script behaviour settled below depends on lone-surrogate inputs. -/

/-- Skip JSON inter-token whitespace. -/
def skipWs : List Char → List Char
  | [] => []
  | c :: r => if jsonWs c then skipWs r else c :: r

/-- Value of a hexadecimal digit. -/
def hexVal (c : Char) : Option Nat :=
  let n := c.toNat
  if 48 ≤ n ∧ n ≤ 57 then some (n - 48)
  else if 97 ≤ n ∧ n ≤ 102 then some (n - 87)
  else if 65 ≤ n ∧ n ≤ 70 then some (n - 55)
  else none

/-- Parse exactly four hexadecimal digits. -/
def parseHex4 : List Char → Option (Nat × List Char)
  | a :: b :: c :: d :: r =>
    match hexVal a, hexVal b, hexVal c, hexVal d with
    | some va, some vb, some vc, some vd =>
      some (va * 4096 + vb * 256 + vc * 16 + vd, r)
    | _, _, _, _ => none
  | _ => none

/-- Decode one escape sequence (the backslash already consumed),
returning the decoded character and the remaining input. -/
def readEscape : List Char → Option (Char × List Char)
  | [] => none
  | e :: r2 =>
    if e = '"' then some ('"', r2)
    else if e = '\\' then some ('\\', r2)
    else if e = '/' then some ('/', r2)
    else if e = 'b' then some (Char.ofNat 8, r2)
    else if e = 'f' then some (Char.ofNat 12, r2)
    else if e = 'n' then some ('\n', r2)
    else if e = 'r' then some ('\r', r2)
    else if e = 't' then some ('\t', r2)
    else if e = 'u' then
      match parseHex4 r2 with
      | none => none
      | some (n, r3) =>
        if 0xD800 ≤ n && n ≤ 0xDBFF then
          match r3 with
          | '\\' :: 'u' :: r4 =>
            match parseHex4 r4 with
            | some (m, r5) =>
              if 0xDC00 ≤ m && m ≤ 0xDFFF then
                some (Char.ofNat (0x10000 + (n - 0xD800) * 0x400 + (m - 0xDC00)), r5)
              else none
            | none => none
          | _ => none
        else if 0xDC00 ≤ n && n ≤ 0xDFFF then none
        else some (Char.ofNat n, r3)
    else none

/-- Parse the body of a JSON string (the opening quote already consumed),
returning the decoded contents and the input after the closing quote. -/
def parseStringBody : Nat → List Char → Option (List Char × List Char)
  | 0, _ => none
  | _, [] => none
  | fuel + 1, c :: r =>
    if c = '"' then some ([], r)
    else if c = '\\' then
      match readEscape r with
      | none => none
      | some (ch, r2) => (parseStringBody fuel r2).map (fun p => (ch :: p.1, p.2))
    else if c.toNat < 0x20 then none
    else (parseStringBody fuel r).map (fun p => (c :: p.1, p.2))

/-- Longest prefix of decimal digits together with the rest. -/
def takeDigits : List Char → (List Char × List Char)
  | [] => ([], [])
  | c :: r =>
    if isDigitCh c then
      let (ds, r') := takeDigits r
      (c :: ds, r')
    else ([], c :: r)

/-- The integer part of a JSON number: `0` or a nonzero digit followed by
digits (Python's `(-?(?:0|[1-9]\d*))`). -/
def parseIntPart : List Char → Option (List Char × List Char)
  | [] => none
  | c :: r =>
    if c = '0' then some (['0'], r)
    else if isDigitCh c then
      let (ds, r') := takeDigits r
      some (c :: ds, r')
    else none

/-- Optional fraction part `(\.\d+)?`; returns `([], cs)` when absent,
mirroring the backtracking of the Python number regex. -/
def tryFrac (cs : List Char) : List Char × List Char :=
  match cs with
  | '.' :: r =>
    match takeDigits r with
    | ([], _) => ([], cs)
    | (ds, r') => ('.' :: ds, r')
  | _ => ([], cs)

/-- Optional exponent part `([eE][-+]?\d+)?`; returns `([], cs)` when
absent. -/
def tryExp (cs : List Char) : List Char × List Char :=
  match cs with
  | e :: r =>
    if e = 'e' || e = 'E' then
      match r with
      | s :: r1 =>
        if s = '+' || s = '-' then
          match takeDigits r1 with
          | ([], _) => ([], cs)
          | (ds, r2) => (e :: s :: ds, r2)
        else
          match takeDigits r with
          | ([], _) => ([], cs)
          | (ds, r2) => (e :: ds, r2)
      | [] => ([], cs)
    else ([], cs)
  | [] => ([], cs)

/-- Parse a JSON number lexeme (after an optional leading `-` handled
here), following Python's `NUMBER_RE`. -/
def parseNumber (cs : List Char) : Option (List Char × List Char) :=
  match cs with
  | [] => none
  | c :: r =>
    if c = '-' then
      match parseIntPart r with
      | none => none
      | some (ip, r1) =>
        let (fp, r2) := tryFrac r1
        let (ep, r3) := tryExp r2
        some ('-' :: (ip ++ fp ++ ep), r3)
    else
      match parseIntPart (c :: r) with
      | none => none
      | some (ip, r1) =>
        let (fp, r2) := tryFrac r1
        let (ep, r3) := tryExp r2
        some (ip ++ fp ++ ep, r3)

/-- Parse the keyword tokens (`true`, `false`, `null`, and the
`NaN`/`Infinity`/`-Infinity` constants Python accepts) or a number. -/
def parseLit (cs : List Char) : Option (Json × List Char) :=
  if cs.take 4 = "true".data then some (Json.bool true, cs.drop 4)
  else if cs.take 5 = "false".data then some (Json.bool false, cs.drop 5)
  else if cs.take 4 = "null".data then some (Json.null, cs.drop 4)
  else if cs.take 3 = "NaN".data then some (Json.num "NaN".data, cs.drop 3)
  else if cs.take 8 = "Infinity".data then some (Json.num "Infinity".data, cs.drop 8)
  else if cs.take 9 = "-Infinity".data then
    some (Json.num "-Infinity".data, cs.drop 9)
  else
    match cs with
    | c :: _ =>
      if c = '-' || isDigitCh c then
        (parseNumber cs).map (fun p => (Json.num p.1, p.2))
      else none
    | [] => none

mutual

/-- Parse a JSON value (leading whitespace skipped here, trailing
whitespace left in place). -/
def parseValue : Nat → List Char → Option (Json × List Char)
  | 0, _ => none
  | fuel + 1, cs =>
    match skipWs cs with
    | [] => none
    | c :: r =>
      if c = lbrace then (parseMembersStart fuel r).map (fun p => (Json.obj p.1, p.2))
      else if c = '[' then (parseItemsStart fuel r).map (fun p => (Json.arr p.1, p.2))
      else if c = '"' then (parseStringBody fuel r).map (fun p => (Json.str p.1, p.2))
      else parseLit (c :: r)

/-- Parse object members right after the opening brace, consuming through
the closing brace. -/
def parseMembersStart : Nat → List Char → Option (List (List Char × Json) × List Char)
  | 0, _ => none
  | fuel + 1, cs =>
    match skipWs cs with
    | c :: r =>
      if c = rbrace then some ([], r)
      else if c = '"' then
        match parseStringBody fuel r with
        | none => none
        | some (k, r1) =>
          match skipWs r1 with
          | c2 :: r2 =>
            if c2 = ':' then
              match parseValue fuel r2 with
              | none => none
              | some (v, r3) =>
                (parseMembersLoop fuel r3).map (fun p => ((k, v) :: p.1, p.2))
            else none
          | [] => none
      else none
    | [] => none

/-- Parse the continuation of an object after a completed member: either a
comma and another member, or the closing brace. -/
def parseMembersLoop : Nat → List Char → Option (List (List Char × Json) × List Char)
  | 0, _ => none
  | fuel + 1, cs =>
    match skipWs cs with
    | c :: r =>
      if c = rbrace then some ([], r)
      else if c = ',' then
        match skipWs r with
        | c1 :: r1 =>
          if c1 = '"' then
            match parseStringBody fuel r1 with
            | none => none
            | some (k, r2) =>
              match skipWs r2 with
              | c2 :: r3 =>
                if c2 = ':' then
                  match parseValue fuel r3 with
                  | none => none
                  | some (v, r4) =>
                    (parseMembersLoop fuel r4).map (fun p => ((k, v) :: p.1, p.2))
                else none
              | [] => none
          else none
        | [] => none
      else none
    | [] => none

/-- Parse array items right after the opening bracket, consuming through
the closing bracket. -/
def parseItemsStart : Nat → List Char → Option (List Json × List Char)
  | 0, _ => none
  | fuel + 1, cs =>
    match skipWs cs with
    | c :: r =>
      if c = ']' then some ([], r)
      else
        match parseValue fuel cs with
        | none => none
        | some (v, r1) =>
          (parseItemsLoop fuel r1).map (fun p => (v :: p.1, p.2))
    | [] => none

/-- Parse the continuation of an array after a completed item. -/
def parseItemsLoop : Nat → List Char → Option (List Json × List Char)
  | 0, _ => none
  | fuel + 1, cs =>
    match skipWs cs with
    | c :: r =>
      if c = ']' then some ([], r)
      else if c = ',' then
        match parseValue fuel r with
        | none => none
        | some (v, r1) =>
          (parseItemsLoop fuel r1).map (fun p => (v :: p.1, p.2))
      else none
    | [] => none

end

/-- Model of Python's `json.loads` on a character sequence: parse one value
and require the remainder to be whitespace.  The fuel `2 * length + 4`
is sufficient because at least one character is consumed for every two
levels of recursion. -/
def jsonLoads (cs : List Char) : Option Json :=
  match parseValue (2 * cs.length + 4) cs with
  | some (v, rest) => if skipWs rest = [] then some v else none
  | none => none

/-! ### Python operation models -/

/-- Exceptions the scripts can raise outside of the handled
`FileNotFoundError` / `JSONDecodeError` cases. -/
inductive PyErr where
  | typeError
  | keyError
deriving DecidableEq

/-- Python `k in v` for a value obtained from `json.loads`:
key membership for a dict, substring test for a string, element equality
for a list (a string compares equal only to equal strings), and a
`TypeError` for numbers, booleans and `None`. -/
def pyIn (k : List Char) : Json → Except PyErr Bool
  | .obj ms => .ok (ms.any (fun p => p.1 = k))
  | .str s => .ok (decide (k <:+: s))
  | .arr xs => .ok (xs.any (fun v => match v with | .str s => s = k | _ => false))
  | _ => .error .typeError

/-- Python `v[k]` for a value obtained from `json.loads`: dict lookup
(duplicate JSON keys: the last occurrence wins, as in `json.loads`),
`TypeError` for any non-dict. -/
def pyIndex (k : List Char) : Json → Except PyErr Json
  | .obj ms =>
    match ms.reverse.find? (fun p => p.1 = k) with
    | some p => .ok p.2
    | none => .error .keyError
  | _ => .error .typeError

/-- Uppercase an ASCII letter (the script data is ASCII; other characters
are left unchanged). -/
def asciiUpper (c : Char) : Char :=
  if 'a' ≤ c && c ≤ 'z' then Char.ofNat (c.toNat - 32) else c

/-- Lowercase an ASCII letter. -/
def asciiLower (c : Char) : Char :=
  if 'A' ≤ c && c ≤ 'Z' then Char.ofNat (c.toNat + 32) else c

/-- ASCII letter test (models Python's notion of a cased character for the
ASCII data handled by the scripts). -/
def isAsciiAlpha (c : Char) : Bool :=
  ('a' ≤ c && c ≤ 'z') || ('A' ≤ c && c ≤ 'Z')

/-- Python `str.capitalize`: first character uppercased, the rest
lowercased. -/
def pyCapitalize : List Char → List Char
  | [] => []
  | c :: r => asciiUpper c :: r.map asciiLower

/-- Helper for `str.title`: the flag records whether the previous character
was cased. -/
def pyTitleGo : Bool → List Char → List Char
  | _, [] => []
  | prevCased, c :: r =>
    if isAsciiAlpha c then
      (if prevCased then asciiLower c else asciiUpper c) :: pyTitleGo true r
    else c :: pyTitleGo false r

/-- Python `str.title`. -/
def pyTitle (s : List Char) : List Char := pyTitleGo false s

/-- Python `str.strip()` (no arguments): remove leading and trailing
whitespace. -/
def pyStrip (s : List Char) : List Char :=
  ((s.dropWhile pyWs).reverse.dropWhile pyWs).reverse

/-- Split at every occurrence of a single separator character, keeping
empty pieces — the behaviour of `re.split(r"[-_]", s)`. -/
def splitSep (p : Char → Bool) : List Char → List (List Char)
  | [] => [[]]
  | c :: r =>
    if p c then [] :: splitSep p r
    else
      match splitSep p r with
      | l :: ls => (c :: l) :: ls
      | [] => [[c]]

/-- `re.split(r"\s{2,}", line)`: maximal whitespace runs of length at least
two are separators; single whitespace characters stay in the pieces. -/
def splitWs2 : List Char → List (List Char)
  | [] => [[]]
  | c :: r =>
    if pyWs c && (match r with | d :: _ => pyWs d | [] => false) then
      [] :: splitWs2 (r.dropWhile pyWs)
    else
      match splitWs2 r with
      | l :: ls => (c :: l) :: ls
      | [] => [[c]]
termination_by cs => cs.length
decreasing_by
  · have h := (List.dropWhile_suffix (l := r) pyWs).sublist.length_le
    simp only [List.length_cons]
    omega
  · simp only [List.length_cons]
    omega

/-- Python `line.split("  ")`: split at each non-overlapping, leftmost
occurrence of two consecutive spaces. -/
def splitTwoSpaces : List Char → List (List Char)
  | ' ' :: ' ' :: r => [] :: splitTwoSpaces r
  | c :: r =>
    match splitTwoSpaces r with
    | l :: ls => (c :: l) :: ls
    | [] => [[c]]
  | [] => [[]]

/-- Python line-boundary characters for `str.splitlines` (besides
`\r\n`). -/
def pyLineBreak (c : Char) : Bool :=
  c = '\n' || c = '\r' || c.toNat = 0x0B || c.toNat = 0x0C || c.toNat = 0x1C ||
  c.toNat = 0x1D || c.toNat = 0x1E || c.toNat = 0x85 || c.toNat = 0x2028 ||
  c.toNat = 0x2029

/-- Python `str.splitlines()` (no trailing empty line). -/
def pySplitLines : List Char → List (List Char)
  | [] => []
  | '\r' :: '\n' :: r => [] :: pySplitLines r
  | c :: r =>
    if pyLineBreak c then [] :: pySplitLines r
    else
      match pySplitLines r with
      | l :: ls => (c :: l) :: ls
      | [] => [[c]]

/-! ### JSON serialization (`json.dumps`) for the shapes the scripts
serialize -/

/-- A `{title, help}` localization entry — the value shape both scripts
write for every key. -/
structure Entry where
  title : List Char
  help : List Char
deriving DecidableEq

/-- Lowercase hexadecimal digit. -/
def hexDigit (n : Nat) : Char :=
  if n < 10 then Char.ofNat ('0'.toNat + n) else Char.ofNat ('a'.toNat + n - 10)

/-- `json.dumps` string escaping with `ensure_ascii=False`: quote,
backslash and control characters are escaped, everything else is emitted
literally. -/
def escapeChar (c : Char) : List Char :=
  if c = '"' then ['\\', '"']
  else if c = '\\' then ['\\', '\\']
  else if c = '\n' then ['\\', 'n']
  else if c = '\r' then ['\\', 'r']
  else if c = '\t' then ['\\', 't']
  else if c.toNat = 8 then ['\\', 'b']
  else if c.toNat = 12 then ['\\', 'f']
  else if c.toNat < 0x20 then
    ['\\', 'u', '0', '0', hexDigit (c.toNat / 16), hexDigit (c.toNat % 16)]
  else [c]

/-- Escape a whole string for JSON output. -/
def jsonEscape (s : List Char) : List Char := s.flatMap escapeChar

/-- A JSON string literal. -/
def qstr (s : List Char) : List Char := '"' :: (jsonEscape s ++ ['"'])

/-- `n` spaces. -/
def indentSp (n : Nat) : List Char := List.replicate n ' '

/-- `json.dumps({key: value}, indent=indent, ensure_ascii=False)` for a
`{title, help}` value:  the exact six-line text Python produces. -/
def dumpsKeyEntry (key : List Char) (v : Entry) (indent : Nat) : List Char :=
  [lbrace]
    ++ '\n' :: (indentSp indent ++ qstr key ++ ':' :: ' ' :: [lbrace])
    ++ '\n' :: (indentSp (2 * indent) ++ qstr "title".data ++ ':' :: ' ' :: qstr v.title ++ [','])
    ++ '\n' :: (indentSp (2 * indent) ++ qstr "help".data ++ ':' :: ' ' :: qstr v.help)
    ++ '\n' :: (indentSp indent ++ [rbrace])
    ++ '\n' :: [rbrace]

/-- `json.dumps(value, ensure_ascii=False)` (no indent) for a
`{title, help}` value: the compact one-line form used by the
`format_new_key_block` fallback branch. -/
def dumpsEntryCompact (v : Entry) : List Char :=
  [lbrace] ++ qstr "title".data ++ ':' :: ' ' :: qstr v.title ++ ',' :: ' ' ::
    (qstr "help".data ++ ':' :: ' ' :: qstr v.help) ++ [rbrace]

/-- Split at every newline character.  The scripts call `str.splitlines()`
on `json.dumps` output, which contains `\n` only and no trailing newline,
so on those inputs this agrees with `splitlines` up to the absent trailing
empty piece (which cannot occur without a trailing newline). -/
def splitNl : List Char → List (List Char)
  | [] => [[]]
  | c :: r =>
    if c = '\n' then [] :: splitNl r
    else
      match splitNl r with
      | l :: ls => (c :: l) :: ls
      | [] => [[c]]

/-- The `New Key start` marker line contents (39 slashes, from the source
literal). -/
def markerStart : List Char := List.replicate 39 '/' ++ " New Key start".data

/-- The `New key end` marker line contents (38 slashes). -/
def markerEnd : List Char := List.replicate 38 '/' ++ " New key end".data

/-- `format_new_key_block` — defined identically in both scripts: the
pretty-printed `key: value` member wrapped in marker comment lines, with a
trailing comma after the member. -/
def format_new_key_block (key : List Char) (value : Entry) (indent : Nat) : List Char :=
  let json_str := dumpsKeyEntry key value indent
  let lines := splitNl json_str
  let content :=
    if 3 ≤ lines.length then List.intercalate ['\n'] ((lines.drop 1).dropLast)
    else '"' :: key ++ '"' :: ':' :: ' ' :: dumpsEntryCompact value
  '\n' :: (indentSp indent ++ markerStart)
    ++ '\n' :: (content ++ [','])
    ++ '\n' :: (indentSp indent ++ markerEnd)

/-- Outcome of the `subprocess.run(["rclone", ...], check=True)` call:
the binary may be absent (`FileNotFoundError`), exit nonzero
(`CalledProcessError`, carrying stderr), or succeed with some stdout. -/
inductive SubprocResult where
  | fileNotFound
  | calledProcessError (stderr : List Char)
  | success (stdout : List Char)

/-- Python truthiness of a `json.loads` result (`if not providers:`).
A number is falsy when it equals zero: its mantissa has no nonzero digit
and it is not one of the `NaN`/`Infinity` tokens. -/
def jsonFalsy : Json → Bool
  | .null => true
  | .bool b => !b
  | .num lex =>
    ((lex.takeWhile (fun c => c ≠ 'e' && c ≠ 'E')).all
      (fun c => !('1' ≤ c && c ≤ '9'))) && !(lex.any (fun c => c = 'N' || c = 'I'))
  | .str s => s.isEmpty
  | .arr xs => xs.isEmpty
  | .obj ms => ms.isEmpty

namespace UpdateFlags

/-! ### `update_flags.py` -/


/-- `title_case` from `update_flags.py`: split on `-`/`_`, capitalize each
part, join with spaces. -/
def title_case (s : List Char) : List Char :=
  List.intercalate [' '] ((splitSep (fun c => c = '-' || c = '_') s).map pyCapitalize)

/-- Index of the last occurrence of a character (`str.rfind`). -/
def rfindIdx (ch : Char) : List Char → Option Nat
  | [] => none
  | c :: r =>
    match rfindIdx ch r with
    | some i => some (i + 1)
    | none => if c = ch then some 0 else none

/-- Index and value of the first non-whitespace character. -/
def firstNonWs : List Char → Option (Nat × Char)
  | [] => none
  | c :: r =>
    if pyWs c then (firstNonWs r).map (fun p => (p.1 + 1, p.2))
    else some (0, c)

/-- Index and value of the last non-whitespace character: the result of
the backward scan `while i >= 0: ...` of `update_file` applied to
`content[:last_brace_idx]`. -/
def lastNonWs (cs : List Char) : Option (Nat × Char) :=
  (firstNonWs cs.reverse).map (fun p => (cs.length - 1 - p.1, p.2))

/-- The `key not in current_data` filter of `update_file`, collecting the
missing keys in upstream order; a `TypeError` raised by `in` propagates. -/
def missingKeys (flags : List (List Char × Entry)) (cur : Json) :
    Except PyErr (List (List Char × Entry)) :=
  match flags with
  | [] => .ok []
  | (k, v) :: rest =>
    match pyIn k cur with
    | .error e => .error e
    | .ok b => (missingKeys rest cur).map (fun ms => if b then ms else (k, v) :: ms)

/-- `update_file` from `update_flags.py` as a pure function.
`file = none` models a `FileNotFoundError` on open; the result is
`.ok none` when the function returns without writing, `.ok (some out)`
when it writes `out`, and `.error e` when an uncaught exception aborts
the script (before any write). -/
def update_file :
    Option (List Char) → List (List Char × Entry) → Except PyErr (Option (List Char))
  | none, _flags_data => .ok none
  | some content, flags_data =>
    match jsonLoads content with
    | none => .ok none
    | some current_data =>
      match missingKeys flags_data current_data with
      | .error e => .error e
      | .ok missing =>
        if missing.isEmpty then .ok none
        else
          match rfindIdx rbrace content with
          | none => .ok none
          | some last_brace_idx =>
            let scan := lastNonWs (content.take last_brace_idx)
            let needs_comma :=
              match scan with
              | none => false
              | some (_, c) => !(c = ',' || c = lbrace || c = '[')
            let full_insertion :=
              (missing.map (fun p => format_new_key_block p.1 p.2 2)).flatten
            let s_content :=
              if needs_comma then
                match scan with
                | some (i, _) => content.take (i + 1) ++ ',' :: content.drop (i + 1)
                | none => content
              else content
            let b := if needs_comma then last_brace_idx + 1 else last_brace_idx
            .ok (some (s_content.take b ++ full_insertion ++ '\n' :: s_content.drop b))

/-- The content of a file after `update_file` ran on it: unchanged unless
the function wrote. -/
def runContent (content : List Char) (flags_data : List (List Char × Entry)) : List Char :=
  match update_file (some content) flags_data with
  | .ok (some out) => out
  | _ => content

/-- Character class of the regex `--([a-z0-9-]+)` capture group. -/
def isFlagCh (c : Char) : Bool :=
  ('a' ≤ c && c ≤ 'z') || ('0' ≤ c && c ≤ '9') || c = '-'

/-- `re.search(r"--([a-z0-9-]+)", line)`: the capture group of the
leftmost match — two dashes followed by a maximal nonempty run of flag
characters. -/
def findFlagName : List Char → Option (List Char)
  | '-' :: '-' :: d :: r2 =>
    if isFlagCh d then some (d :: r2.takeWhile isFlagCh)
    else findFlagName ('-' :: d :: r2)
  | _ :: r => findFlagName r
  | [] => none
termination_by cs => cs.length

/-- Python dict assignment `flags[key] = v`: replace in place if the key
exists, else append. -/
def dictInsert (m : List (List Char × Entry)) (k : List Char) (v : Entry) :
    List (List Char × Entry) :=
  if m.any (fun p => p.1 = k) then m.map (fun p => if p.1 = k then (k, v) else p)
  else m ++ [(k, v)]

/-- The per-line body of `parse_flags`. -/
def parseFlagsLine (flags : List (List Char × Entry)) (rawLine : List Char) :
    List (List Char × Entry) :=
  let line := pyStrip rawLine
  if line.isEmpty || "Flags".data.isPrefixOf line || "Usage".data.isPrefixOf line then
    flags
  else
    match findFlagName line with
    | none => flags
    | some flag_name =>
      let parts := splitWs2 line
      let help_text :=
        if 2 ≤ parts.length then parts.getLastD []
        else pyStrip ((splitTwoSpaces line).getLastD [])
      let key := flag_name.map (fun c => if c = '-' then '_' else c)
      dictInsert flags key ⟨title_case flag_name, help_text⟩

/-- `parse_flags` from `update_flags.py`. -/
def parse_flags (output : List Char) : List (List Char × Entry) :=
  (pySplitLines output).foldl parseFlagsLine []

/-- `get_flags`: `None` when rclone is absent or exits nonzero (the error
message printing is an unmodelled side effect), otherwise the parsed
flags. -/
def get_flags : SubprocResult → Option (List (List Char × Entry))
  | .success out => some (parse_flags out)
  | .calledProcessError _ => none
  | .fileNotFound => none

/-- The `for entry in os.listdir(I18N_DIR)` loop of `main`, over the
language files (`none` = the per-language `rclone.json` is missing for
`update_file`'s open).  An uncaught exception aborts the loop, leaving
the current and all remaining files unchanged. -/
def updateAll (flags_data : List (List Char × Entry)) :
    List (Option (List Char)) → List (Option (List Char))
  | [] => []
  | f :: rest =>
    match update_file f flags_data with
    | .error _ => f :: rest
    | .ok none => f :: updateAll flags_data rest
    | .ok (some s) => some s :: updateAll flags_data rest

/-- `main` from `update_flags.py`: exit code (`none` = normal exit) and
the resulting file contents.  `if not flags:` exits with code 1 both for
a fetch failure (`None`) and for an empty parsed dict.  The separate
`I18N_DIR` existence check is outside the modelled state (the model
assumes the directory exists). -/
def main_run (r : SubprocResult) (files : List (Option (List Char))) :
    Option Nat × List (Option (List Char)) :=
  match get_flags r with
  | none => (some 1, files)
  | some flags =>
    if flags.isEmpty then (some 1, files)
    else (none, updateAll flags files)

end UpdateFlags

namespace UpdateProviders

/-! ### `update_providers.py` -/


/-- One option of a provider in the fetched RC payload.  `name` models
`opt.get("Name")` (an absent `"Name"` behaves exactly like the empty
string: both are falsy and skipped); `help` models `opt.get("Help", "")`. -/
structure ProvOption where
  name : List Char
  help : List Char
deriving DecidableEq

/-- One provider of the fetched RC payload: the value of `p["Name"]` and
`p.get("Options", [])`.  The upstream payload is modelled structurally as
the list under the `"providers"` key of the `rclone rc config/providers`
response, which is the schema the script's accesses assume. -/
structure Provider where
  name : List Char
  options : List ProvOption
deriving DecidableEq

/-- `title_case` from `update_providers.py`:
`s.replace("_", " ").title()`. -/
def title_case (s : List Char) : List Char :=
  pyTitle (s.map (fun c => if c = '_' then ' ' else c))

/-- `provider_map = {p["Name"]: p for p in fetched_providers}`: a Python
dict comprehension keyed by name — a later duplicate name replaces the
value but keeps the first occurrence's position. -/
def providerMap (ps : List Provider) : List Provider :=
  ps.foldl
    (fun acc p =>
      if acc.any (fun q => q.name = p.name) then
        acc.map (fun q => if q.name = p.name then p else q)
      else acc ++ [p])
    []

/-- The first loop of `update_file` (the `# Check for missing providers`
loop): its body only prints and builds a local dict, so the only
observable effects are the `TypeError`s that
`p_name not in current_data["providers"]` can raise. -/
def checkLoop (ps : List Provider) (current_data : Json) : Except PyErr Unit :=
  match ps with
  | [] => .ok ()
  | p :: rest =>
    match pyIndex "providers".data current_data with
    | .error e => .error e
    | .ok pv =>
      match pyIn p.name pv with
      | .error e => .error e
      | .ok _ => checkLoop rest current_data

/-- The `opt_name and opt_name not in existing_options` filter collecting
missing options in upstream order; a falsy (empty/absent) name is skipped
before membership is evaluated. -/
def missingOptions (opts : List ProvOption) (existing_options : Json) :
    Except PyErr (List ProvOption) :=
  match opts with
  | [] => .ok []
  | o :: rest =>
    if o.name.isEmpty then missingOptions rest existing_options
    else
      match pyIn o.name existing_options with
      | .error e => .error e
      | .ok b =>
        (missingOptions rest existing_options).map (fun ms => if b then ms else o :: ms)

/-- Does the regex `f'"{p_name}"\s*:\s*' + lbrace` match at the start of
`cs`?  The provider name is interpolated literally into the pattern; real
rclone provider names contain no regex metacharacters, so a literal match
is the faithful model. -/
def matchProviderAt (name : List Char) (cs : List Char) : Bool :=
  match cs with
  | '"' :: r =>
    if name.isPrefixOf r then
      match r.drop name.length with
      | '"' :: r2 =>
        match r2.dropWhile pyWs with
        | ':' :: r3 =>
          match r3.dropWhile pyWs with
          | c :: _ => c = lbrace
          | [] => false
        | _ => false
      | _ => false
    else false
  | _ => false

/-- `re.search(f'"{p_name}"\s*:\s*' + lbrace, s).start()`: the index of
the leftmost match. -/
def findProviderStart (name : List Char) : List Char → Option Nat
  | [] => none
  | c :: r =>
    if matchProviderAt name (c :: r) then some 0
    else (findProviderStart name r).map (· + 1)

/-- The brace-counting scan of `update_file` starting at offset 0 of the
given list: `{` increments, `}` decrements, and the scan stops at the
first `}` that returns the count to zero after at least one `{` was
seen.  Returns the offset of that `}`. -/
def braceScanAux : List Char → Int → Bool → Option Nat
  | [], _, _ => none
  | c :: r, count, found =>
    if c = lbrace then (braceScanAux r (count + 1) true).map (· + 1)
    else if c = rbrace then
      if found && count - 1 = 0 then some 0
      else (braceScanAux r (count - 1) found).map (· + 1)
    else (braceScanAux r count found).map (· + 1)

/-- The index (into `cs`) of the closing brace matching the first opening
brace at or after `start`; `none` models `end_idx == -1`. -/
def braceMatchEnd (cs : List Char) (start : Nat) : Option Nat :=
  (braceScanAux (cs.drop start) 0 false).map (· + start)

/-- The `{title, help}` entry built for a missing option. -/
def optEntry (o : ProvOption) : Entry :=
  ⟨title_case o.name, o.help⟩

/-- The body of the second provider loop for one provider: check options
of an existing provider, and splice the missing-option blocks into the
running content.  A provider absent from the file reaches the `else`
branch of the source, which only prints (`pass`): nothing is inserted. -/
def processProvider (existing_providers : Json) (updated : List Char) (p : Provider) :
    Except PyErr (List Char) :=
  match pyIn p.name existing_providers with
  | .error e => .error e
  | .ok false => .ok updated
  | .ok true =>
    match pyIndex p.name existing_providers with
    | .error e => .error e
    | .ok existing_options =>
      match missingOptions p.options existing_options with
      | .error e => .error e
      | .ok [] => .ok updated
      | .ok missing =>
        match findProviderStart p.name updated with
        | none => .ok updated
        | some start_idx =>
          match braceMatchEnd updated start_idx with
          | none => .ok updated
          | some end_idx =>
            let full_insertion :=
              (missing.map (fun o => format_new_key_block o.name (optEntry o) 6)).flatten
            .ok (updated.take end_idx ++ full_insertion
              ++ '\n' :: ' ' :: ' ' :: ' ' :: ' ' :: updated.drop end_idx)

/-- The second provider loop folded over the provider map, threading the
updated content. -/
def providerLoop (ps : List Provider) (existing_providers : Json) (updated : List Char) :
    Except PyErr (List Char) :=
  match ps with
  | [] => .ok updated
  | p :: rest =>
    match processProvider existing_providers updated p with
    | .error e => .error e
    | .ok u2 => providerLoop rest existing_providers u2

/-- `update_file` from `update_providers.py` as a pure function, with the
same conventions as `UpdateFlags.update_file`: `.ok none` = returned
without writing, `.ok (some out)` = wrote `out`, `.error` = uncaught
exception (before any write). -/
def update_file :
    Option (List Char) → List Provider → Except PyErr (Option (List Char))
  | none, _providers_data => .ok none
  | some content, providers_data =>
    match jsonLoads content with
    | none => .ok none
    | some current_data =>
      match pyIn "providers".data current_data with
      | .error e => .error e
      | .ok false => .ok none
      | .ok true =>
        let provider_map := providerMap providers_data
        match checkLoop provider_map current_data with
        | .error e => .error e
        | .ok () =>
          match pyIndex "providers".data current_data with
          | .error e => .error e
          | .ok existing_providers =>
            match providerLoop provider_map existing_providers content with
            | .error e => .error e
            | .ok updated =>
              .ok (if updated = content then none else some updated)

/-- The content of a file after `update_file` ran on it. -/
def runContent (content : List Char) (providers_data : List Provider) : List Char :=
  match update_file (some content) providers_data with
  | .ok (some out) => out
  | _ => content

/-- `get_providers`: `None` when rclone is absent, exits nonzero, or its
stdout fails to parse (the blanket `except Exception` catches the
`JSONDecodeError`); otherwise the parsed JSON payload. -/
def get_providers : SubprocResult → Option Json
  | .success out => jsonLoads out
  | .calledProcessError _ => none
  | .fileNotFound => none

/-- The string value of a field of a parsed JSON object (empty when
absent or not a string). -/
def strField (ms : List (List Char × Json)) (k : List Char) : List Char :=
  match ms.reverse.find? (fun p => p.1 = k) with
  | some (_, .str s) => s
  | _ => []

/-- Structural view of a parsed RC payload as the provider list, used
only to state `main` on its non-error branch; faithful for well-formed
`rclone rc config/providers` responses (the schema `update_file`'s
accesses assume). -/
def providersOfJson : Json → List Provider
  | .obj ms =>
    match ms.reverse.find? (fun p => p.1 = "providers".data) with
    | some (_, .arr xs) =>
      xs.map (fun p =>
        match p with
        | .obj pms =>
          ⟨strField pms "Name".data,
            match pms.reverse.find? (fun q => q.1 = "Options".data) with
            | some (_, .arr os) =>
              os.map (fun o =>
                match o with
                | .obj oms => ⟨strField oms "Name".data, strField oms "Help".data⟩
                | _ => ⟨[], []⟩)
            | _ => []⟩
        | _ => ⟨[], []⟩)
    | _ => []
  | _ => []

/-- The language-file loop of `main` from `update_providers.py`. -/
def updateAll (providers_data : List Provider) :
    List (Option (List Char)) → List (Option (List Char))
  | [] => []
  | f :: rest =>
    match update_file f providers_data with
    | .error _ => f :: rest
    | .ok none => f :: updateAll providers_data rest
    | .ok (some s) => some s :: updateAll providers_data rest

/-- `main` from `update_providers.py`: exit code and resulting file
contents.  `if not providers:` exits with code 1 for a fetch failure and
for any falsy payload. -/
def main_run (r : SubprocResult) (files : List (Option (List Char))) :
    Option Nat × List (Option (List Char)) :=
  match get_providers r with
  | none => (some 1, files)
  | some j =>
    if jsonFalsy j then (some 1, files)
    else (none, updateAll (providersOfJson j) files)

end UpdateProviders

/-! ### The inserted marker pattern and why patched files do not re-parse

Every inserted block starts with a newline, indentation spaces, and a run
of slashes (the `New Key start` marker line).  Valid JSON can never
contain a newline followed by spaces followed by a slash: slashes occur
only inside string literals, and a string literal cannot contain a raw
newline.  The predicates below capture the pattern, and the lemmas show
that any text accepted by the parser avoids it. -/

/-- Does the text start with spaces followed by a slash? -/
def leadSlashB : List Char → Bool
  | [] => false
  | c :: r => if c = ' ' then leadSlashB r else c = '/'

/-- Does the text contain a newline followed by spaces followed by a
slash? -/
def hasNlSlashB : List Char → Bool
  | [] => false
  | c :: r => (if c = '\n' then leadSlashB r else false) || hasNlSlashB r

/-- Text with neither the newline-spaces-slash pattern nor a
spaces-then-slash prefix. -/
def MarkerFree (cs : List Char) : Prop :=
  hasNlSlashB cs = false ∧ leadSlashB cs = false

/-- Characters of a number token: digits, sign, dot, exponent letter. -/
def numCh (c : Char) : Prop :=
  isDigitCh c = true ∨ c = '.' ∨ c = 'e' ∨ c = 'E' ∨ c = '+' ∨ c = '-'

/-- The comma decision rule exactly as the specification words it: scan
backward from the anchor skipping whitespace, and require a comma if and
only if the first non-whitespace character found is not a comma, an
opening brace or an opening bracket (no character found: no comma). -/
def specNeedsComma (content : List Char) (anchor : Nat) : Bool :=
  match (content.take anchor).reverse.dropWhile pyWs with
  | c :: _ => !(c = ',' || c = lbrace || c = '[')
  | [] => false

/-! ### Claims: the concrete example -/

/-- The `update_flags.py` example file content of the specification. -/
def c6content : List Char := "\x7b\"a\": \x7b\"title\":\"A\",\"help\":\"h\"\x7d\x7d".data

/-- Upstream flag data containing the keys `a` and `b`. -/
def c6data : List (List Char × Entry) :=
  [("a".data, ⟨"A".data, "h".data⟩), ("b".data, ⟨"B".data, "h".data⟩)]

/-- The patched output: the original text up to the end of the `a` value,
then the inserted comma, then the commented `b` block before the closing
brace. -/
def c6out : List Char :=
  "\x7b\"a\": \x7b\"title\":\"A\",\"help\":\"h\"\x7d".data ++ ',' :: "\n  /////////////////////////////////////// New Key start\n  \"b\": \x7b\n    \"title\": \"B\",\n    \"help\": \"h\"\n  \x7d,\n  ////////////////////////////////////// New key end".data ++ '\n' :: [rbrace]

/-! ### A grammar of parser-accepted text

To reason about re-parsing the patched file (claim C4), the text language
accepted by the recursive-descent parser is captured by an inductive
grammar `G`, mirroring each success path of the parser.  Soundness maps
every successful parse to a derivation; completeness runs the parser
forward over a derivation. -/

/-- Every character of a chunk is JSON whitespace. -/
def AllWs (w : List Char) : Prop := ∀ c ∈ w, jsonWs c = true

/-- Characters that may follow a complete value token without altering any
parsing decision inside it: whitespace and the structural closers. -/
def safeStop (c : Char) : Bool :=
  jsonWs c || c = ',' || c = rbrace || c = ']'

/-- The head of the text following a token is a safe stop (or the text is
empty). -/
def SafeHead : List Char → Prop
  | [] => True
  | c :: _ => safeStop c = true

/-- The integer part of a number lexeme, as `parseIntPart` produces it. -/
def IntShape (t : List Char) : Prop :=
  t = ['0'] ∨
    ∃ d ds, t = d :: ds ∧ d ≠ '0' ∧ isDigitCh d = true ∧
      ∀ x ∈ ds, isDigitCh x = true

/-- The fraction part of a number lexeme. -/
def FracShape (t : List Char) : Prop :=
  t = [] ∨ ∃ ds, t = '.' :: ds ∧ ds ≠ [] ∧ ∀ x ∈ ds, isDigitCh x = true

/-- The exponent part of a number lexeme. -/
def ExpShape (t : List Char) : Prop :=
  t = [] ∨
    ∃ e ds, (e = 'e' ∨ e = 'E') ∧ ds ≠ [] ∧ (∀ x ∈ ds, isDigitCh x = true) ∧
      (t = e :: ds ∨ ∃ s, (s = '+' ∨ s = '-') ∧ t = e :: s :: ds)

/-- The complete shape of a number lexeme. -/
def NumShape (t : List Char) : Prop :=
  ∃ ip fp ep, IntShape ip ∧ FracShape fp ∧ ExpShape ep ∧
    (t = ip ++ fp ++ ep ∨ t = '-' :: (ip ++ fp ++ ep))

/-- The simple single-character escapes of JSON strings. -/
def SimpleEsc (e : Char) : Prop :=
  e = '"' ∨ e = '\\' ∨ e = '/' ∨ e = 'b' ∨ e = 'f' ∨ e = 'n' ∨ e = 'r' ∨ e = 't'

/-- Grammar kinds: value text, object members (from the start / in the
loop), array items (from the start / in the loop). -/
inductive GK where
  | val | ms | ml | isk | il

/-- String body text accepted by `parseStringBody` (the characters
between the quotes), one constructor per success path. -/
inductive Bdy : List Char → Prop where
  | nil : Bdy []
  | plain : ∀ c b, c ≠ '"' → c ≠ '\\' → 0x20 ≤ c.toNat → Bdy b →
      Bdy (c :: b)
  | esc : ∀ e b, SimpleEsc e → Bdy b → Bdy ('\\' :: e :: b)
  | hex : ∀ h1 h2 h3 h4 n b, parseHex4 [h1, h2, h3, h4] = some (n, []) →
      (0xD800 ≤ n && n ≤ 0xDBFF) = false → (0xDC00 ≤ n && n ≤ 0xDFFF) = false →
      Bdy b → Bdy ('\\' :: 'u' :: h1 :: h2 :: h3 :: h4 :: b)
  | surr : ∀ h1 h2 h3 h4 n h5 h6 h7 h8 m b,
      parseHex4 [h1, h2, h3, h4] = some (n, []) →
      (0xD800 ≤ n && n ≤ 0xDBFF) = true →
      parseHex4 [h5, h6, h7, h8] = some (m, []) →
      (0xDC00 ≤ m && m ≤ 0xDFFF) = true →
      Bdy b →
      Bdy ('\\' :: 'u' :: h1 :: h2 :: h3 :: h4 ::
        '\\' :: 'u' :: h5 :: h6 :: h7 :: h8 :: b)

/-- The language accepted by the parser, one constructor per success
path. -/
inductive G : GK → List Char → Prop where
  | str : ∀ b, Bdy b → G .val ('"' :: b ++ ['"'])
  | num : ∀ t, NumShape t → G .val t
  | lit_true : G .val "true".data
  | lit_false : G .val "false".data
  | lit_null : G .val "null".data
  | lit_nan : G .val "NaN".data
  | lit_inf : G .val "Infinity".data
  | lit_ninf : G .val "-Infinity".data
  | obj : ∀ M, G .ms M → G .val (lbrace :: M)
  | arr : ∀ A, G .isk A → G .val ('[' :: A)
  | ms_close : ∀ w, AllWs w → G .ms (w ++ [rbrace])
  | ms_member : ∀ w1 b w2 w3 v L, AllWs w1 → Bdy b → AllWs w2 → AllWs w3 →
      G .val v → G .ml L →
      G .ms (w1 ++ '"' :: (b ++ '"' :: (w2 ++ ':' :: (w3 ++ (v ++ L)))))
  | ml_close : ∀ w, AllWs w → G .ml (w ++ [rbrace])
  | ml_member : ∀ w1 w2 b w3 w4 v L, AllWs w1 → AllWs w2 → Bdy b →
      AllWs w3 → AllWs w4 → G .val v → G .ml L →
      G .ml (w1 ++ ',' :: (w2 ++ '"' :: (b ++ '"' :: (w3 ++ ':' :: (w4 ++ (v ++ L))))))
  | is_close : ∀ w, AllWs w → G .isk (w ++ [']'])
  | is_item : ∀ w v L, AllWs w → G .val v → G .il L → G .isk (w ++ (v ++ L))
  | il_close : ∀ w, AllWs w → G .il (w ++ [']'])
  | il_item : ∀ w w2 v L, AllWs w → AllWs w2 → G .val v → G .il L →
      G .il (w ++ ',' :: (w2 ++ (v ++ L)))

/-- The completeness statement, by grammar kind: with enough fuel the
corresponding parser function accepts the text (plus a whitespace prefix
for values, whose parser skips whitespace itself) and stops exactly at
the given tail. -/
def CompleteStmt : GK → List Char → Prop
  | .val, t => ∀ w fuel T, AllWs w → SafeHead T → 2 * t.length + 1 ≤ fuel →
      ∃ v, parseValue fuel (w ++ (t ++ T)) = some (v, T)
  | .ms, t => ∀ fuel T, 2 * t.length + 1 ≤ fuel →
      ∃ ms, parseMembersStart fuel (t ++ T) = some (ms, T)
  | .ml, t => ∀ fuel T, 2 * t.length + 1 ≤ fuel →
      ∃ ms, parseMembersLoop fuel (t ++ T) = some (ms, T)
  | .isk, t => ∀ fuel T, SafeHead T → 2 * t.length + 1 ≤ fuel →
      ∃ vs, parseItemsStart fuel (t ++ T) = some (vs, T)
  | .il, t => ∀ fuel T, SafeHead T → 2 * t.length + 1 ≤ fuel →
      ∃ vs, parseItemsLoop fuel (t ++ T) = some (vs, T)

def valueEnd (c : Char) : Prop :=
  jsonWs c = false ∧ pyWs c = false ∧ c ≠ ',' ∧ c ≠ lbrace ∧ c ≠ '[' ∧ c ≠ '\\'

/-- What each kind of grammar text ends with. -/
def endOk : GK → Char → Prop
  | .val, c => valueEnd c
  | .ms, c => c = rbrace
  | .ml, c => c = rbrace
  | .isk, c => c = ']'
  | .il, c => c = ']'

/-- Decomposition of object-member texts at the final closing brace: the
text is either whitespace and the brace (empty object), or members
followed by whitespace and the brace, where the members part ends with a
value character and can be continued by any loop text. -/
def SplitStmt : GK → List Char → Prop
  | .ms, M => (∃ w, AllWs w ∧ M = w ++ [rbrace]) ∨
      (∃ M0 w, M = M0 ++ (w ++ [rbrace]) ∧ AllWs w ∧
        (∃ M0' c, M0 = M0' ++ [c] ∧ valueEnd c) ∧
        ∀ L2, G .ml L2 → G .ms (M0 ++ L2))
  | .ml, L => (∃ w, AllWs w ∧ L = w ++ [rbrace]) ∨
      (∃ L0 w, L = L0 ++ (w ++ [rbrace]) ∧ AllWs w ∧
        (∃ L0' c, L0 = L0' ++ [c] ∧ valueEnd c) ∧
        ∀ L2, G .ml L2 → G .ml (L0 ++ L2))
  | _, _ => True

/-! ### The claim's strip operations

The specification claims the patched text parses as JSON once the inserted
comment-marker lines and the trailing comma before a closing brace are
removed.  The two operations below formalise that sentence: a line-based
removal of the marker lines, and a quote-aware scan deleting every comma
whose next non-whitespace character is a closing brace. -/

/-- A line whose content after leading spaces is one of the marker
lines. -/
def isMarkerLine (l : List Char) : Bool :=
  decide (l.dropWhile (fun c => c = ' ') = markerStart) ||
  decide (l.dropWhile (fun c => c = ' ') = markerEnd)

/-- Remove the `New Key start` / `New key end` comment-marker lines. -/
def stripMarkers (x : List Char) : List Char :=
  List.intercalate ['\n'] ((splitNl x).filter (fun l => !(isMarkerLine l)))

/-- Is the first character a closing brace? -/
def headIsRBrace : List Char → Bool
  | [] => false
  | c :: _ => c = rbrace

/-- Remove every comma whose next non-whitespace character is a closing
brace, tracking whether the scan is inside a string literal (a quote
toggles the state; a backslash inside a string escapes the next
character). -/
def stripTCGo : Bool → List Char → List Char
  | _, [] => []
  | true, c :: r =>
    if c = '\\' then
      match r with
      | [] => [c]
      | c2 :: r2 => c :: c2 :: stripTCGo true r2
    else if c = '"' then c :: stripTCGo false r
    else c :: stripTCGo true r
  | false, c :: r =>
    if c = '"' then c :: stripTCGo true r
    else if c = ',' then
      if headIsRBrace (skipWs r) then stripTCGo false r
      else c :: stripTCGo false r
    else c :: stripTCGo false r

/-- Remove the trailing commas of a whole text (scan starts outside any
string). -/
def stripTC (x : List Char) : List Char := stripTCGo false x

/-- The in-string state after scanning a chunk, with the same quote and
escape rules as `stripTCGo`. -/
def tcState : Bool → List Char → Bool
  | s, [] => s
  | true, c :: r =>
    if c = '\\' then
      match r with
      | [] => true
      | _ :: r2 => tcState true r2
    else if c = '"' then tcState false r
    else tcState true r
  | false, c :: r =>
    if c = '"' then tcState true r
    else tcState false r

/-- The comma scan commutes with a chunk outside strings: the chunk passes
through unchanged and does not change the scan state, for every
continuation. -/
def TC (u : List Char) : Prop :=
  (∀ T, stripTCGo false (u ++ T) = u ++ stripTCGo false T) ∧
  (∀ x, tcState false (u ++ x) = tcState false x)

/-- The comma scan commutes with a chunk inside a string. -/
def TCin (u : List Char) : Prop :=
  (∀ T, stripTCGo true (u ++ T) = u ++ stripTCGo true T) ∧
  (∀ x, tcState true (u ++ x) = tcState true x)

/-- The `{title, help}` object text that `json.dumps` produces inside an
inserted key block, with the block's two-space member indentation. -/
def objText (v : Entry) : List Char :=
  lbrace :: '\n' :: (indentSp 4 ++ qstr "title".data ++ ':' :: ' ' ::
    qstr v.title ++ ',' :: '\n' :: (indentSp 4 ++ qstr "help".data ++
      ':' :: ' ' :: qstr v.help ++ '\n' :: (indentSp 2 ++ [rbrace])))

/-- The middle lines of the pretty-printed one-key object: the `content`
variable of `format_new_key_block` for an indent of two. -/
def innerContent (k : List Char) (v : Entry) : List Char :=
  List.intercalate ['\n'] (((splitNl (dumpsKeyEntry k v 2)).drop 1).dropLast)

/-- The loop continuation text of the stripped inserted members: a comma,
a newline, the member, and so on, ending with a newline and the closing
brace. -/
def memChain : List (List Char × Entry) → List Char
  | [] => '\n' :: [rbrace]
  | (k, v) :: ms => ',' :: '\n' :: (innerContent k v ++ memChain ms)

/-- The not-yet-stripped inserted member chain: each block contributes a
newline, its member text, and a trailing comma. -/
def fatTail (ms : List (List Char × Entry)) : List Char :=
  (ms.map (fun p => '\n' :: (innerContent p.1 p.2 ++ [',']))).flatten

/-- Concrete input for the C4 witness: an empty JSON object. -/
def c4content : List Char := "\x7b\x7d".data

/-- Concrete upstream data for the C4 witness: one flag. -/
def c4flags : List (List Char × Entry) :=
  [("new-key".data, ⟨"Title".data, "Help".data⟩)]

/-- The text the updater writes for the C4 witness input. -/
def c4out : List Char :=
  match UpdateFlags.update_file (some c4content) c4flags with
  | .ok (some o) => o
  | _ => []

theorem leadSlash_append (a b : List Char) (ha : leadSlashB a = false)
    (hb : leadSlashB b = false) : leadSlashB (a ++ b) = false := by
  induction a with
  | nil => simpa using hb
  | cons c r ih =>
    simp only [leadSlashB] at ha
    simp only [List.cons_append, leadSlashB]
    by_cases hc : c = ' '
    · rw [if_pos hc] at ha ⊢
      exact ih ha
    · rw [if_neg hc] at ha ⊢
      exact ha

theorem hasNlSlash_append (a b : List Char) (ha : hasNlSlashB a = false)
    (hb : hasNlSlashB b = false) (hlb : leadSlashB b = false) :
    hasNlSlashB (a ++ b) = false := by
  induction a with
  | nil => simpa using hb
  | cons c r ih =>
    simp only [hasNlSlashB, Bool.or_eq_false_iff] at ha
    obtain ⟨hc1, hc2⟩ := ha
    simp only [List.cons_append, hasNlSlashB, Bool.or_eq_false_iff]
    refine ⟨?_, ih hc2⟩
    by_cases hc : c = '\n'
    · rw [if_pos hc] at hc1 ⊢
      exact leadSlash_append r b hc1 hlb
    · rw [if_neg hc]

theorem MarkerFree_append (a b : List Char) (ha : MarkerFree a)
    (hb : MarkerFree b) : MarkerFree (a ++ b) :=
  ⟨hasNlSlash_append a b ha.1 hb.1 hb.2, leadSlash_append a b ha.2 hb.2⟩

/-- Text whose characters are none of newline, space, slash is
marker-free. -/
theorem MarkerFree_classes (l : List Char)
    (h : ∀ x ∈ l, x ≠ '\n' ∧ x ≠ ' ' ∧ x ≠ '/') : MarkerFree l := by
  induction l with
  | nil => exact ⟨rfl, rfl⟩
  | cons c r ih =>
    obtain ⟨hc1, hc2, hc3⟩ := h c (by simp)
    obtain ⟨ih1, ih2⟩ := ih (fun x hx => h x (by simp [hx]))
    constructor
    · simp only [hasNlSlashB, Bool.or_eq_false_iff]
      exact ⟨by rw [if_neg hc1], ih1⟩
    · simp only [leadSlashB]
      rw [if_neg hc2]
      simpa using hc3

/-- A single non-newline non-slash character is marker-free. -/
theorem MarkerFree_single (c : Char) (h1 : c ≠ '\n') (h2 : c ≠ '/') :
    MarkerFree [c] := by
  refine ⟨?_, ?_⟩
  · simp only [hasNlSlashB, Bool.or_false]
    rw [if_neg h1]
  · simp only [leadSlashB]
    by_cases hc : c = ' '
    · rw [if_pos hc]
    · rw [if_neg hc]
      simpa using h2

/-- JSON whitespace is marker-free. -/
theorem MarkerFree_ws (w : List Char) (h : ∀ c ∈ w, jsonWs c = true) :
    MarkerFree w := by
  induction w with
  | nil => exact ⟨rfl, rfl⟩
  | cons c r ih =>
    have hc := h c (by simp)
    obtain ⟨ih1, ih2⟩ := ih (fun x hx => h x (by simp [hx]))
    have hcslash : c ≠ '/' := by
      intro hcc
      subst hcc
      simp [jsonWs] at hc
    constructor
    · simp only [hasNlSlashB, Bool.or_eq_false_iff]
      refine ⟨?_, ih1⟩
      by_cases hnl : c = '\n'
      · rw [if_pos hnl]
        exact ih2
      · rw [if_neg hnl]
    · simp only [leadSlashB]
      by_cases hsp : c = ' '
      · rw [if_pos hsp]
        exact ih2
      · rw [if_neg hsp]
        simpa using hcslash

/-- The text of a string token (quote plus raw body) is marker-free as
long as the body has no raw newline. -/
theorem MarkerFree_string (b : List Char) (h : '\n' ∉ b) :
    MarkerFree ('"' :: b) := by
  constructor
  · simp only [hasNlSlashB, Bool.or_eq_false_iff]
    refine ⟨by rw [if_neg (by decide : ('"' : Char) ≠ '\n')], ?_⟩
    induction b with
    | nil => rfl
    | cons c r ih =>
      simp only [List.mem_cons, not_or] at h
      simp only [hasNlSlashB, Bool.or_eq_false_iff]
      exact ⟨by rw [if_neg (fun hc => h.1 hc.symm)], ih h.2⟩
  · simp only [leadSlashB]
    rw [if_neg (by decide : ('"' : Char) ≠ ' ')]
    decide

/-- `skipWs` splits off a whitespace prefix. -/
theorem skipWs_split (cs : List Char) :
    ∃ w, cs = w ++ skipWs cs ∧ ∀ c ∈ w, jsonWs c = true := by
  induction cs with
  | nil => exact ⟨[], rfl, by simp⟩
  | cons c r ih =>
    by_cases hc : jsonWs c
    · obtain ⟨w, hw, hws⟩ := ih
      refine ⟨c :: w, ?_, ?_⟩
      · simp only [skipWs, hc, if_true, List.cons_append]
        rw [← hw]
      · intro x hx
        rcases List.mem_cons.mp hx with h | h
        · rw [h]; exact hc
        · exact hws x h
    · refine ⟨[], ?_, by simp⟩
      simp only [skipWs, hc, Bool.false_eq_true, if_false, List.nil_append]

/-- A fully-skipped text is all whitespace. -/
theorem skipWs_nil_allWs (cs : List Char) (h : skipWs cs = []) :
    ∀ c ∈ cs, jsonWs c = true := by
  induction cs with
  | nil => simp
  | cons c r ih =>
    by_cases hc : jsonWs c
    · simp only [skipWs, hc, if_true] at h
      intro x hx
      rcases List.mem_cons.mp hx with hh | hh
      · rw [hh]; exact hc
      · exact ih h x hh
    · simp only [skipWs, hc, Bool.false_eq_true, if_false] at h
      exact absurd h (by simp)

/-- A character with a hexadecimal value is not a newline. -/
theorem hexVal_ne_newline (c : Char) (v : Nat) (h : hexVal c = some v) :
    c ≠ '\n' := by
  intro hc
  subst hc
  simp [hexVal] at h

/-- `parseHex4` consumes four non-newline characters. -/
theorem parseHex4_split (l : List Char) (n : Nat) (r : List Char)
    (h : parseHex4 l = some (n, r)) :
    ∃ h4, l = h4 ++ r ∧ '\n' ∉ h4 := by
  match l with
  | [] => exact absurd h (by simp [parseHex4])
  | [a] => exact absurd h (by simp [parseHex4])
  | [a, b] => exact absurd h (by simp [parseHex4])
  | [a, b, c] => exact absurd h (by simp [parseHex4])
  | a :: b :: c :: d :: r' =>
    simp only [parseHex4] at h
    cases ha : hexVal a with
    | none => rw [ha] at h; exact absurd h (by simp)
    | some va =>
      cases hb : hexVal b with
      | none => rw [ha, hb] at h; exact absurd h (by simp)
      | some vb =>
        cases hc : hexVal c with
        | none => rw [ha, hb, hc] at h; exact absurd h (by simp)
        | some vc =>
          cases hd : hexVal d with
          | none => rw [ha, hb, hc, hd] at h; exact absurd h (by simp)
          | some vd =>
            rw [ha, hb, hc, hd] at h
            simp only [Option.some.injEq, Prod.mk.injEq] at h
            refine ⟨[a, b, c, d], by simp [h.2], ?_⟩
            simp only [List.mem_cons, not_or]
            exact ⟨fun hx => hexVal_ne_newline a va ha hx.symm,
              fun hx => hexVal_ne_newline b vb hb hx.symm,
              fun hx => hexVal_ne_newline c vc hc hx.symm,
              fun hx => hexVal_ne_newline d vd hd hx.symm, by simp⟩

/-- `readEscape` consumes a newline-free chunk. -/
theorem readEscape_split (l : List Char) (ch : Char) (r : List Char)
    (h : readEscape l = some (ch, r)) :
    ∃ c, l = c ++ r ∧ '\n' ∉ c := by
  match l with
  | [] => exact absurd h (by simp [readEscape])
  | e :: r2 =>
    simp only [readEscape] at h
    by_cases h1 : e = '"'
    · rw [if_pos h1] at h
      simp only [Option.some.injEq, Prod.mk.injEq] at h
      exact ⟨[e], by simp [h.2], by simp [h1]⟩
    · rw [if_neg h1] at h
      by_cases h2 : e = '\\'
      · rw [if_pos h2] at h
        simp only [Option.some.injEq, Prod.mk.injEq] at h
        exact ⟨[e], by simp [h.2], by simp [h2]⟩
      · rw [if_neg h2] at h
        by_cases h3 : e = '/'
        · rw [if_pos h3] at h
          simp only [Option.some.injEq, Prod.mk.injEq] at h
          exact ⟨[e], by simp [h.2], by simp [h3]⟩
        · rw [if_neg h3] at h
          by_cases h4 : e = 'b'
          · rw [if_pos h4] at h
            simp only [Option.some.injEq, Prod.mk.injEq] at h
            exact ⟨[e], by simp [h.2], by simp [h4]⟩
          · rw [if_neg h4] at h
            by_cases h5 : e = 'f'
            · rw [if_pos h5] at h
              simp only [Option.some.injEq, Prod.mk.injEq] at h
              exact ⟨[e], by simp [h.2], by simp [h5]⟩
            · rw [if_neg h5] at h
              by_cases h6 : e = 'n'
              · rw [if_pos h6] at h
                simp only [Option.some.injEq, Prod.mk.injEq] at h
                exact ⟨[e], by simp [h.2], by simp [h6]⟩
              · rw [if_neg h6] at h
                by_cases h7 : e = 'r'
                · rw [if_pos h7] at h
                  simp only [Option.some.injEq, Prod.mk.injEq] at h
                  exact ⟨[e], by simp [h.2], by simp [h7]⟩
                · rw [if_neg h7] at h
                  by_cases h8 : e = 't'
                  · rw [if_pos h8] at h
                    simp only [Option.some.injEq, Prod.mk.injEq] at h
                    exact ⟨[e], by simp [h.2], by simp [h8]⟩
                  · rw [if_neg h8] at h
                    by_cases h9 : e = 'u'
                    · rw [if_pos h9] at h
                      cases hh : parseHex4 r2 with
                      | none =>
                        simp only [hh] at h
                        exact absurd h (by simp)
                      | some p =>
                        obtain ⟨n, r3⟩ := p
                        simp only [hh] at h
                        obtain ⟨c4, hc4, hn4⟩ := parseHex4_split r2 n r3 hh
                        by_cases hs : (0xD800 ≤ n && n ≤ 0xDBFF) = true
                        · rw [if_pos hs] at h
                          split at h
                          · rename_i r4
                            cases hh2 : parseHex4 r4 with
                            | none =>
                              simp only [hh2] at h
                              exact absurd h (by simp)
                            | some q =>
                              obtain ⟨m, r5⟩ := q
                              simp only [hh2] at h
                              obtain ⟨c42, hc42, hn42⟩ := parseHex4_split r4 m r5 hh2
                              by_cases hs2 : (0xDC00 ≤ m && m ≤ 0xDFFF) = true
                              · rw [if_pos hs2] at h
                                simp only [Option.some.injEq, Prod.mk.injEq] at h
                                rw [hc42] at hc4
                                refine ⟨e :: (c4 ++ '\\' :: 'u' :: c42), ?_, ?_⟩
                                · rw [← h.2]
                                  simp [hc4, List.append_assoc]
                                · simp only [List.mem_cons, not_or, List.mem_append, h9]
                                  refine ⟨?_, hn4, by decide, by decide, hn42⟩
                                  decide
                              · rw [if_neg hs2] at h
                                exact absurd h (by simp)
                          · exact absurd h (by simp)
                        · rw [if_neg hs] at h
                          by_cases hs3 : (0xDC00 ≤ n && n ≤ 0xDFFF) = true
                          · rw [if_pos hs3] at h
                            exact absurd h (by simp)
                          · rw [if_neg hs3] at h
                            simp only [Option.some.injEq, Prod.mk.injEq] at h
                            refine ⟨e :: c4, ?_, ?_⟩
                            · rw [← h.2]
                              simp [hc4]
                            · simp only [List.mem_cons, not_or]
                              exact ⟨by simp [h9], fun hx => hn4 hx⟩
                    · rw [if_neg h9] at h
                      exact absurd h (by simp)

/-- `parseStringBody` consumes a newline-free chunk (raw control
characters, newline included, are rejected; escapes never contain a raw
newline). -/
theorem parseStringBody_split (fuel : Nat) :
    ∀ cs s rest, parseStringBody fuel cs = some (s, rest) →
      ∃ c, cs = c ++ rest ∧ '\n' ∉ c := by
  induction fuel with
  | zero =>
    intro cs s rest h
    exact absurd h (by simp [parseStringBody])
  | succ fuel ih =>
    intro cs s rest h
    cases cs with
    | nil => exact absurd h (by simp [parseStringBody])
    | cons c r =>
      simp only [parseStringBody] at h
      by_cases hq : c = '"'
      · rw [if_pos hq] at h
        simp only [Option.some.injEq, Prod.mk.injEq] at h
        refine ⟨[c], by simp [h.2], by simp [hq]⟩
      · rw [if_neg hq] at h
        by_cases hb : c = '\\'
        · rw [if_pos hb] at h
          cases he : readEscape r with
          | none =>
            simp only [he] at h
            exact absurd h (by simp)
          | some p =>
            obtain ⟨ch, r2⟩ := p
            simp only [he] at h
            cases hrec : parseStringBody fuel r2 with
            | none =>
              simp only [hrec] at h
              exact absurd h (by simp)
            | some q =>
              obtain ⟨s', rest'⟩ := q
              simp only [hrec, Option.map_some', Option.some.injEq,
                Prod.mk.injEq] at h
              obtain ⟨ce, hre, hnee⟩ := readEscape_split r ch r2 he
              obtain ⟨cr, hrr, hnr⟩ := ih r2 s' rest' hrec
              refine ⟨c :: (ce ++ cr), ?_, ?_⟩
              · rw [hre, hrr, ← h.2]
                simp [List.append_assoc]
              · simp only [List.mem_cons, not_or, List.mem_append]
                refine ⟨?_, hnee, hnr⟩
                intro hc
                exact absurd (hc.trans hb) (by decide)
        · rw [if_neg hb] at h
          by_cases hctl : c.toNat < 0x20
          · rw [if_pos hctl] at h
            exact absurd h (by simp)
          · rw [if_neg hctl] at h
            cases hrec : parseStringBody fuel r with
            | none =>
              simp only [hrec] at h
              exact absurd h (by simp)
            | some q =>
              obtain ⟨s', rest'⟩ := q
              simp only [hrec, Option.map_some', Option.some.injEq,
                Prod.mk.injEq] at h
              obtain ⟨cr, hrr, hnr⟩ := ih r s' rest' hrec
              refine ⟨c :: cr, ?_, ?_⟩
              · rw [hrr, ← h.2]
                simp
              · simp only [List.mem_cons, not_or]
                refine ⟨?_, hnr⟩
                intro hc
                rw [← hc] at hctl
                exact hctl (by decide)

/-- `takeDigits` consumes digits. -/
theorem takeDigits_split (cs : List Char) :
    cs = (takeDigits cs).1 ++ (takeDigits cs).2 ∧
      ∀ x ∈ (takeDigits cs).1, isDigitCh x = true := by
  induction cs with
  | nil => exact ⟨rfl, by simp [takeDigits]⟩
  | cons c r ih =>
    by_cases hc : isDigitCh c
    · obtain ⟨ih1, ih2⟩ := ih
      constructor
      · simp only [takeDigits, hc, if_true]
        conv_lhs => rw [ih1]
        simp
      · simp only [takeDigits, hc, if_true]
        intro x hx
        rcases List.mem_cons.mp hx with hh | hh
        · rw [hh]; exact hc
        · exact ih2 x hh
    · constructor
      · simp only [takeDigits, hc, Bool.false_eq_true, if_false]
        simp
      · simp only [takeDigits, hc, Bool.false_eq_true, if_false]
        simp

/-- A number-token character is not a newline, space or slash. -/
theorem numCh_classes (c : Char) (h : numCh c) :
    c ≠ '\n' ∧ c ≠ ' ' ∧ c ≠ '/' := by
  rcases h with h | h | h | h | h | h
  · refine ⟨?_, ?_, ?_⟩ <;> intro hc <;> rw [hc] at h <;> simp [isDigitCh] at h
  all_goals subst h
  all_goals exact ⟨by decide, by decide, by decide⟩

/-- `parseIntPart` consumes digits. -/
theorem parseIntPart_split (cs ip r : List Char)
    (h : parseIntPart cs = some (ip, r)) :
    cs = ip ++ r ∧ ∀ x ∈ ip, isDigitCh x = true := by
  cases cs with
  | nil => exact absurd h (by simp [parseIntPart])
  | cons c rest =>
    simp only [parseIntPart] at h
    by_cases h0 : c = '0'
    · rw [if_pos h0] at h
      simp only [Option.some.injEq, Prod.mk.injEq] at h
      obtain ⟨h1, h2⟩ := h
      subst h1 h2
      exact ⟨by simp [h0], by simp [h0, isDigitCh]⟩
    · rw [if_neg h0] at h
      by_cases hd : isDigitCh c
      · rw [if_pos hd] at h
        obtain ⟨hsplit, hdig⟩ := takeDigits_split rest
        simp only [Option.some.injEq, Prod.mk.injEq] at h
        obtain ⟨h1, h2⟩ := h
        subst h1 h2
        constructor
        · conv_lhs => rw [hsplit]
          simp
        · intro x hx
          rcases List.mem_cons.mp hx with hh | hh
          · rw [hh]; exact hd
          · exact hdig x hh
      · rw [if_neg hd] at h
        exact absurd h (by simp)

/-- `tryFrac` consumes number characters. -/
theorem tryFrac_split (cs : List Char) :
    cs = (tryFrac cs).1 ++ (tryFrac cs).2 ∧ ∀ x ∈ (tryFrac cs).1, numCh x := by
  unfold tryFrac
  split
  · rename_i r
    obtain ⟨hsplit, hdig⟩ := takeDigits_split r
    split
    · rename_i heq
      simp
    · rename_i ds r' heq
      rw [heq] at hsplit
      constructor
      · simpa using hsplit
      · intro x hx
        rcases List.mem_cons.mp hx with hh | hh
        · rw [hh]; exact Or.inr (Or.inl rfl)
        · refine Or.inl ?_
          have := hdig x
          rw [heq] at this
          exact this (by simpa using hh)
  · simp

/-- `tryExp` consumes number characters. -/
theorem tryExp_split (cs : List Char) :
    cs = (tryExp cs).1 ++ (tryExp cs).2 ∧ ∀ x ∈ (tryExp cs).1, numCh x := by
  unfold tryExp
  split
  · rename_i e r
    by_cases he : e = 'e' || e = 'E'
    · rw [if_pos he]
      have hech : numCh e := by
        rcases Bool.or_eq_true_iff.mp he with h | h
        · exact Or.inr (Or.inr (Or.inl (by simpa using h)))
        · exact Or.inr (Or.inr (Or.inr (Or.inl (by simpa using h))))
      split
      · rename_i sgn r1
        by_cases hs : sgn = '+' || sgn = '-'
        · rw [if_pos hs]
          have hsch : numCh sgn := by
            rcases Bool.or_eq_true_iff.mp hs with h | h
            · exact Or.inr (Or.inr (Or.inr (Or.inr (Or.inl (by simpa using h)))))
            · exact Or.inr (Or.inr (Or.inr (Or.inr (Or.inr (by simpa using h)))))
          obtain ⟨hsplit, hdig⟩ := takeDigits_split r1
          split
          · rename_i heq
            simp
          · rename_i ds r2 heq
            rw [heq] at hsplit
            constructor
            · simpa using hsplit
            · intro x hx
              rcases List.mem_cons.mp hx with hh | hh
              · rw [hh]; exact hech
              · rcases List.mem_cons.mp hh with hh2 | hh2
                · rw [hh2]; exact hsch
                · refine Or.inl ?_
                  have := hdig x
                  rw [heq] at this
                  exact this (by simpa using hh2)
        · rw [if_neg hs]
          obtain ⟨hsplit, hdig⟩ := takeDigits_split (sgn :: r1)
          split
          · rename_i heq
            simp
          · rename_i ds r2 heq
            rw [heq] at hsplit
            constructor
            · simpa using hsplit
            · intro x hx
              rcases List.mem_cons.mp hx with hh | hh
              · rw [hh]; exact hech
              · refine Or.inl ?_
                have := hdig x
                rw [heq] at this
                exact this (by simpa using hh)
      · simp
    · rw [if_neg he]
      simp
  · simp

/-- `parseNumber` consumes exactly the lexeme it returns, made of number
characters. -/
theorem parseNumber_split (cs lex rest : List Char)
    (h : parseNumber cs = some (lex, rest)) :
    cs = lex ++ rest ∧ ∀ x ∈ lex, numCh x := by
  cases cs with
  | nil => exact absurd h (by simp [parseNumber])
  | cons c r =>
    simp only [parseNumber] at h
    by_cases hc : c = '-'
    · rw [if_pos hc] at h
      cases hip : parseIntPart r with
      | none =>
        simp only [hip] at h
        exact absurd h (by simp)
      | some p =>
        obtain ⟨ip, r1⟩ := p
        simp only [hip] at h
        obtain ⟨hip1, hip2⟩ := parseIntPart_split r ip r1 hip
        obtain ⟨hf1, hf2⟩ := tryFrac_split r1
        obtain ⟨he1, he2⟩ := tryExp_split (tryFrac r1).2
        simp only [Option.some.injEq, Prod.mk.injEq] at h
        obtain ⟨hl, hr⟩ := h
        subst hl
        constructor
        · rw [← hr, hc]
          simp only [List.cons_append, List.append_assoc]
          rw [← he1, ← hf1, ← hip1]
        · intro x hx
          rcases List.mem_cons.mp hx with hh | hh
          · rw [hh]
            exact Or.inr (Or.inr (Or.inr (Or.inr (Or.inr rfl))))
          · rcases List.mem_append.mp hh with h2 | h2
            · rcases List.mem_append.mp h2 with h3 | h3
              · exact Or.inl (hip2 x h3)
              · exact hf2 x h3
            · exact he2 x h2
    · rw [if_neg hc] at h
      cases hip : parseIntPart (c :: r) with
      | none =>
        simp only [hip] at h
        exact absurd h (by simp)
      | some p =>
        obtain ⟨ip, r1⟩ := p
        simp only [hip] at h
        obtain ⟨hip1, hip2⟩ := parseIntPart_split (c :: r) ip r1 hip
        obtain ⟨hf1, hf2⟩ := tryFrac_split r1
        obtain ⟨he1, he2⟩ := tryExp_split (tryFrac r1).2
        simp only [Option.some.injEq, Prod.mk.injEq] at h
        obtain ⟨hl, hr⟩ := h
        subst hl
        constructor
        · rw [← hr]
          simp only [List.append_assoc]
          rw [← he1, ← hf1, ← hip1]
        · intro x hx
          rcases List.mem_append.mp hx with h2 | h2
          · rcases List.mem_append.mp h2 with h3 | h3
            · exact Or.inl (hip2 x h3)
            · exact hf2 x h3
          · exact he2 x h2

/-- `parseLit` consumes a marker-free chunk. -/
theorem parseLit_split (l : List Char) (v : Json) (rest : List Char)
    (h : parseLit l = some (v, rest)) :
    ∃ c, l = c ++ rest ∧ MarkerFree c := by
  unfold parseLit at h
  by_cases h1 : l.take 4 = "true".data
  · rw [if_pos h1] at h
    simp only [Option.some.injEq, Prod.mk.injEq] at h
    refine ⟨"true".data, ?_, MarkerFree_classes _ (by decide)⟩
    rw [← h.2, ← h1]
    exact (List.take_append_drop 4 l).symm
  rw [if_neg h1] at h
  by_cases h2 : l.take 5 = "false".data
  · rw [if_pos h2] at h
    simp only [Option.some.injEq, Prod.mk.injEq] at h
    refine ⟨"false".data, ?_, MarkerFree_classes _ (by decide)⟩
    rw [← h.2, ← h2]
    exact (List.take_append_drop 5 l).symm
  rw [if_neg h2] at h
  by_cases h3 : l.take 4 = "null".data
  · rw [if_pos h3] at h
    simp only [Option.some.injEq, Prod.mk.injEq] at h
    refine ⟨"null".data, ?_, MarkerFree_classes _ (by decide)⟩
    rw [← h.2, ← h3]
    exact (List.take_append_drop 4 l).symm
  rw [if_neg h3] at h
  by_cases h4 : l.take 3 = "NaN".data
  · rw [if_pos h4] at h
    simp only [Option.some.injEq, Prod.mk.injEq] at h
    refine ⟨"NaN".data, ?_, MarkerFree_classes _ (by decide)⟩
    rw [← h.2, ← h4]
    exact (List.take_append_drop 3 l).symm
  rw [if_neg h4] at h
  by_cases h5 : l.take 8 = "Infinity".data
  · rw [if_pos h5] at h
    simp only [Option.some.injEq, Prod.mk.injEq] at h
    refine ⟨"Infinity".data, ?_, MarkerFree_classes _ (by decide)⟩
    rw [← h.2, ← h5]
    exact (List.take_append_drop 8 l).symm
  rw [if_neg h5] at h
  by_cases h6 : l.take 9 = "-Infinity".data
  · rw [if_pos h6] at h
    simp only [Option.some.injEq, Prod.mk.injEq] at h
    refine ⟨"-Infinity".data, ?_, MarkerFree_classes _ (by decide)⟩
    rw [← h.2, ← h6]
    exact (List.take_append_drop 9 l).symm
  rw [if_neg h6] at h
  cases l with
  | nil => exact absurd h (by simp)
  | cons c r =>
    simp only [] at h
    by_cases hc : (c = '-' || isDigitCh c) = true
    · rw [if_pos hc] at h
      cases hn : parseNumber (c :: r) with
      | none =>
        rw [hn] at h
        exact absurd h (by simp)
      | some p =>
        obtain ⟨lex, rest'⟩ := p
        rw [hn] at h
        simp only [Option.map_some', Option.some.injEq, Prod.mk.injEq] at h
        obtain ⟨hsplit, hcls⟩ := parseNumber_split (c :: r) lex rest' hn
        refine ⟨lex, by rw [hsplit, h.2], ?_⟩
        exact MarkerFree_classes lex (fun x hx => numCh_classes x (hcls x hx))
    · rw [if_neg hc] at h
      exact absurd h (by simp)

/-- Master lemma: every chunk consumed by any of the five mutual parser
functions is marker-free text. -/
theorem parse_consumed (fuel : Nat) :
    (∀ cs v rest, parseValue fuel cs = some (v, rest) →
      ∃ c, cs = c ++ rest ∧ MarkerFree c) ∧
    (∀ cs ms rest, parseMembersStart fuel cs = some (ms, rest) →
      ∃ c, cs = c ++ rest ∧ MarkerFree c) ∧
    (∀ cs ms rest, parseMembersLoop fuel cs = some (ms, rest) →
      ∃ c, cs = c ++ rest ∧ MarkerFree c) ∧
    (∀ cs vs rest, parseItemsStart fuel cs = some (vs, rest) →
      ∃ c, cs = c ++ rest ∧ MarkerFree c) ∧
    (∀ cs vs rest, parseItemsLoop fuel cs = some (vs, rest) →
      ∃ c, cs = c ++ rest ∧ MarkerFree c) := by
  induction fuel with
  | zero =>
    refine ⟨?_, ?_, ?_, ?_, ?_⟩ <;>
      exact fun cs a rest h => absurd h (by
        simp [parseValue, parseMembersStart, parseMembersLoop,
          parseItemsStart, parseItemsLoop])
  | succ fuel ih =>
    obtain ⟨ihV, ihMS, ihML, ihIS, ihIL⟩ := ih
    refine ⟨?_, ?_, ?_, ?_, ?_⟩
    · -- parseValue
      intro cs v rest h
      simp only [parseValue] at h
      obtain ⟨w, hw, hws⟩ := skipWs_split cs
      cases hsw : skipWs cs with
      | nil =>
        simp only [hsw] at h
        exact absurd h (by simp)
      | cons c r =>
        rw [hsw] at hw
        simp only [hsw] at h
        by_cases hc1 : c = lbrace
        · rw [if_pos hc1] at h
          cases hm : parseMembersStart fuel r with
          | none => simp only [hm] at h; exact absurd h (by simp)
          | some p =>
            obtain ⟨ms, rest'⟩ := p
            simp only [hm, Option.map_some', Option.some.injEq,
              Prod.mk.injEq] at h
            obtain ⟨cm, hcm, hmf⟩ := ihMS r ms rest' hm
            refine ⟨w ++ c :: cm, ?_, ?_⟩
            · rw [hw, hcm, ← h.2]
              simp
            · exact MarkerFree_append _ _ (MarkerFree_ws w hws)
                (MarkerFree_append [c] cm
                  (MarkerFree_single c (by rw [hc1]; decide)
                    (by rw [hc1]; decide)) hmf)
        · rw [if_neg hc1] at h
          by_cases hc2 : c = '['
          · rw [if_pos hc2] at h
            cases hm : parseItemsStart fuel r with
            | none => simp only [hm] at h; exact absurd h (by simp)
            | some p =>
              obtain ⟨vs, rest'⟩ := p
              simp only [hm, Option.map_some', Option.some.injEq,
                Prod.mk.injEq] at h
              obtain ⟨cm, hcm, hmf⟩ := ihIS r vs rest' hm
              refine ⟨w ++ c :: cm, ?_, ?_⟩
              · rw [hw, hcm, ← h.2]
                simp
              · exact MarkerFree_append _ _ (MarkerFree_ws w hws)
                  (MarkerFree_append [c] cm
                    (MarkerFree_single c (by rw [hc2]; decide)
                      (by rw [hc2]; decide)) hmf)
          · rw [if_neg hc2] at h
            by_cases hc3 : c = '"'
            · rw [if_pos hc3] at h
              cases hm : parseStringBody fuel r with
              | none => simp only [hm] at h; exact absurd h (by simp)
              | some p =>
                obtain ⟨s, rest'⟩ := p
                simp only [hm, Option.map_some', Option.some.injEq,
                  Prod.mk.injEq] at h
                obtain ⟨cm, hcm, hnl⟩ := parseStringBody_split fuel r s rest' hm
                refine ⟨w ++ c :: cm, ?_, ?_⟩
                · rw [hw, hcm, ← h.2]
                  simp
                · refine MarkerFree_append _ _ (MarkerFree_ws w hws) ?_
                  rw [hc3]
                  exact MarkerFree_string cm hnl
            · rw [if_neg hc3] at h
              obtain ⟨cl, hcl, hmf⟩ := parseLit_split (c :: r) v rest h
              refine ⟨w ++ cl, ?_, MarkerFree_append _ _ (MarkerFree_ws w hws) hmf⟩
              rw [hw, hcl]
              simp
    · -- parseMembersStart
      intro cs ms rest h
      simp only [parseMembersStart] at h
      obtain ⟨w, hw, hws⟩ := skipWs_split cs
      cases hsw : skipWs cs with
      | nil =>
        simp only [hsw] at h
        exact absurd h (by simp)
      | cons c r =>
        rw [hsw] at hw
        simp only [hsw] at h
        by_cases hc1 : c = rbrace
        · rw [if_pos hc1] at h
          simp only [Option.some.injEq, Prod.mk.injEq] at h
          refine ⟨w ++ [c], ?_, ?_⟩
          · rw [hw, ← h.2]
            simp
          · exact MarkerFree_append _ _ (MarkerFree_ws w hws)
              (MarkerFree_single c (by rw [hc1]; decide) (by rw [hc1]; decide))
        · rw [if_neg hc1] at h
          by_cases hc2 : c = '"'
          · rw [if_pos hc2] at h
            cases hsb : parseStringBody fuel r with
            | none => simp only [hsb] at h; exact absurd h (by simp)
            | some p =>
              obtain ⟨k, r1⟩ := p
              simp only [hsb] at h
              obtain ⟨cS, hcS, hnl⟩ := parseStringBody_split fuel r k r1 hsb
              obtain ⟨w2, hw2, hws2⟩ := skipWs_split r1
              cases hsk2 : skipWs r1 with
              | nil =>
                simp only [hsk2] at h
                exact absurd h (by simp)
              | cons c2 r2 =>
                rw [hsk2] at hw2
                simp only [hsk2] at h
                by_cases hcol : c2 = ':'
                · rw [if_pos hcol] at h
                  cases hpv : parseValue fuel r2 with
                  | none => simp only [hpv] at h; exact absurd h (by simp)
                  | some q =>
                    obtain ⟨v, r3⟩ := q
                    simp only [hpv] at h
                    obtain ⟨cV, hcV, hmfV⟩ := ihV r2 v r3 hpv
                    cases hml : parseMembersLoop fuel r3 with
                    | none => simp only [hml] at h; exact absurd h (by simp)
                    | some q2 =>
                      obtain ⟨ms', rest'⟩ := q2
                      simp only [hml, Option.map_some', Option.some.injEq,
                        Prod.mk.injEq] at h
                      obtain ⟨cL, hcL, hmfL⟩ := ihML r3 ms' rest' hml
                      refine ⟨w ++ c :: (cS ++ (w2 ++ c2 :: (cV ++ cL))), ?_, ?_⟩
                      · rw [hw, hcS, hw2, hcV, hcL, ← h.2]
                        simp
                      · refine MarkerFree_append _ _ (MarkerFree_ws w hws) ?_
                        rw [hc2]
                        have hbody : MarkerFree ('"' :: cS) := MarkerFree_string cS hnl
                        have hrest : MarkerFree (w2 ++ c2 :: (cV ++ cL)) := by
                          refine MarkerFree_append _ _ (MarkerFree_ws w2 hws2) ?_
                          exact MarkerFree_append [c2] _
                            (MarkerFree_single c2 (by rw [hcol]; decide)
                              (by rw [hcol]; decide))
                            (MarkerFree_append cV cL hmfV hmfL)
                        have := MarkerFree_append _ _ hbody hrest
                        simpa using this
                · rw [if_neg hcol] at h
                  exact absurd h (by simp)
          · rw [if_neg hc2] at h
            exact absurd h (by simp)
    · -- parseMembersLoop
      intro cs ms rest h
      simp only [parseMembersLoop] at h
      obtain ⟨w, hw, hws⟩ := skipWs_split cs
      cases hsw : skipWs cs with
      | nil =>
        simp only [hsw] at h
        exact absurd h (by simp)
      | cons c r =>
        rw [hsw] at hw
        simp only [hsw] at h
        by_cases hc1 : c = rbrace
        · rw [if_pos hc1] at h
          simp only [Option.some.injEq, Prod.mk.injEq] at h
          refine ⟨w ++ [c], ?_, ?_⟩
          · rw [hw, ← h.2]
            simp
          · exact MarkerFree_append _ _ (MarkerFree_ws w hws)
              (MarkerFree_single c (by rw [hc1]; decide) (by rw [hc1]; decide))
        · rw [if_neg hc1] at h
          by_cases hc2 : c = ','
          · rw [if_pos hc2] at h
            obtain ⟨w1, hw1, hws1⟩ := skipWs_split r
            cases hsk1 : skipWs r with
            | nil =>
              simp only [hsk1] at h
              exact absurd h (by simp)
            | cons c1 r1 =>
              rw [hsk1] at hw1
              simp only [hsk1] at h
              by_cases hq : c1 = '"'
              · rw [if_pos hq] at h
                cases hsb : parseStringBody fuel r1 with
                | none => simp only [hsb] at h; exact absurd h (by simp)
                | some p =>
                  obtain ⟨k, r2⟩ := p
                  simp only [hsb] at h
                  obtain ⟨cS, hcS, hnl⟩ := parseStringBody_split fuel r1 k r2 hsb
                  obtain ⟨w2, hw2, hws2⟩ := skipWs_split r2
                  cases hsk2 : skipWs r2 with
                  | nil =>
                    simp only [hsk2] at h
                    exact absurd h (by simp)
                  | cons c2 r3 =>
                    rw [hsk2] at hw2
                    simp only [hsk2] at h
                    by_cases hcol : c2 = ':'
                    · rw [if_pos hcol] at h
                      cases hpv : parseValue fuel r3 with
                      | none => simp only [hpv] at h; exact absurd h (by simp)
                      | some q =>
                        obtain ⟨v, r4⟩ := q
                        simp only [hpv] at h
                        obtain ⟨cV, hcV, hmfV⟩ := ihV r3 v r4 hpv
                        cases hml : parseMembersLoop fuel r4 with
                        | none => simp only [hml] at h; exact absurd h (by simp)
                        | some q2 =>
                          obtain ⟨ms', rest'⟩ := q2
                          simp only [hml, Option.map_some', Option.some.injEq,
                            Prod.mk.injEq] at h
                          obtain ⟨cL, hcL, hmfL⟩ := ihML r4 ms' rest' hml
                          refine ⟨w ++ c :: (w1 ++ c1 :: (cS ++ (w2 ++ c2 :: (cV ++ cL)))),
                            ?_, ?_⟩
                          · rw [hw, hw1, hcS, hw2, hcV, hcL, ← h.2]
                            simp
                          · refine MarkerFree_append _ _ (MarkerFree_ws w hws) ?_
                            refine MarkerFree_append [c] _
                              (MarkerFree_single c (by rw [hc2]; decide)
                                (by rw [hc2]; decide)) ?_
                            refine MarkerFree_append _ _ (MarkerFree_ws w1 hws1) ?_
                            have hbody : MarkerFree ('"' :: cS) :=
                              MarkerFree_string cS hnl
                            have hrest : MarkerFree (w2 ++ c2 :: (cV ++ cL)) := by
                              refine MarkerFree_append _ _ (MarkerFree_ws w2 hws2) ?_
                              exact MarkerFree_append [c2] _
                                (MarkerFree_single c2 (by rw [hcol]; decide)
                                  (by rw [hcol]; decide))
                                (MarkerFree_append cV cL hmfV hmfL)
                            have hall := MarkerFree_append _ _ hbody hrest
                            rw [hq]
                            simpa using hall
                    · rw [if_neg hcol] at h
                      exact absurd h (by simp)
              · rw [if_neg hq] at h
                exact absurd h (by simp)
          · rw [if_neg hc2] at h
            exact absurd h (by simp)
    · -- parseItemsStart
      intro cs vs rest h
      simp only [parseItemsStart] at h
      obtain ⟨w, hw, hws⟩ := skipWs_split cs
      cases hsw : skipWs cs with
      | nil =>
        simp only [hsw] at h
        exact absurd h (by simp)
      | cons c r =>
        rw [hsw] at hw
        simp only [hsw] at h
        by_cases hc1 : c = ']'
        · rw [if_pos hc1] at h
          simp only [Option.some.injEq, Prod.mk.injEq] at h
          refine ⟨w ++ [c], ?_, ?_⟩
          · rw [hw, ← h.2]
            simp
          · exact MarkerFree_append _ _ (MarkerFree_ws w hws)
              (MarkerFree_single c (by rw [hc1]; decide) (by rw [hc1]; decide))
        · rw [if_neg hc1] at h
          cases hpv : parseValue fuel cs with
          | none => simp only [hpv] at h; exact absurd h (by simp)
          | some q =>
            obtain ⟨v, r1⟩ := q
            simp only [hpv] at h
            obtain ⟨cV, hcV, hmfV⟩ := ihV cs v r1 hpv
            cases hil : parseItemsLoop fuel r1 with
            | none => simp only [hil] at h; exact absurd h (by simp)
            | some q2 =>
              obtain ⟨vs', rest'⟩ := q2
              simp only [hil, Option.map_some', Option.some.injEq,
                Prod.mk.injEq] at h
              obtain ⟨cL, hcL, hmfL⟩ := ihIL r1 vs' rest' hil
              refine ⟨cV ++ cL, ?_, MarkerFree_append cV cL hmfV hmfL⟩
              rw [hcV, hcL, ← h.2]
              simp
    · -- parseItemsLoop
      intro cs vs rest h
      simp only [parseItemsLoop] at h
      obtain ⟨w, hw, hws⟩ := skipWs_split cs
      cases hsw : skipWs cs with
      | nil =>
        simp only [hsw] at h
        exact absurd h (by simp)
      | cons c r =>
        rw [hsw] at hw
        simp only [hsw] at h
        by_cases hc1 : c = ']'
        · rw [if_pos hc1] at h
          simp only [Option.some.injEq, Prod.mk.injEq] at h
          refine ⟨w ++ [c], ?_, ?_⟩
          · rw [hw, ← h.2]
            simp
          · exact MarkerFree_append _ _ (MarkerFree_ws w hws)
              (MarkerFree_single c (by rw [hc1]; decide) (by rw [hc1]; decide))
        · rw [if_neg hc1] at h
          by_cases hc2 : c = ','
          · rw [if_pos hc2] at h
            cases hpv : parseValue fuel r with
            | none => simp only [hpv] at h; exact absurd h (by simp)
            | some q =>
              obtain ⟨v, r1⟩ := q
              simp only [hpv] at h
              obtain ⟨cV, hcV, hmfV⟩ := ihV r v r1 hpv
              cases hil : parseItemsLoop fuel r1 with
              | none => simp only [hil] at h; exact absurd h (by simp)
              | some q2 =>
                obtain ⟨vs', rest'⟩ := q2
                simp only [hil, Option.map_some', Option.some.injEq,
                  Prod.mk.injEq] at h
                obtain ⟨cL, hcL, hmfL⟩ := ihIL r1 vs' rest' hil
                refine ⟨w ++ c :: (cV ++ cL), ?_, ?_⟩
                · rw [hw, hcV, hcL, ← h.2]
                  simp
                · exact MarkerFree_append _ _ (MarkerFree_ws w hws)
                    (MarkerFree_append [c] _
                      (MarkerFree_single c (by rw [hc2]; decide)
                        (by rw [hc2]; decide))
                      (MarkerFree_append cV cL hmfV hmfL))
          · rw [if_neg hc2] at h
            exact absurd h (by simp)

/-- Any text accepted by `jsonLoads` is marker-free. -/
theorem jsonLoads_MarkerFree (cs : List Char) (v : Json)
    (h : jsonLoads cs = some v) : MarkerFree cs := by
  unfold jsonLoads at h
  cases hpv : parseValue (2 * cs.length + 4) cs with
  | none => simp only [hpv] at h; exact absurd h (by simp)
  | some p =>
    obtain ⟨v', rest⟩ := p
    simp only [hpv] at h
    by_cases hsk : skipWs rest = []
    · obtain ⟨c, hc, hmf⟩ := (parse_consumed (2 * cs.length + 4)).1 cs v' rest hpv
      have hrest : MarkerFree rest :=
        MarkerFree_ws rest (skipWs_nil_allWs rest hsk)
      rw [hc]
      exact MarkerFree_append c rest hmf hrest
    · rw [if_neg hsk] at h
      exact absurd h (by simp)

/-! ### Claims: error handling and frame properties -/

/-- C10: for every `rclone-providers.json` content that parses as a JSON
object with no top-level `providers` key, `update_file` returns early
without writing and the file content is unchanged, for every fetched
upstream payload. -/
theorem C10_no_providers_key_leaves_file_unchanged
    (content : List Char) (d : List UpdateProviders.Provider)
    (ms : List (List Char × Json))
    (hparse : jsonLoads content = some (Json.obj ms))
    (hkey : ∀ p ∈ ms, p.1 ≠ "providers".data) :
    UpdateProviders.update_file (some content) d = .ok none ∧
    UpdateProviders.runContent content d = content := by
  have hany : (ms.any fun p => decide (p.1 = "providers".data)) = false := by
    simp only [List.any_eq_false, decide_eq_true_eq]
    exact hkey
  have hin : pyIn "providers".data (Json.obj ms) = .ok false := by
    simp only [pyIn, hany]
  have h1 : UpdateProviders.update_file (some content) d = .ok none := by
    simp only [UpdateProviders.update_file, hparse, hin]
  refine ⟨h1, ?_⟩
  simp only [UpdateProviders.runContent, h1]

/-- Witness for C10 on the concrete file content `("\x7b"a":1\x7d")`. -/
theorem C10_witness :
    UpdateProviders.update_file (some ("\x7b\"a\":1\x7d".data)) [] = .ok none ∧
    UpdateProviders.runContent ("\x7b\"a\":1\x7d".data) [] = "\x7b\"a\":1\x7d".data :=
  C10_no_providers_key_leaves_file_unchanged _ _ [("a".data, Json.num ['1'])]
    (by rfl) (by decide)

/-- C1: the provider-update script does NOT insert missing providers.  On
the file `("\x7b"providers": \x7b\x7d\x7d")` with upstream data containing the
provider `b` (absent from the file), `update_file` returns without
writing: the patched file contains no entry for `b`, contradicting the
claim that a commented fragment is spliced in for every missing
provider.  The source's missing-provider branches are `pass` stubs. -/
theorem C1_missing_provider_not_inserted :
    UpdateProviders.update_file
      (some ("\x7b\"providers\": \x7b\x7d\x7d".data))
      [⟨"b".data, [⟨"opt".data, "h".data⟩]⟩] = .ok none ∧
    UpdateProviders.runContent ("\x7b\"providers\": \x7b\x7d\x7d".data)
      [⟨"b".data, [⟨"opt".data, "h".data⟩]⟩] = "\x7b\"providers\": \x7b\x7d\x7d".data := by
  constructor
  · rfl
  · rfl

/-- C8: when the external rclone tool is absent (`FileNotFoundError`) or
exits with nonzero status (`CalledProcessError`), the fetch function of
each script returns `None`, and `main` exits with code 1 leaving every
resource file untouched. -/
theorem C8_fetch_failure_halts_without_writes
    (e : List Char) (files : List (Option (List Char))) :
    UpdateFlags.get_flags .fileNotFound = none ∧
    UpdateFlags.get_flags (.calledProcessError e) = none ∧
    UpdateFlags.main_run .fileNotFound files = (some 1, files) ∧
    UpdateFlags.main_run (.calledProcessError e) files = (some 1, files) ∧
    UpdateProviders.get_providers .fileNotFound = none ∧
    UpdateProviders.get_providers (.calledProcessError e) = none ∧
    UpdateProviders.main_run .fileNotFound files = (some 1, files) ∧
    UpdateProviders.main_run (.calledProcessError e) files = (some 1, files) :=
  ⟨rfl, rfl, rfl, rfl, rfl, rfl, rfl, rfl⟩

/-- C9: a resource file that is missing or whose content fails to parse
as JSON is skipped: `update_file` returns without writing, and the main
loop continues with the remaining files. -/
theorem C9_bad_file_skipped_loop_continues
    (c : List Char) (fd : List (List Char × Entry))
    (pd : List UpdateProviders.Provider)
    (h : jsonLoads c = none) :
    UpdateFlags.update_file (some c) fd = .ok none ∧
    UpdateFlags.update_file none fd = .ok none ∧
    (∀ rest, UpdateFlags.updateAll fd (some c :: rest) =
      some c :: UpdateFlags.updateAll fd rest) ∧
    (∀ rest, UpdateFlags.updateAll fd (none :: rest) =
      none :: UpdateFlags.updateAll fd rest) ∧
    UpdateProviders.update_file (some c) pd = .ok none ∧
    UpdateProviders.update_file none pd = .ok none ∧
    (∀ rest, UpdateProviders.updateAll pd (some c :: rest) =
      some c :: UpdateProviders.updateAll pd rest) ∧
    (∀ rest, UpdateProviders.updateAll pd (none :: rest) =
      none :: UpdateProviders.updateAll pd rest) := by
  have hf : UpdateFlags.update_file (some c) fd = .ok none := by
    simp only [UpdateFlags.update_file, h]
  have hp : UpdateProviders.update_file (some c) pd = .ok none := by
    simp only [UpdateProviders.update_file, h]
  refine ⟨hf, rfl, ?_, ?_, hp, rfl, ?_, ?_⟩
  · intro rest
    simp only [UpdateFlags.updateAll, hf]
  · intro rest
    simp only [UpdateFlags.updateAll]
    rfl
  · intro rest
    simp only [UpdateProviders.updateAll, hp]
  · intro rest
    simp only [UpdateProviders.updateAll]
    rfl

/-! ### The backward scan and the shape of a written flags file -/

/-- The character found by `firstNonWs` is the head after dropping
whitespace. -/
theorem firstNonWs_char (cs : List Char) :
    (UpdateFlags.firstNonWs cs).map (fun p => p.2) = (cs.dropWhile pyWs).head? := by
  induction cs with
  | nil => rfl
  | cons c r ih =>
    by_cases h : pyWs c
    · simp only [UpdateFlags.firstNonWs, h, if_true, List.dropWhile_cons, Option.map_map]
      rw [← ih]
      rfl
    · simp only [UpdateFlags.firstNonWs, h, if_false, List.dropWhile_cons,
        Bool.false_eq_true, Option.map_some']
      rfl

/-- `firstNonWs` returns an in-range index. -/
theorem firstNonWs_lt (cs : List Char) :
    ∀ i c, UpdateFlags.firstNonWs cs = some (i, c) → i < cs.length := by
  induction cs with
  | nil =>
    intro i c h
    exact absurd h (by simp [UpdateFlags.firstNonWs])
  | cons d r ih =>
    intro i c h
    simp only [UpdateFlags.firstNonWs] at h
    by_cases hd : pyWs d
    · rw [if_pos hd] at h
      cases hr : UpdateFlags.firstNonWs r with
      | none => rw [hr] at h; exact absurd h (by simp)
      | some p =>
        rw [hr] at h
        simp only [Option.map_some', Option.some.injEq, Prod.mk.injEq] at h
        obtain ⟨h1, _⟩ := h
        have hp := ih p.1 p.2 (by rw [hr])
        simp only [List.length_cons]
        omega
    · rw [if_neg hd] at h
      simp only [Option.some.injEq, Prod.mk.injEq] at h
      obtain ⟨h1, _⟩ := h
      simp only [List.length_cons]
      omega

/-- `lastNonWs` returns an in-range index. -/
theorem lastNonWs_lt (cs : List Char) (j : Nat) (c : Char)
    (h : UpdateFlags.lastNonWs cs = some (j, c)) : j < cs.length := by
  unfold UpdateFlags.lastNonWs at h
  cases hf : UpdateFlags.firstNonWs cs.reverse with
  | none => rw [hf] at h; exact absurd h (by simp)
  | some p =>
    rw [hf] at h
    simp only [Option.map_some', Option.some.injEq, Prod.mk.injEq] at h
    have hlen := firstNonWs_lt cs.reverse p.1 p.2 hf
    rw [List.length_reverse] at hlen
    omega

/-- The code's comma decision (the match on the backward-scan result in
`update_file`) agrees with the specification's rule everywhere. -/
theorem needsComma_eq_spec (content : List Char) (anchor : Nat) :
    (match UpdateFlags.lastNonWs (content.take anchor) with
     | none => false
     | some (_, c) => !(c = ',' || c = lbrace || c = '[')) =
    specNeedsComma content anchor := by
  unfold specNeedsComma UpdateFlags.lastNonWs
  have hchar := firstNonWs_char (content.take anchor).reverse
  cases hf : UpdateFlags.firstNonWs (content.take anchor).reverse with
  | none =>
    rw [hf] at hchar
    cases hd : List.dropWhile pyWs (content.take anchor).reverse with
    | nil => rfl
    | cons c rest => rw [hd] at hchar; simp at hchar
  | some p =>
    obtain ⟨i, c0⟩ := p
    rw [hf] at hchar
    cases hd : List.dropWhile pyWs (content.take anchor).reverse with
    | nil => rw [hd] at hchar; simp at hchar
    | cons c rest =>
      rw [hd] at hchar
      simp only [Option.map_some', List.head?_cons, Option.some.injEq] at hchar
      subst hchar
      rfl

/-- Inversion for a write of the flags updater: the exact shape of the
written content. -/
theorem UpdateFlags.update_file_write_shape
    (content : List Char) (d : List (List Char × Entry)) (out : List Char)
    (h : UpdateFlags.update_file (some content) d = .ok (some out)) :
    ∃ cur missing b,
      jsonLoads content = some cur ∧
      UpdateFlags.missingKeys d cur = .ok missing ∧
      missing ≠ [] ∧
      UpdateFlags.rfindIdx rbrace content = some b ∧
      ((∃ j c, UpdateFlags.lastNonWs (content.take b) = some (j, c) ∧
          (!(c = ',' || c = lbrace || c = '[')) = true ∧
          out = (content.take (j + 1) ++ ',' :: content.drop (j + 1)).take (b + 1)
            ++ (missing.map (fun p => format_new_key_block p.1 p.2 2)).flatten
            ++ '\n' :: (content.take (j + 1) ++ ',' :: content.drop (j + 1)).drop (b + 1)) ∨
        (out = content.take b
            ++ (missing.map (fun p => format_new_key_block p.1 p.2 2)).flatten
            ++ '\n' :: content.drop b)) := by
  simp only [UpdateFlags.update_file] at h
  cases hparse : jsonLoads content with
  | none =>
    simp only [hparse] at h
    exact absurd h (by simp)
  | some cur =>
    simp only [hparse] at h
    cases hmiss : UpdateFlags.missingKeys d cur with
    | error e =>
      simp only [hmiss] at h
      exact absurd h (by simp)
    | ok missing =>
      simp only [hmiss] at h
      by_cases hne : missing.isEmpty = true
      · rw [if_pos hne] at h
        exact absurd h (by simp)
      · rw [if_neg hne] at h
        cases hb : UpdateFlags.rfindIdx rbrace content with
        | none =>
          simp only [hb] at h
          exact absurd h (by simp)
        | some b =>
          simp only [hb] at h
          refine ⟨cur, missing, b, rfl, hmiss, by simpa using hne, rfl, ?_⟩
          cases hscan : UpdateFlags.lastNonWs (content.take b) with
          | none =>
            simp only [hscan] at h
            refine Or.inr ?_
            have := h
            simp only [Except.ok.injEq, Option.some.injEq] at this
            exact this.symm
          | some jc =>
            obtain ⟨j, c⟩ := jc
            simp only [hscan] at h
            cases hc : (!(c = ',' || c = lbrace || c = '[')) with
            | true =>
              simp only [hc, if_true] at h
              simp only [Except.ok.injEq, Option.some.injEq] at h
              exact Or.inl ⟨j, c, rfl, hc, h.symm⟩
            | false =>
              simp only [hc, Bool.false_eq_true, if_false] at h
              simp only [Except.ok.injEq, Option.some.injEq] at h
              exact Or.inr h.symm

/-- C5: the flags patcher decides the comma by scanning backward from the
rightmost closing brace (`rfindIdx rbrace`): skipping whitespace, exactly
one comma is inserted immediately after the prior last value if and only
if the first non-whitespace character found is not `,`, an opening brace,
or `[`; otherwise no comma is inserted.  The first conjunct equates the
code's decision with the specification's rule; the others exhibit the
written text, with the single comma at position `j + 1` in the comma
case. -/
theorem C5_comma_decision_rule
    (content : List Char) (d : List (List Char × Entry)) (cur : Json)
    (missing : List (List Char × Entry)) (b : Nat)
    (hparse : jsonLoads content = some cur)
    (hmiss : UpdateFlags.missingKeys d cur = .ok missing)
    (hne : missing.isEmpty = false)
    (hb : UpdateFlags.rfindIdx rbrace content = some b) :
    ((match UpdateFlags.lastNonWs (content.take b) with
      | none => false
      | some (_, c) => !(c = ',' || c = lbrace || c = '[')) =
        specNeedsComma content b) ∧
    (∀ j c, UpdateFlags.lastNonWs (content.take b) = some (j, c) →
      specNeedsComma content b = true →
      UpdateFlags.update_file (some content) d =
        .ok (some ((content.take (j + 1) ++ ',' :: content.drop (j + 1)).take (b + 1)
          ++ (missing.map (fun p => format_new_key_block p.1 p.2 2)).flatten
          ++ '\n' :: (content.take (j + 1) ++ ',' :: content.drop (j + 1)).drop (b + 1)))) ∧
    (specNeedsComma content b = false →
      UpdateFlags.update_file (some content) d =
        .ok (some (content.take b
          ++ (missing.map (fun p => format_new_key_block p.1 p.2 2)).flatten
          ++ '\n' :: content.drop b))) := by
  refine ⟨needsComma_eq_spec content b, ?_, ?_⟩
  · intro j c hscan hspec
    have hcode := needsComma_eq_spec content b
    rw [hscan, hspec] at hcode
    have hcval : (!(c = ',' || c = lbrace || c = '[')) = true := by
      simpa using hcode
    simp only [UpdateFlags.update_file, hparse, hmiss, hne, Bool.false_eq_true,
      if_false, hb, hscan, hcval, if_true]
  · intro hspec
    have hcode := needsComma_eq_spec content b
    rw [hspec] at hcode
    cases hscan : UpdateFlags.lastNonWs (content.take b) with
    | none =>
      simp only [UpdateFlags.update_file, hparse, hmiss, hne, Bool.false_eq_true,
        if_false, hb, hscan]
    | some jc =>
      obtain ⟨j, c⟩ := jc
      rw [hscan] at hcode
      have hcval : (!(c = ',' || c = lbrace || c = '[')) = false := by
        simpa using hcode
      simp only [UpdateFlags.update_file, hparse, hmiss, hne, Bool.false_eq_true,
        if_false, hb, hscan, hcval]

/-! ### Frame lemmas -/

/-- The character at a `rfindIdx` hit is the sought character. -/
theorem rfindIdx_head (ch : Char) (cs : List Char) :
    ∀ i, UpdateFlags.rfindIdx ch cs = some i → (cs.drop i).head? = some ch := by
  induction cs with
  | nil =>
    intro i h
    exact absurd h (by simp [UpdateFlags.rfindIdx])
  | cons c r ih =>
    intro i h
    simp only [UpdateFlags.rfindIdx] at h
    cases hr : UpdateFlags.rfindIdx ch r with
    | some i' =>
      rw [hr] at h
      simp only [Option.some.injEq] at h
      subst h
      simpa using ih i' hr
    | none =>
      rw [hr] at h
      by_cases hc : c = ch
      · rw [if_pos hc] at h
        simp only [Option.some.injEq] at h
        subst h
        simpa using hc
      · rw [if_neg hc] at h
        exact absurd h (by simp)

/-- Taking past an inserted element: `(A ++ x :: B).take (|A| + k + 1)`
keeps all of `A`, the inserted element, and `k` items of `B`. -/
theorem take_append_cons (A : List Char) (x : Char) (B : List Char) (k : Nat) :
    (A ++ x :: B).take (A.length + k + 1) = A ++ x :: B.take k := by
  induction A with
  | nil =>
    simp only [List.nil_append, List.length_nil, Nat.zero_add, List.take_succ_cons]
  | cons a A ih =>
    have hidx : (a :: A).length + k + 1 = (A.length + k + 1) + 1 := by
      simp only [List.length_cons]
      omega
    simp only [List.cons_append, hidx, List.take_succ_cons, ih]

/-- Dropping past an inserted element. -/
theorem drop_append_cons (A : List Char) (x : Char) (B : List Char) (k : Nat) :
    (A ++ x :: B).drop (A.length + k + 1) = B.drop k := by
  induction A with
  | nil =>
    simp only [List.nil_append, List.length_nil, Nat.zero_add, List.drop_succ_cons]
  | cons a A ih =>
    have hidx : (a :: A).length + k + 1 = (A.length + k + 1) + 1 := by
      simp only [List.length_cons]
      omega
    simp only [List.cons_append, hidx, List.drop_succ_cons, ih]

/-- Drop fusion in the orientation used below. -/
theorem drop_drop_add (l : List Char) (m n : Nat) :
    (l.drop m).drop n = l.drop (m + n) := by
  induction m generalizing l with
  | zero => simp
  | succ m ih =>
    cases l with
    | nil => simp
    | cons a l =>
      have hidx : m + 1 + n = (m + n) + 1 := by omega
      simp only [List.drop_succ_cons, hidx, ih]

/-- Inserting extra material between the pieces of a list only ever
inserts: the original is a sublist of the result. -/
theorem sublist_of_insertions (pre mid post commaOpt ins : List Char) :
    (pre ++ mid ++ post).Sublist
      (pre ++ commaOpt ++ mid ++ ins ++ '\n' :: post) := by
  have h1 : post.Sublist (ins ++ '\n' :: post) := by
    have := List.sublist_append_right (ins ++ ['\n']) post
    simp [List.append_assoc]
  have h2 : (mid ++ post).Sublist (mid ++ (ins ++ '\n' :: post)) :=
    List.Sublist.append_left h1 mid
  have h3 : (mid ++ post).Sublist (commaOpt ++ (mid ++ (ins ++ '\n' :: post))) :=
    h2.trans (List.sublist_append_right commaOpt _)
  have h4 : (pre ++ (mid ++ post)).Sublist
      (pre ++ (commaOpt ++ (mid ++ (ins ++ '\n' :: post)))) :=
    List.Sublist.append_left h3 pre
  simpa [List.append_assoc] using h4

/-- One provider step only inserts into the running content. -/
theorem processProvider_sublist (ep : Json) (u : List Char)
    (p : UpdateProviders.Provider) (u2 : List Char)
    (h : UpdateProviders.processProvider ep u p = .ok u2) : u.Sublist u2 := by
  simp only [UpdateProviders.processProvider] at h
  cases h1 : pyIn p.name ep with
  | error e =>
    simp only [h1] at h
    exact absurd h (by simp)
  | ok b =>
    cases b with
    | false =>
      simp only [h1, Except.ok.injEq] at h
      exact h ▸ List.Sublist.refl u
    | true =>
      simp only [h1] at h
      cases h2 : pyIndex p.name ep with
      | error e =>
        simp only [h2] at h
        exact absurd h (by simp)
      | ok eo =>
        simp only [h2] at h
        cases h3 : UpdateProviders.missingOptions p.options eo with
        | error e =>
          simp only [h3] at h
          exact absurd h (by simp)
        | ok ms =>
          simp only [h3] at h
          cases ms with
          | nil =>
            simp only [Except.ok.injEq] at h
            exact h ▸ List.Sublist.refl u
          | cons m ms' =>
            cases h4 : UpdateProviders.findProviderStart p.name u with
            | none =>
              simp only [h4, Except.ok.injEq] at h
              exact h ▸ List.Sublist.refl u
            | some s =>
              simp only [h4] at h
              cases h5 : UpdateProviders.braceMatchEnd u s with
              | none =>
                simp only [h5, Except.ok.injEq] at h
                exact h ▸ List.Sublist.refl u
              | some e =>
                simp only [h5, Except.ok.injEq] at h
                subst h
                have hd : (u.drop e).Sublist
                    ('\n' :: ' ' :: ' ' :: ' ' :: ' ' :: u.drop e) := by
                  refine List.Sublist.cons _ ?_
                  refine List.Sublist.cons _ ?_
                  refine List.Sublist.cons _ ?_
                  refine List.Sublist.cons _ ?_
                  exact List.Sublist.cons _ (List.Sublist.refl _)
                have hd2 : (u.drop e).Sublist
                    (((m :: ms').map (fun o => format_new_key_block o.name
                      (UpdateProviders.optEntry o) 6)).flatten
                      ++ '\n' :: ' ' :: ' ' :: ' ' :: ' ' :: u.drop e) :=
                  hd.trans (List.sublist_append_right _ _)
                have happ := List.Sublist.append_left hd2 (u.take e)
                simpa [List.append_assoc] using happ

/-- The provider loop only inserts. -/
theorem providerLoop_sublist (ps : List UpdateProviders.Provider) (ep : Json) :
    ∀ u u2, UpdateProviders.providerLoop ps ep u = .ok u2 → u.Sublist u2 := by
  induction ps with
  | nil =>
    intro u u2 h
    simp only [UpdateProviders.providerLoop, Except.ok.injEq] at h
    exact h ▸ List.Sublist.refl u
  | cons p rest ih =>
    intro u u2 h
    simp only [UpdateProviders.providerLoop] at h
    cases h1 : UpdateProviders.processProvider ep u p with
    | error e => rw [h1] at h; exact absurd h (by simp)
    | ok u1 =>
      rw [h1] at h
      exact (processProvider_sublist ep u p u1 h1).trans (ih u1 u2 h)

/-- Inversion for a write of the providers updater. -/
theorem UpdateProviders.update_file_write_inv
    (content : List Char) (d : List UpdateProviders.Provider) (out : List Char)
    (h : UpdateProviders.update_file (some content) d = .ok (some out)) :
    ∃ ep, UpdateProviders.providerLoop (UpdateProviders.providerMap d) ep content
        = .ok out ∧ out ≠ content := by
  simp only [UpdateProviders.update_file] at h
  cases hparse : jsonLoads content with
  | none => simp only [hparse] at h; exact absurd h (by simp)
  | some cur =>
    simp only [hparse] at h
    cases hin : pyIn "providers".data cur with
    | error e => simp only [hin] at h; exact absurd h (by simp)
    | ok bv =>
      simp only [hin] at h
      cases bv with
      | false => exact absurd h (by simp)
      | true =>
        cases hchk : UpdateProviders.checkLoop (UpdateProviders.providerMap d) cur with
        | error e => simp only [hchk] at h; exact absurd h (by simp)
        | ok u =>
          simp only [hchk] at h
          cases hidx : pyIndex "providers".data cur with
          | error e => simp only [hidx] at h; exact absurd h (by simp)
          | ok ep =>
            simp only [hidx] at h
            cases hloop : UpdateProviders.providerLoop
                (UpdateProviders.providerMap d) ep content with
            | error e => simp only [hloop] at h; exact absurd h (by simp)
            | ok updated =>
              simp only [hloop] at h
              by_cases heq : updated = content
              · rw [if_pos heq] at h
                exact absurd h (by simp)
              · rw [if_neg heq] at h
                simp only [Except.ok.injEq, Option.some.injEq] at h
                exact ⟨ep, by rw [hloop, h], h ▸ heq⟩

set_option maxHeartbeats 1000000 in
/-- C7: a patched file preserves the original text in order.  For the
flags patcher the output is exactly the original with at most one comma
inserted after the prior last value and the commented blocks (plus the
newline the code adds) spliced in before the closing-brace anchor; for
both patchers the original content is a sublist of the output (nothing
deleted, nothing reordered). -/
theorem C7_patch_only_inserts
    (cf outf : List Char) (fd : List (List Char × Entry))
    (cp outp : List Char) (pd : List UpdateProviders.Provider)
    (hf : UpdateFlags.update_file (some cf) fd = .ok (some outf))
    (hp : UpdateProviders.update_file (some cp) pd = .ok (some outp)) :
    (∃ pre mid post commaOpt ins,
      cf = pre ++ mid ++ post ∧
      outf = pre ++ commaOpt ++ mid ++ ins ++ '\n' :: post ∧
      (commaOpt = [] ∨ commaOpt = [',']) ∧
      post.head? = some rbrace ∧
      (∃ missing : List (List Char × Entry), missing ≠ [] ∧
        ins = (missing.map (fun p => format_new_key_block p.1 p.2 2)).flatten)) ∧
    cf.Sublist outf ∧ cp.Sublist outp := by
  obtain ⟨cur, missing, b, _hparse, _hmiss, hne, hb, hshape⟩ :=
    UpdateFlags.update_file_write_shape cf fd outf hf
  have hpost : (cf.drop b).head? = some rbrace := rfindIdx_head rbrace cf b hb
  have hdecomp : ∃ pre mid post commaOpt,
      cf = pre ++ mid ++ post ∧
      outf = pre ++ commaOpt ++ mid
        ++ (missing.map (fun p => format_new_key_block p.1 p.2 2)).flatten
        ++ '\n' :: post ∧
      (commaOpt = [] ∨ commaOpt = [',']) ∧ post = cf.drop b := by
    cases hshape with
    | inr hout =>
      exact ⟨cf.take b, [], cf.drop b, [], by simp [List.take_append_drop],
        by simpa using hout, Or.inl rfl, rfl⟩
    | inl hout =>
      obtain ⟨j, c, hscan, _hc, hout⟩ := hout
      have hjb : j < b := by
        have := lastNonWs_lt (cf.take b) j c hscan
        have hlen : (cf.take b).length ≤ b := by
          simp [List.length_take]
        omega
      have hjlen : j < cf.length := by
        have h1 := lastNonWs_lt (cf.take b) j c hscan
        have h2 : (cf.take b).length ≤ cf.length := by
          simp [List.length_take]
        omega
      have hlenA : (cf.take (j + 1)).length = j + 1 := by
        simp only [List.length_take]
        omega
      have hb1 : b + 1 = (cf.take (j + 1)).length + (b - (j + 1)) + 1 := by
        rw [hlenA]
        omega
      have hdropb : (cf.drop (j + 1)).drop (b - (j + 1)) = cf.drop b := by
        rw [drop_drop_add]
        congr 1
        omega
      refine ⟨cf.take (j + 1), (cf.drop (j + 1)).take (b - (j + 1)), cf.drop b,
        [','], ?_, ?_, Or.inr rfl, rfl⟩
      · conv_lhs => rw [← List.take_append_drop (j + 1) cf,
          ← List.take_append_drop (b - (j + 1)) (cf.drop (j + 1))]
        rw [hdropb, List.append_assoc]
      · have htake := take_append_cons (cf.take (j + 1)) ',' (cf.drop (j + 1))
          (b - (j + 1))
        have hdropc := drop_append_cons (cf.take (j + 1)) ',' (cf.drop (j + 1))
          (b - (j + 1))
        rw [hlenA] at htake hdropc
        have hidx : j + 1 + (b - (j + 1)) + 1 = b + 1 := by omega
        rw [hidx] at htake hdropc
        rw [hout, htake, hdropc, hdropb]
        simp [List.append_assoc]

  obtain ⟨pre, mid, post, commaOpt, hcf, houtf, hcomma, hpostdef⟩ := hdecomp
  have hhead : post.head? = some rbrace := by
    rw [hpostdef]
    exact hpost
  refine ⟨?_, ?_, ?_⟩
  · refine ⟨pre, mid, post, commaOpt, _, hcf, ?_, hcomma, hhead, missing, hne, rfl⟩
    exact houtf
  · rw [hcf, houtf]
    exact sublist_of_insertions pre mid post commaOpt _
  · obtain ⟨ep, hloop, _⟩ := UpdateProviders.update_file_write_inv cp pd outp hp
    exact providerLoop_sublist (UpdateProviders.providerMap pd) ep cp outp hloop

/-! ### Claims: comma rule and frame witnesses -/
set_option maxRecDepth 4000 in
/-- Witness for C5 on the file `"\x7b\"a\":1\x7d"`: the prior last value ends with
`1` at index 5, so one comma is inserted at index 6 before the block. -/
theorem C5_witness :
    specNeedsComma ("\x7b\"a\":1\x7d".data) 6 = true ∧
    UpdateFlags.update_file (some ("\x7b\"a\":1\x7d".data)) [("b".data, ⟨"B".data, "h".data⟩)] =
      .ok (some ("\x7b\"a\":1,\n  /////////////////////////////////////// New Key start\n  \"b\": \x7b\n    \"title\": \"B\",\n    \"help\": \"h\"\n  \x7d,\n  ////////////////////////////////////// New key end\n\x7d".data)) := by
  have h := C5_comma_decision_rule ("\x7b\"a\":1\x7d".data)
    [("b".data, ⟨"B".data, "h".data⟩)]
    (Json.obj [("a".data, Json.num ['1'])])
    [("b".data, ⟨"B".data, "h".data⟩)] 6
    (by rfl) (by rfl) (by rfl) (by rfl)
  refine ⟨by rfl, ?_⟩
  have h2 := h.2.1 5 '1' (by rfl) (by rfl)
  rw [h2]
  rfl

set_option maxRecDepth 4000 in
/-- Witness for C7 on concrete writes of both scripts. -/
theorem C7_witness :
    ("\x7b\"a\":1\x7d".data).Sublist ("\x7b\"a\":1,\n  /////////////////////////////////////// New Key start\n  \"b\": \x7b\n    \"title\": \"B\",\n    \"help\": \"h\"\n  \x7d,\n  ////////////////////////////////////// New key end\n\x7d".data) ∧
    ("\x7b\"providers\": \x7b\"d\": \x7b\x7d\x7d\x7d".data).Sublist ("\x7b\"providers\": \x7b\"d\": \x7b\n      /////////////////////////////////////// New Key start\n      \"o\": \x7b\n            \"title\": \"O\",\n            \"help\": \"h\"\n      \x7d,\n      ////////////////////////////////////// New key end\n    \x7d\x7d\x7d".data) := by
  have h := C7_patch_only_inserts
    ("\x7b\"a\":1\x7d".data) ("\x7b\"a\":1,\n  /////////////////////////////////////// New Key start\n  \"b\": \x7b\n    \"title\": \"B\",\n    \"help\": \"h\"\n  \x7d,\n  ////////////////////////////////////// New key end\n\x7d".data) [("b".data, ⟨"B".data, "h".data⟩)]
    ("\x7b\"providers\": \x7b\"d\": \x7b\x7d\x7d\x7d".data) ("\x7b\"providers\": \x7b\"d\": \x7b\n      /////////////////////////////////////// New Key start\n      \"o\": \x7b\n            \"title\": \"O\",\n            \"help\": \"h\"\n      \x7d,\n      ////////////////////////////////////// New key end\n    \x7d\x7d\x7d".data) [⟨"d".data, [⟨"o".data, "h".data⟩]⟩]
    (by rfl) (by rfl)
  exact ⟨h.2.1, h.2.2⟩

set_option maxRecDepth 4000 in
/-- C6: on the example input with upstream keys `a` and `b`, the patcher
writes a document that still contains the `a` entry, contains a new
commented `b` entry, and places a comma right after the `a` value,
immediately before the inserted block. -/
theorem C6_concrete_example :
    UpdateFlags.update_file (some c6content) c6data = .ok (some c6out) ∧
    ("\"a\": \x7b\"title\":\"A\",\"help\":\"h\"\x7d".data <:+: c6out) ∧
    ("\"b\": \x7b\n    \"title\": \"B\",\n    \"help\": \"h\"\n  \x7d".data <:+: c6out) := by
  refine ⟨by rfl, by decide, by decide⟩

/-! ### Claims: round trip -/

/-- When every upstream key is already present, no key is missing. -/
theorem missingKeys_all_present (flags : List (List Char × Entry)) (cur : Json)
    (h : ∀ p ∈ flags, pyIn p.1 cur = .ok true) :
    UpdateFlags.missingKeys flags cur = .ok [] := by
  induction flags with
  | nil => rfl
  | cons kv rest ih =>
    have hk := h kv (by simp)
    have hr : UpdateFlags.missingKeys rest cur = .ok [] :=
      ih (fun p hp => h p (by simp [hp]))
    obtain ⟨k, v⟩ := kv
    simp only [UpdateFlags.missingKeys, hk, hr, Except.map_ok]
    rfl

/-- A successful dict lookup implies dict membership. -/
theorem pyIndex_ok_imp_pyIn (k : List Char) (cur : Json) (v : Json)
    (h : pyIndex k cur = .ok v) : pyIn k cur = .ok true := by
  cases cur with
  | obj ms =>
    simp only [pyIndex] at h
    cases hfind : ms.reverse.find? (fun p => decide (p.1 = k)) with
    | none => rw [hfind] at h; exact absurd h (by simp)
    | some p =>
      have hmem : p ∈ ms.reverse := List.mem_of_find?_eq_some hfind
      have hpred := List.find?_some hfind
      simp only [decide_eq_true_eq] at hpred
      simp only [pyIn, Except.ok.injEq, List.any_eq_true]
      exact ⟨p, List.mem_reverse.mp hmem, by simp [hpred]⟩
  | null => exact absurd h (by simp [pyIndex])
  | bool b => exact absurd h (by simp [pyIndex])
  | num l => exact absurd h (by simp [pyIndex])
  | str s => exact absurd h (by simp [pyIndex])
  | arr xs => exact absurd h (by simp [pyIndex])

/-- When every (truthily named) upstream option is present, no option is
missing. -/
theorem missingOptions_all_present (opts : List UpdateProviders.ProvOption)
    (oms : List (List Char × Json))
    (h : ∀ o ∈ opts, ¬ o.name.isEmpty → ∃ q ∈ oms, q.1 = o.name) :
    UpdateProviders.missingOptions opts (Json.obj oms) = .ok [] := by
  induction opts with
  | nil => rfl
  | cons o rest ih =>
    have hr : UpdateProviders.missingOptions rest (Json.obj oms) = .ok [] :=
      ih (fun p hp hn => h p (by simp [hp]) hn)
    by_cases he : o.name.isEmpty
    · simp only [UpdateProviders.missingOptions, he, if_true, hr]
    · obtain ⟨q, hq, hqn⟩ := h o (by simp) he
      have hin : pyIn o.name (Json.obj oms) = .ok true := by
        simp only [pyIn, Except.ok.injEq, List.any_eq_true]
        exact ⟨q, hq, by simp [hqn]⟩
      simp only [UpdateProviders.missingOptions, he, if_false, hin, hr, Except.map_ok]
      rfl

/-- The first provider loop raises nothing when the `providers` value is
an object. -/
theorem checkLoop_ok (ps : List UpdateProviders.Provider) (cur : Json)
    (pms : List (List Char × Json))
    (hidx : pyIndex "providers".data cur = .ok (Json.obj pms)) :
    UpdateProviders.checkLoop ps cur = .ok () := by
  induction ps with
  | nil => rfl
  | cons p rest ih =>
    simp only [UpdateProviders.checkLoop, hidx, pyIn, ih]

/-- The second provider loop leaves the content untouched when every
mapped provider has all its options present. -/
theorem providerLoop_no_change (ps : List UpdateProviders.Provider)
    (pms : List (List Char × Json)) (u : List Char)
    (h : ∀ p ∈ ps, ∃ oms, pyIndex p.name (Json.obj pms) = .ok (Json.obj oms) ∧
      ∀ o ∈ p.options, ¬ o.name.isEmpty → ∃ q ∈ oms, q.1 = o.name) :
    UpdateProviders.providerLoop ps (Json.obj pms) u = .ok u := by
  induction ps with
  | nil => rfl
  | cons p rest ih =>
    obtain ⟨oms, hidx, hopts⟩ := h p (by simp)
    have hin := pyIndex_ok_imp_pyIn p.name (Json.obj pms) (Json.obj oms) hidx
    have hmiss := missingOptions_all_present p.options oms hopts
    have hstep : UpdateProviders.processProvider (Json.obj pms) u p = .ok u := by
      simp only [UpdateProviders.processProvider, hin, hidx, hmiss]
    simp only [UpdateProviders.providerLoop, hstep]
    exact ih (fun q hq => h q (by simp [hq]))

/-- C3: a resource file whose parsed keys already include every upstream
key has zero missing keys, and running either update leaves it
byte-identical (no write happens). -/
theorem C3_zero_missing_keys_byte_identical
    (cf : List Char) (fd : List (List Char × Entry)) (curf : Json)
    (hparsef : jsonLoads cf = some curf)
    (hallf : ∀ p ∈ fd, pyIn p.1 curf = .ok true)
    (cp : List Char) (pd : List UpdateProviders.Provider) (curp : Json)
    (pms : List (List Char × Json))
    (hparsep : jsonLoads cp = some curp)
    (hidx : pyIndex "providers".data curp = .ok (Json.obj pms))
    (hprov : ∀ p ∈ UpdateProviders.providerMap pd,
      ∃ oms, pyIndex p.name (Json.obj pms) = .ok (Json.obj oms) ∧
        ∀ o ∈ p.options, ¬ o.name.isEmpty → ∃ q ∈ oms, q.1 = o.name) :
    UpdateFlags.update_file (some cf) fd = .ok none ∧
    UpdateFlags.runContent cf fd = cf ∧
    UpdateProviders.update_file (some cp) pd = .ok none ∧
    UpdateProviders.runContent cp pd = cp := by
  have hmiss := missingKeys_all_present fd curf hallf
  have hf : UpdateFlags.update_file (some cf) fd = .ok none := by
    simp only [UpdateFlags.update_file, hparsef, hmiss, List.isEmpty_nil, if_true]
  have hin := pyIndex_ok_imp_pyIn "providers".data curp (Json.obj pms) hidx
  have hloop := providerLoop_no_change (UpdateProviders.providerMap pd) pms cp hprov
  have hchk := checkLoop_ok (UpdateProviders.providerMap pd) curp pms hidx
  have hp : UpdateProviders.update_file (some cp) pd = .ok none := by
    simp only [UpdateProviders.update_file, hparsep, hin, hchk, hidx, hloop, if_true]
  exact ⟨hf, by simp only [UpdateFlags.runContent, hf], hp,
    by simp only [UpdateProviders.runContent, hp]⟩

/-- Witness for C3 on concrete one-entry files. -/
theorem C3_witness :
    UpdateFlags.update_file
      (some ("\x7b\"a\": \x7b\"title\":\"A\",\"help\":\"h\"\x7d\x7d".data))
      [("a".data, ⟨"A".data, "h".data⟩)] = .ok none ∧
    UpdateFlags.runContent ("\x7b\"a\": \x7b\"title\":\"A\",\"help\":\"h\"\x7d\x7d".data)
      [("a".data, ⟨"A".data, "h".data⟩)] =
      "\x7b\"a\": \x7b\"title\":\"A\",\"help\":\"h\"\x7d\x7d".data ∧
    UpdateProviders.update_file
      (some ("\x7b\"providers\": \x7b\"d\": \x7b\"o\": 1\x7d\x7d\x7d".data))
      [⟨"d".data, [⟨"o".data, "h".data⟩]⟩] = .ok none ∧
    UpdateProviders.runContent ("\x7b\"providers\": \x7b\"d\": \x7b\"o\": 1\x7d\x7d\x7d".data)
      [⟨"d".data, [⟨"o".data, "h".data⟩]⟩] =
      "\x7b\"providers\": \x7b\"d\": \x7b\"o\": 1\x7d\x7d\x7d".data := by
  have h := C3_zero_missing_keys_byte_identical
    ("\x7b\"a\": \x7b\"title\":\"A\",\"help\":\"h\"\x7d\x7d".data)
    [("a".data, ⟨"A".data, "h".data⟩)]
    (Json.obj [("a".data, Json.obj [("title".data, Json.str "A".data),
      ("help".data, Json.str "h".data)])])
    (by rfl)
    (by
      intro p hp
      simp only [List.mem_singleton] at hp
      subst hp
      rfl)
    ("\x7b\"providers\": \x7b\"d\": \x7b\"o\": 1\x7d\x7d\x7d".data)
    [⟨"d".data, [⟨"o".data, "h".data⟩]⟩]
    (Json.obj [("providers".data,
      Json.obj [("d".data, Json.obj [("o".data, Json.num ['1'])])])])
    [("d".data, Json.obj [("o".data, Json.num ['1'])])]
    (by rfl)
    (by rfl)
    (by
      intro p hp
      simp only [UpdateProviders.providerMap, List.foldl, List.any_nil,
        Bool.false_eq_true, if_false, List.nil_append, List.mem_singleton] at hp
      subst hp
      refine ⟨[("o".data, Json.num ['1'])], by rfl, ?_⟩
      intro o ho
      simp only [List.mem_singleton] at ho
      subst ho
      intro hn
      exact ⟨("o".data, Json.num ['1']), by simp, by rfl⟩)
  exact h

/-- Witness for C9 on the unparseable content `"bad"`. -/
theorem C9_witness :
    UpdateFlags.update_file (some "bad json".data) [] = .ok none ∧
    UpdateFlags.updateAll [] [some "bad json".data] =
      [some "bad json".data] := by
  have h := C9_bad_file_skipped_loop_continues "bad json".data [] [] (by rfl)
  refine ⟨h.1, ?_⟩
  rw [h.2.2.1 []]
  rfl

/-- Indentation spaces followed by a slash satisfy `leadSlashB`. -/
theorem leadSlashB_indent (n : Nat) (y : List Char) :
    leadSlashB (indentSp n ++ '/' :: y) = true := by
  induction n with
  | zero => simp [indentSp, leadSlashB]
  | succ n ih =>
    simp only [indentSp, List.replicate_succ, List.cons_append, leadSlashB,
      if_pos rfl]
    simpa [indentSp] using ih

/-- A newline followed by indentation and a slash anywhere in the text
makes `hasNlSlashB` true. -/
theorem hasNlSlashB_parts (x : List Char) (n : Nat) (y : List Char) :
    hasNlSlashB (x ++ '\n' :: (indentSp n ++ '/' :: y)) = true := by
  induction x with
  | nil =>
    simp only [List.nil_append, hasNlSlashB, if_pos rfl, Bool.or_eq_true]
    exact Or.inl (leadSlashB_indent n y)
  | cons c r ih =>
    simp only [List.cons_append, hasNlSlashB, Bool.or_eq_true]
    exact Or.inr ih

/-- The start marker begins with a slash. -/
theorem markerStart_cons :
    markerStart = '/' :: (List.replicate 38 '/' ++ " New Key start".data) := rfl

/-- Any text containing an inserted key block contains the
newline-indent-slash pattern. -/
theorem hasNlSlash_block (x y key : List Char) (v : Entry) (ind : Nat) :
    hasNlSlashB (x ++ (format_new_key_block key v ind ++ y)) = true := by
  have heq : x ++ (format_new_key_block key v ind ++ y) =
      x ++ '\n' :: (indentSp ind ++ '/' ::
        ((List.replicate 38 '/' ++ " New Key start".data) ++
         ('\n' :: ((if 3 ≤ (splitNl (dumpsKeyEntry key v ind)).length then
              List.intercalate ['\n'] (((splitNl (dumpsKeyEntry key v ind)).drop 1).dropLast)
            else '"' :: key ++ '"' :: ':' :: ' ' :: dumpsEntryCompact v) ++ [','])
          ++ '\n' :: (indentSp ind ++ markerEnd) ++ y))) := by
    simp [format_new_key_block, markerStart_cons]
  rw [heq]
  exact hasNlSlashB_parts x ind _

/-- Whatever the flags updater writes contains the
newline-indent-slash pattern of its marker lines. -/
theorem flags_write_hasNlSlash (content : List Char)
    (d : List (List Char × Entry)) (out : List Char)
    (h : UpdateFlags.update_file (some content) d = .ok (some out)) :
    hasNlSlashB out = true := by
  obtain ⟨cur, missing, b, _hparse, _hmiss, hne, _hb, hcase⟩ :=
    UpdateFlags.update_file_write_shape content d out h
  cases missing with
  | nil => exact absurd rfl hne
  | cons kv ms =>
    rcases hcase with ⟨j, c, _hscan, _hcomma, hout⟩ | hout
    · rw [hout]
      simp only [List.map_cons, List.flatten_cons, List.append_assoc]
      exact hasNlSlash_block _ _ kv.1 kv.2 2
    · rw [hout]
      simp only [List.map_cons, List.flatten_cons, List.append_assoc]
      exact hasNlSlash_block _ _ kv.1 kv.2 2

/-- Text containing the marker pattern is rejected by `jsonLoads`. -/
theorem jsonLoads_hasNlSlash_none (cs : List Char)
    (h : hasNlSlashB cs = true) : jsonLoads cs = none := by
  cases hj : jsonLoads cs with
  | none => rfl
  | some v =>
    have hmf := jsonLoads_MarkerFree cs v hj
    rw [hmf.1] at h
    exact absurd h (by simp)

/-- A second run of the flags updater on its own output changes
nothing: the inserted comment block makes the file unparseable, so the
updater skips it. -/
theorem flags_runContent_idem (c : List Char)
    (d : List (List Char × Entry)) :
    UpdateFlags.runContent (UpdateFlags.runContent c d) d =
      UpdateFlags.runContent c d := by
  cases hu : UpdateFlags.update_file (some c) d with
  | error e =>
    have hrc : UpdateFlags.runContent c d = c := by
      simp only [UpdateFlags.runContent, hu]
    rw [hrc]
    exact hrc
  | ok o =>
    cases o with
    | none =>
      have hrc : UpdateFlags.runContent c d = c := by
        simp only [UpdateFlags.runContent, hu]
      rw [hrc]
      exact hrc
    | some out =>
      have hrc : UpdateFlags.runContent c d = out := by
        simp only [UpdateFlags.runContent, hu]
      rw [hrc]
      have hnl := flags_write_hasNlSlash c d out hu
      have hjl := jsonLoads_hasNlSlash_none out hnl
      simp only [UpdateFlags.runContent, UpdateFlags.update_file, hjl]

/-- What one `processProvider` step returns is either the input text or
text containing the marker pattern. -/
theorem UpdateProviders.processProvider_marker (ep : Json) (u : List Char)
    (p : UpdateProviders.Provider) (u2 : List Char)
    (h : UpdateProviders.processProvider ep u p = .ok u2) :
    u2 = u ∨ hasNlSlashB u2 = true := by
  simp only [UpdateProviders.processProvider] at h
  cases hin : pyIn p.name ep with
  | error e => simp only [hin] at h; exact absurd h (by simp)
  | ok b =>
    cases b with
    | false =>
      simp only [hin, Except.ok.injEq] at h
      exact Or.inl h.symm
    | true =>
      simp only [hin] at h
      cases hix : pyIndex p.name ep with
      | error e => simp only [hix] at h; exact absurd h (by simp)
      | ok eo =>
        simp only [hix] at h
        cases hmo : UpdateProviders.missingOptions p.options eo with
        | error e => simp only [hmo] at h; exact absurd h (by simp)
        | ok miss =>
          cases miss with
          | nil =>
            simp only [hmo, Except.ok.injEq] at h
            exact Or.inl h.symm
          | cons m ms =>
            simp only [hmo] at h
            cases hfp : UpdateProviders.findProviderStart p.name u with
            | none =>
              simp only [hfp, Except.ok.injEq] at h
              exact Or.inl h.symm
            | some si =>
              simp only [hfp] at h
              cases hbm : UpdateProviders.braceMatchEnd u si with
              | none =>
                simp only [hbm, Except.ok.injEq] at h
                exact Or.inl h.symm
              | some ei =>
                simp only [hbm, Except.ok.injEq] at h
                refine Or.inr ?_
                rw [← h]
                simp only [List.map_cons, List.flatten_cons, List.append_assoc]
                exact hasNlSlash_block _ _ m.name (UpdateProviders.optEntry m) 6

/-- The provider loop either leaves the text unchanged or produces text
containing the marker pattern. -/
theorem UpdateProviders.providerLoop_marker (ps : List UpdateProviders.Provider)
    (ep : Json) :
    ∀ u u2, UpdateProviders.providerLoop ps ep u = .ok u2 →
      u2 = u ∨ hasNlSlashB u2 = true := by
  induction ps with
  | nil =>
    intro u u2 h
    simp only [UpdateProviders.providerLoop, Except.ok.injEq] at h
    exact Or.inl h.symm
  | cons p rest ih =>
    intro u u2 h
    simp only [UpdateProviders.providerLoop] at h
    cases hp : UpdateProviders.processProvider ep u p with
    | error e => simp only [hp] at h; exact absurd h (by simp)
    | ok u1 =>
      simp only [hp] at h
      rcases UpdateProviders.processProvider_marker ep u p u1 hp with h1 | h1
      · rw [h1] at h
        exact ih u u2 h
      · rcases ih u1 u2 h with h2 | h2
        · exact Or.inr (h2 ▸ h1)
        · exact Or.inr h2

/-- Whatever the providers updater writes contains the marker pattern. -/
theorem providers_write_hasNlSlash (content : List Char)
    (d : List UpdateProviders.Provider) (out : List Char)
    (h : UpdateProviders.update_file (some content) d = .ok (some out)) :
    hasNlSlashB out = true := by
  simp only [UpdateProviders.update_file] at h
  cases hparse : jsonLoads content with
  | none => simp only [hparse] at h; exact absurd h (by simp)
  | some cur =>
    simp only [hparse] at h
    cases hin : pyIn "providers".data cur with
    | error e => simp only [hin] at h; exact absurd h (by simp)
    | ok b =>
      cases b with
      | false => simp only [hin] at h; exact absurd h (by simp)
      | true =>
        simp only [hin] at h
        cases hchk : UpdateProviders.checkLoop (UpdateProviders.providerMap d) cur with
        | error e => simp only [hchk] at h; exact absurd h (by simp)
        | ok u =>
          cases u
          simp only [hchk] at h
          cases hix : pyIndex "providers".data cur with
          | error e => simp only [hix] at h; exact absurd h (by simp)
          | ok ep =>
            simp only [hix] at h
            cases hpl : UpdateProviders.providerLoop
                (UpdateProviders.providerMap d) ep content with
            | error e => simp only [hpl] at h; exact absurd h (by simp)
            | ok updated =>
              simp only [hpl, Except.ok.injEq] at h
              by_cases hne : updated = content
              · rw [if_pos hne] at h
                exact absurd h (by simp)
              · rw [if_neg hne] at h
                simp only [Option.some.injEq] at h
                rcases UpdateProviders.providerLoop_marker
                    (UpdateProviders.providerMap d) ep content updated hpl with
                  h1 | h1
                · exact absurd h1 hne
                · rw [← h]
                  exact h1

/-- A second run of the providers updater on its own output changes
nothing. -/
theorem providers_runContent_idem (c : List Char)
    (d : List UpdateProviders.Provider) :
    UpdateProviders.runContent (UpdateProviders.runContent c d) d =
      UpdateProviders.runContent c d := by
  cases hu : UpdateProviders.update_file (some c) d with
  | error e =>
    have hrc : UpdateProviders.runContent c d = c := by
      simp only [UpdateProviders.runContent, hu]
    rw [hrc]
    exact hrc
  | ok o =>
    cases o with
    | none =>
      have hrc : UpdateProviders.runContent c d = c := by
        simp only [UpdateProviders.runContent, hu]
      rw [hrc]
      exact hrc
    | some out =>
      have hrc : UpdateProviders.runContent c d = out := by
        simp only [UpdateProviders.runContent, hu]
      rw [hrc]
      have hnl := providers_write_hasNlSlash c d out hu
      have hjl := jsonLoads_hasNlSlash_none out hnl
      simp only [UpdateProviders.runContent, UpdateProviders.update_file, hjl]

/-- C2: running either updater a second time with the same upstream data
inserts nothing more: the file content after two runs is byte-identical
to the content after one run (each key is inserted at most once, and the
second run never duplicates an entry inserted by the first). -/
theorem C2_second_run_is_identity (c : List Char)
    (d : List (List Char × Entry)) (e : List Char)
    (ps : List UpdateProviders.Provider) :
    UpdateFlags.runContent (UpdateFlags.runContent c d) d =
      UpdateFlags.runContent c d ∧
    UpdateProviders.runContent (UpdateProviders.runContent e ps) ps =
      UpdateProviders.runContent e ps :=
  ⟨flags_runContent_idem c d, providers_runContent_idem e ps⟩

/-- Skipping whitespace passes over an all-whitespace prefix. -/
theorem skipWs_ws_append (w x : List Char) (hw : AllWs w) :
    skipWs (w ++ x) = skipWs x := by
  induction w with
  | nil => rfl
  | cons c r ih =>
    have hc := hw c (by simp)
    simp only [List.cons_append, skipWs, hc, if_true]
    exact ih (fun y hy => hw y (by simp [hy]))

/-- Skipping whitespace is the identity on text with a non-whitespace
head. -/
theorem skipWs_nonWs (x : List Char)
    (h : ∀ c r, x = c :: r → jsonWs c = false) : skipWs x = x := by
  cases x with
  | nil => rfl
  | cons c r =>
    have hc := h c r rfl
    simp only [skipWs, hc, Bool.false_eq_true, if_false]

/-- `takeDigits` takes exactly an all-digit prefix bounded by a non-digit
(or the end). -/
theorem takeDigits_exact (ds x : List Char)
    (hds : ∀ c ∈ ds, isDigitCh c = true)
    (hx : ∀ c r, x = c :: r → isDigitCh c = false) :
    takeDigits (ds ++ x) = (ds, x) := by
  induction ds with
  | nil =>
    cases x with
    | nil => rfl
    | cons c r =>
      have hc := hx c r rfl
      simp only [List.nil_append, takeDigits, hc, Bool.false_eq_true, if_false]
  | cons d ds' ih =>
    have hd := hds d (by simp)
    have ih2 := ih (fun c hc => hds c (by simp [hc]))
    simp only [List.cons_append, takeDigits, hd, if_true, List.append_eq, ih2]

/-- The seven safe-stop characters. -/
theorem safeStop_cases (c : Char) (h : safeStop c = true) :
    c = ' ' ∨ c = '\t' ∨ c = '\n' ∨ c = '\r' ∨ c = ',' ∨ c = rbrace ∨
      c = ']' := by
  simpa [safeStop, jsonWs, or_assoc] using h

/-- A safe-stop head is not a digit. -/
theorem safeStop_not_digit (c : Char) (h : safeStop c = true) :
    isDigitCh c = false := by
  rcases safeStop_cases c h with h | h | h | h | h | h | h <;> subst h <;> decide

/-- A safe-stop head is none of the number-extending characters. -/
theorem safeStop_classes (c : Char) (h : safeStop c = true) :
    c ≠ '.' ∧ c ≠ 'e' ∧ c ≠ 'E' ∧ c ≠ '+' ∧ c ≠ '-' := by
  rcases safeStop_cases c h with h | h | h | h | h | h | h <;> subst h <;>
    exact ⟨by decide, by decide, by decide, by decide, by decide⟩

/-- A character of the digit class is not a digit-class terminator: helper
to feed `takeDigits_exact` when the following part starts with `.`/`e`
or a safe stop. -/
theorem head_not_digit_of_frac_exp_safe (fp ep T : List Char)
    (hfp : FracShape fp) (hep : ExpShape ep) (hT : SafeHead T) :
    ∀ c r, fp ++ (ep ++ T) = c :: r → isDigitCh c = false := by
  intro c r hcr
  rcases hfp with hfp | ⟨ds, hfp, _, _⟩
  · subst hfp
    simp only [List.nil_append] at hcr
    rcases hep with hep | ⟨e, ds, he, _, _, hsh⟩
    · subst hep
      cases T with
      | nil => exact absurd hcr (by simp)
      | cons c' r' =>
        injection hcr with h1 h2
        rw [← h1]
        exact safeStop_not_digit c' hT
    · rcases hsh with hsh | ⟨s, _, hsh⟩ <;> subst hsh <;>
        simp only [List.cons_append, List.cons.injEq] at hcr <;>
        rcases he with he | he <;> rw [← hcr.1, he] <;> decide
  · subst hfp
    simp only [List.cons_append, List.cons.injEq] at hcr
    rw [← hcr.1]
    decide

/-- Exact re-parse of an integer part followed by fraction/exponent parts
and a safe tail. -/
theorem parseIntPart_exact (ip fp ep T : List Char)
    (hip : IntShape ip) (hfp : FracShape fp) (hep : ExpShape ep)
    (hT : SafeHead T) :
    parseIntPart (ip ++ (fp ++ (ep ++ T))) = some (ip, fp ++ (ep ++ T)) := by
  rcases hip with hip | ⟨d, ds, hip, hd0, hdd, hds⟩
  · subst hip
    simp [parseIntPart]
  · subst hip
    have hx := head_not_digit_of_frac_exp_safe fp ep T hfp hep hT
    have htd := takeDigits_exact ds (fp ++ (ep ++ T)) hds hx
    simp only [List.cons_append, parseIntPart, hd0, if_false, hdd, if_true,
      List.append_assoc, htd]

/-- Exact re-parse of a fraction part followed by an exponent part and a
safe tail. -/
theorem tryFrac_exact (fp ep T : List Char)
    (hfp : FracShape fp) (hep : ExpShape ep) (hT : SafeHead T) :
    tryFrac (fp ++ (ep ++ T)) = (fp, ep ++ T) := by
  rcases hfp with hfp | ⟨ds, hfp, hne, hds⟩
  · subst hfp
    simp only [List.nil_append]
    rcases hep with hep | ⟨e, ds, he, _, _, hsh⟩
    · subst hep
      simp only [List.nil_append]
      cases T with
      | nil => rfl
      | cons c r =>
        have hc := safeStop_classes c hT
        unfold tryFrac
        split
        · rename_i r2 heq
          injection heq with h1 h2
          exact absurd h1 hc.1
        · rfl
    · rcases hsh with hsh | ⟨s, hs, hsh⟩ <;> subst hsh
      · unfold tryFrac
        split
        · rename_i r2 heq
          rcases he with he | he <;> rw [he] at heq <;> simp at heq
        · rfl
      · unfold tryFrac
        split
        · rename_i r2 heq
          rcases he with he | he <;> rw [he] at heq <;> simp at heq
        · rfl
  · subst hfp
    cases ds with
    | nil => exact absurd rfl hne
    | cons d0 ds' =>
      have hd0 := hds d0 (by simp)
      have hx : ∀ c r, ep ++ T = c :: r → isDigitCh c = false := by
        intro c r hcr
        rcases hep with hep | ⟨e, ds2, he, _, _, hsh⟩
        · subst hep
          cases T with
          | nil => exact absurd hcr (by simp)
          | cons c' r' =>
            simp only [List.nil_append] at hcr
            injection hcr with h1 h2
            rw [← h1]
            exact safeStop_not_digit c' hT
        · rcases hsh with hsh | ⟨s, _, hsh⟩ <;> subst hsh <;>
            simp only [List.cons_append, List.cons.injEq] at hcr <;>
            rcases he with he | he <;> rw [← hcr.1, he] <;> decide
      have htd := takeDigits_exact (d0 :: ds') (ep ++ T)
        (fun c hc => hds c hc) hx
      simp only [List.cons_append, List.append_assoc] at htd ⊢
      unfold tryFrac
      simp only [htd]

/-- Exact re-parse of an exponent part followed by a safe tail. -/
theorem tryExp_exact (ep T : List Char) (hep : ExpShape ep)
    (hT : SafeHead T) : tryExp (ep ++ T) = (ep, T) := by
  rcases hep with hep | ⟨e, ds, he, hne, hds, hsh⟩
  · subst hep
    simp only [List.nil_append]
    cases T with
    | nil => rfl
    | cons c r =>
      have hc : ¬(c = 'e' || c = 'E') = true := by
        have := safeStop_classes c hT
        simp only [Bool.or_eq_true, decide_eq_true_eq]
        rintro (h | h)
        · exact this.2.1 h
        · exact this.2.2.1 h
      unfold tryExp
      split
      · rename_i e' r' heq
        cases heq
        rw [if_neg hc]
      · rfl
  · have hTnd : ∀ c r, T = c :: r → isDigitCh c = false := by
      intro c r hcr
      subst hcr
      exact safeStop_not_digit c hT
    have he2 : (e = 'e' || e = 'E') = true := by
      rcases he with he | he <;> simp [he]
    rcases hsh with hsh | ⟨s, hs, hsh⟩
    · subst hsh
      cases ds with
      | nil => exact absurd rfl hne
      | cons d0 ds' =>
        have htd := takeDigits_exact (d0 :: ds') T (fun c hc => hds c hc) hTnd
        have hd0s : ¬(d0 = '+' || d0 = '-') = true := by
          have := hds d0 (by simp)
          simp only [Bool.or_eq_true, decide_eq_true_eq]
          rintro (h | h) <;> rw [h] at this <;> simp [isDigitCh] at this
        simp only [List.cons_append] at htd ⊢
        simp [tryExp, he2, hd0s, htd]
    · subst hsh
      cases ds with
      | nil => exact absurd rfl hne
      | cons d0 ds' =>
        have htd := takeDigits_exact (d0 :: ds') T (fun c hc => hds c hc) hTnd
        have hs2 : (s = '+' || s = '-') = true := by
          rcases hs with hs | hs <;> simp [hs]
        simp only [List.cons_append] at htd ⊢
        simp [tryExp, he2, hs2, htd]

/-- Exact re-parse of a whole number lexeme followed by a safe tail. -/
theorem parseNumber_exact (t T : List Char) (ht : NumShape t)
    (hT : SafeHead T) : parseNumber (t ++ T) = some (t, T) := by
  obtain ⟨ip, fp, ep, hip, hfp, hep, hsh⟩ := ht
  have hipx := parseIntPart_exact ip fp ep T hip hfp hep hT
  have hfx := tryFrac_exact fp ep T hfp hep hT
  have hex := tryExp_exact ep T hep hT
  have hiphead : ∃ d r, ip = d :: r ∧ isDigitCh d = true ∧ d ≠ '-' := by
    rcases hip with hip | ⟨d, ds, hip, _, hdd, _⟩
    · exact ⟨'0', [], hip, by decide, by decide⟩
    · refine ⟨d, ds, hip, hdd, ?_⟩
      intro hc
      rw [hc] at hdd
      exact absurd hdd (by decide)
  obtain ⟨d, r, hiph, hdd, hdm⟩ := hiphead
  rcases hsh with hsh | hsh <;> subst hsh
  · rw [hiph] at hipx ⊢
    simp only [List.cons_append, List.append_assoc] at hipx ⊢
    simp [parseNumber, hdm, hipx, hfx, hex]
  · simp only [List.append_assoc] at hipx ⊢
    simp [parseNumber, hipx, hfx, hex]

/-- `tryFrac` output shape. -/
theorem tryFrac_shape (cs : List Char) : FracShape (tryFrac cs).1 := by
  unfold tryFrac
  split
  · rename_i r
    obtain ⟨_, hdig⟩ := takeDigits_split r
    split
    · exact Or.inl rfl
    · rename_i dsx r2 hne1 heq
      have hdig2 : ∀ x ∈ dsx, isDigitCh x = true := by
        rw [heq] at hdig
        simpa using hdig
      show FracShape ('.' :: dsx)
      refine Or.inr ⟨dsx, rfl, ?_, hdig2⟩
      intro hds
      subst hds
      exact hne1 rfl
  · exact Or.inl rfl

/-- `tryExp` output shape. -/
theorem tryExp_shape (cs : List Char) : ExpShape (tryExp cs).1 := by
  unfold tryExp
  split
  · rename_i e r
    by_cases he : (e = 'e' || e = 'E') = true
    · rw [if_pos he]
      have he2 : e = 'e' ∨ e = 'E' := by
        rcases Bool.or_eq_true_iff.mp he with h | h
        · exact Or.inl (by simpa using h)
        · exact Or.inr (by simpa using h)
      split
      · rename_i sgn r1
        by_cases hs : (sgn = '+' || sgn = '-') = true
        · rw [if_pos hs]
          have hs2 : sgn = '+' ∨ sgn = '-' := by
            rcases Bool.or_eq_true_iff.mp hs with h | h
            · exact Or.inl (by simpa using h)
            · exact Or.inr (by simpa using h)
          obtain ⟨_, hdig⟩ := takeDigits_split r1
          split
          · exact Or.inl rfl
          · rename_i dsx r2 hne1 heq
            have hdig2 : ∀ x ∈ dsx, isDigitCh x = true := by
              rw [heq] at hdig
              simpa using hdig
            show ExpShape (e :: sgn :: dsx)
            refine Or.inr ⟨e, dsx, he2, ?_, hdig2, Or.inr ⟨sgn, hs2, rfl⟩⟩
            intro hds
            subst hds
            exact hne1 rfl
        · rw [if_neg hs]
          obtain ⟨_, hdig⟩ := takeDigits_split (sgn :: r1)
          split
          · exact Or.inl rfl
          · rename_i dsx r2 hne1 heq
            have hdig2 : ∀ x ∈ dsx, isDigitCh x = true := by
              rw [heq] at hdig
              simpa using hdig
            show ExpShape (e :: dsx)
            refine Or.inr ⟨e, dsx, he2, ?_, hdig2, Or.inl rfl⟩
            intro hds
            subst hds
            exact hne1 rfl
      · exact Or.inl rfl
    · rw [if_neg he]
      exact Or.inl rfl
  · exact Or.inl rfl

/-- `parseIntPart` output shape. -/
theorem parseIntPart_shape (cs ip r : List Char)
    (h : parseIntPart cs = some (ip, r)) : IntShape ip := by
  cases cs with
  | nil => exact absurd h (by simp [parseIntPart])
  | cons c rest =>
    simp only [parseIntPart] at h
    by_cases h0 : c = '0'
    · rw [if_pos h0] at h
      simp only [Option.some.injEq, Prod.mk.injEq] at h
      exact Or.inl (by rw [← h.1])
    · rw [if_neg h0] at h
      by_cases hd : isDigitCh c
      · rw [if_pos hd] at h
        obtain ⟨_, hdig⟩ := takeDigits_split rest
        simp only [Option.some.injEq, Prod.mk.injEq] at h
        exact Or.inr ⟨c, (takeDigits rest).1, by rw [← h.1], h0, hd, hdig⟩
      · rw [if_neg hd] at h
        exact absurd h (by simp)

/-- The shape of the lexeme returned by `parseNumber`. -/
theorem parseNumber_shape (cs lex rest : List Char)
    (h : parseNumber cs = some (lex, rest)) : NumShape lex := by
  cases cs with
  | nil => exact absurd h (by simp [parseNumber])
  | cons c r =>
    simp only [parseNumber] at h
    by_cases hc : c = '-'
    · rw [if_pos hc] at h
      cases hip : parseIntPart r with
      | none => simp only [hip] at h; exact absurd h (by simp)
      | some p =>
        obtain ⟨ip, r1⟩ := p
        simp only [hip, Option.some.injEq, Prod.mk.injEq] at h
        exact ⟨ip, (tryFrac r1).1, (tryExp (tryFrac r1).2).1,
          parseIntPart_shape r ip r1 hip, tryFrac_shape r1,
          tryExp_shape (tryFrac r1).2, Or.inr h.1.symm⟩
    · rw [if_neg hc] at h
      cases hip : parseIntPart (c :: r) with
      | none => simp only [hip] at h; exact absurd h (by simp)
      | some p =>
        obtain ⟨ip, r1⟩ := p
        simp only [hip, Option.some.injEq, Prod.mk.injEq] at h
        exact ⟨ip, (tryFrac r1).1, (tryExp (tryFrac r1).2).1,
          parseIntPart_shape (c :: r) ip r1 hip, tryFrac_shape r1,
          tryExp_shape (tryFrac r1).2, Or.inl h.1.symm⟩

/-- Reading four hex digits extends to a longer tail. -/
theorem parseHex4_extend (h1 h2 h3 h4 : Char) (n : Nat) (rest : List Char)
    (h : parseHex4 [h1, h2, h3, h4] = some (n, [])) :
    parseHex4 (h1 :: h2 :: h3 :: h4 :: rest) = some (n, rest) := by
  simp only [parseHex4] at h ⊢
  cases ha : hexVal h1 with
  | none => rw [ha] at h; exact absurd h (by simp)
  | some va =>
    cases hb : hexVal h2 with
    | none => rw [ha, hb] at h; exact absurd h (by simp)
    | some vb =>
      cases hc : hexVal h3 with
      | none => rw [ha, hb, hc] at h; exact absurd h (by simp)
      | some vc =>
        cases hd : hexVal h4 with
        | none => rw [ha, hb, hc, hd] at h; exact absurd h (by simp)
        | some vd =>
          simp only [ha, hb, hc, hd, Option.some.injEq, Prod.mk.injEq] at h ⊢
          exact ⟨h.1, trivial⟩

/-- A simple escape decodes, consuming exactly its one character. -/
theorem readEscape_simple (e : Char) (he : SimpleEsc e) (T : List Char) :
    ∃ ch, readEscape (e :: T) = some (ch, T) := by
  rcases he with he | he | he | he | he | he | he | he <;> subst he
  · exact ⟨'"', by simp [readEscape]⟩
  · exact ⟨'\\', by simp [readEscape]⟩
  · exact ⟨'/', by simp [readEscape]⟩
  · exact ⟨Char.ofNat 8, by simp [readEscape]⟩
  · exact ⟨Char.ofNat 12, by simp [readEscape]⟩
  · exact ⟨'\n', by simp [readEscape]⟩
  · exact ⟨'\r', by simp [readEscape]⟩
  · exact ⟨'\t', by simp [readEscape]⟩

/-- A non-surrogate `\u` escape decodes. -/
theorem readEscape_hex (h1 h2 h3 h4 : Char) (n : Nat) (T : List Char)
    (hp : parseHex4 [h1, h2, h3, h4] = some (n, []))
    (hs1 : (0xD800 ≤ n && n ≤ 0xDBFF) = false)
    (hs2 : (0xDC00 ≤ n && n ≤ 0xDFFF) = false) :
    ∃ ch, readEscape ('u' :: h1 :: h2 :: h3 :: h4 :: T) = some (ch, T) := by
  have hx := parseHex4_extend h1 h2 h3 h4 n T hp
  exact ⟨Char.ofNat n, by simp [readEscape, hx, hs1, hs2]⟩

/-- A surrogate-pair `\u` escape decodes. -/
theorem readEscape_surr (h1 h2 h3 h4 : Char) (n : Nat)
    (h5 h6 h7 h8 : Char) (m : Nat) (T : List Char)
    (hp1 : parseHex4 [h1, h2, h3, h4] = some (n, []))
    (hs1 : (0xD800 ≤ n && n ≤ 0xDBFF) = true)
    (hp2 : parseHex4 [h5, h6, h7, h8] = some (m, []))
    (hs2 : (0xDC00 ≤ m && m ≤ 0xDFFF) = true) :
    ∃ ch, readEscape ('u' :: h1 :: h2 :: h3 :: h4 ::
      '\\' :: 'u' :: h5 :: h6 :: h7 :: h8 :: T) = some (ch, T) := by
  have hx1 := parseHex4_extend h1 h2 h3 h4 n
    ('\\' :: 'u' :: h5 :: h6 :: h7 :: h8 :: T) hp1
  have hx2 := parseHex4_extend h5 h6 h7 h8 m T hp2
  exact ⟨Char.ofNat (0x10000 + (n - 0xD800) * 0x400 + (m - 0xDC00)),
    by simp [readEscape, hx1, hx2, hs1, hs2]⟩

/-- Completeness for string bodies: the parser accepts any `Bdy` text
followed by a closing quote, given enough fuel. -/
theorem parseStringBody_complete (b : List Char) (hb : Bdy b) :
    ∀ fuel T, b.length + 1 ≤ fuel →
      ∃ s, parseStringBody fuel (b ++ '"' :: T) = some (s, T) := by
  induction hb with
  | nil =>
    intro fuel T hfuel
    cases fuel with
    | zero => exact absurd hfuel (by simp)
    | succ f => exact ⟨[], by simp [parseStringBody]⟩
  | plain c b hq hbs hctl _ ih =>
    intro fuel T hfuel
    cases fuel with
    | zero => exact absurd hfuel (by simp)
    | succ f =>
      obtain ⟨s, hs⟩ := ih f T (by simpa using hfuel)
      refine ⟨c :: s, ?_⟩
      simp only [List.cons_append, parseStringBody, hq, if_false, hbs,
        if_false, if_neg (by omega : ¬c.toNat < 0x20)]
      simp [hs]
  | esc e b he _ ih =>
    intro fuel T hfuel
    cases fuel with
    | zero => exact absurd hfuel (by simp)
    | succ f =>
      obtain ⟨s, hs⟩ := ih f T (by simp at hfuel; omega)
      obtain ⟨ch, hch⟩ := readEscape_simple e he (b ++ '"' :: T)
      refine ⟨ch :: s, ?_⟩
      have hbq : ('\\' : Char) ≠ '"' := by decide
      simp only [List.cons_append, parseStringBody, hbq, if_false,
        if_pos rfl]
      simp [hch, hs]
  | hex h1 h2 h3 h4 n b hp hs1 hs2 _ ih =>
    intro fuel T hfuel
    cases fuel with
    | zero => exact absurd hfuel (by simp)
    | succ f =>
      obtain ⟨s, hs⟩ := ih f T (by simp at hfuel; omega)
      obtain ⟨ch, hch⟩ := readEscape_hex h1 h2 h3 h4 n (b ++ '"' :: T) hp hs1 hs2
      refine ⟨ch :: s, ?_⟩
      have hbq : ('\\' : Char) ≠ '"' := by decide
      simp only [List.cons_append, parseStringBody, hbq, if_false,
        if_pos rfl]
      simp [hch, hs]
  | surr h1 h2 h3 h4 n h5 h6 h7 h8 m b hp1 hs1 hp2 hs2 _ ih =>
    intro fuel T hfuel
    cases fuel with
    | zero => exact absurd hfuel (by simp)
    | succ f =>
      obtain ⟨s, hs⟩ := ih f T (by simp at hfuel; omega)
      obtain ⟨ch, hch⟩ := readEscape_surr h1 h2 h3 h4 n h5 h6 h7 h8 m
        (b ++ '"' :: T) hp1 hs1 hp2 hs2
      refine ⟨ch :: s, ?_⟩
      have hbq : ('\\' : Char) ≠ '"' := by decide
      simp only [List.cons_append, parseStringBody, hbq, if_false,
        if_pos rfl]
      simp [hch, hs]

/-- Two lists with distinct heads differ. -/
theorem ne_of_headq (a b : List Char) (x y : Char) (h1 : a.head? = some x)
    (h2 : b.head? = some y) (hxy : x ≠ y) : a ≠ b := by
  intro h
  subst h
  rw [h1] at h2
  exact hxy (Option.some.inj h2)

/-- Two lists with distinct second elements differ. -/
theorem ne_of_secondq (a b : List Char) (x y : Char)
    (h1 : a.tail.head? = some x) (h2 : b.tail.head? = some y) (hxy : x ≠ y) :
    a ≠ b := by
  intro h
  subst h
  rw [h1] at h2
  exact hxy (Option.some.inj h2)

/-- `parseLit` accepts `true` with any tail. -/
theorem parseLit_true (T : List Char) :
    parseLit ("true".data ++ T) = some (Json.bool true, T) := rfl

/-- `parseLit` accepts `false` with any tail. -/
theorem parseLit_false (T : List Char) :
    parseLit ("false".data ++ T) = some (Json.bool false, T) := rfl

/-- `parseLit` accepts `null` with any tail. -/
theorem parseLit_null (T : List Char) :
    parseLit ("null".data ++ T) = some (Json.null, T) := rfl

/-- `parseLit` accepts `NaN` with any tail. -/
theorem parseLit_nan (T : List Char) :
    parseLit ("NaN".data ++ T) = some (Json.num "NaN".data, T) := rfl

/-- `parseLit` accepts `Infinity` with any tail. -/
theorem parseLit_inf (T : List Char) :
    parseLit ("Infinity".data ++ T) = some (Json.num "Infinity".data, T) := rfl

/-- `parseLit` accepts `-Infinity` with any tail. -/
theorem parseLit_ninf (T : List Char) :
    parseLit ("-Infinity".data ++ T) =
      some (Json.num "-Infinity".data, T) := rfl

/-- The head of a number lexeme: a digit, or a minus whose next character
is a digit. -/
theorem numShape_head (t : List Char) (ht : NumShape t) :
    (∃ d r, t = d :: r ∧ isDigitCh d = true) ∨
      (∃ d r, t = '-' :: d :: r ∧ isDigitCh d = true) := by
  obtain ⟨ip, fp, ep, hip, _, _, hsh⟩ := ht
  have hiph : ∃ d r, ip = d :: r ∧ isDigitCh d = true := by
    rcases hip with hip | ⟨d, ds, hip, _, hdd, _⟩
    · exact ⟨'0', [], hip, by decide⟩
    · exact ⟨d, ds, hip, hdd⟩
  obtain ⟨d, r, hiph, hdd⟩ := hiph
  rcases hsh with hsh | hsh <;> subst hsh <;> rw [hiph]
  · exact Or.inl ⟨d, r ++ fp ++ ep, by simp, hdd⟩
  · exact Or.inr ⟨d, r ++ fp ++ ep, by simp, hdd⟩

/-- `parseLit` accepts a number lexeme followed by a safe tail. -/
theorem parseLit_num (t T : List Char) (ht : NumShape t) (hT : SafeHead T) :
    parseLit (t ++ T) = some (Json.num t, T) := by
  have hx := parseNumber_exact t T ht hT
  rcases numShape_head t ht with ⟨d, r, hh, hdd⟩ | ⟨d, r, hh, hdd⟩
  · subst hh
    have hd1 : d ≠ 't' := by intro h; rw [h] at hdd; exact absurd hdd (by decide)
    have hd2 : d ≠ 'f' := by intro h; rw [h] at hdd; exact absurd hdd (by decide)
    have hd3 : d ≠ 'n' := by intro h; rw [h] at hdd; exact absurd hdd (by decide)
    have hd4 : d ≠ 'N' := by intro h; rw [h] at hdd; exact absurd hdd (by decide)
    have hd5 : d ≠ 'I' := by intro h; rw [h] at hdd; exact absurd hdd (by decide)
    have hd6 : d ≠ '-' := by intro h; rw [h] at hdd; exact absurd hdd (by decide)
    simp only [List.cons_append] at hx ⊢
    unfold parseLit
    rw [if_neg (ne_of_headq (List.take 4 (d :: (r ++ T))) "true".data d 't'
        rfl rfl hd1),
      if_neg (ne_of_headq (List.take 5 (d :: (r ++ T))) "false".data d 'f'
        rfl rfl hd2),
      if_neg (ne_of_headq (List.take 4 (d :: (r ++ T))) "null".data d 'n'
        rfl rfl hd3),
      if_neg (ne_of_headq (List.take 3 (d :: (r ++ T))) "NaN".data d 'N'
        rfl rfl hd4),
      if_neg (ne_of_headq (List.take 8 (d :: (r ++ T))) "Infinity".data d 'I'
        rfl rfl hd5),
      if_neg (ne_of_headq (List.take 9 (d :: (r ++ T))) "-Infinity".data d '-'
        rfl rfl hd6)]
    simp [hdd, hx]
  · subst hh
    simp only [List.cons_append] at hx ⊢
    have hdI : d ≠ 'I' := by intro h; rw [h] at hdd; exact absurd hdd (by decide)
    unfold parseLit
    rw [if_neg (ne_of_headq (List.take 4 ('-' :: d :: (r ++ T))) "true".data
        '-' 't' rfl rfl (by decide)),
      if_neg (ne_of_headq (List.take 5 ('-' :: d :: (r ++ T))) "false".data
        '-' 'f' rfl rfl (by decide)),
      if_neg (ne_of_headq (List.take 4 ('-' :: d :: (r ++ T))) "null".data
        '-' 'n' rfl rfl (by decide)),
      if_neg (ne_of_headq (List.take 3 ('-' :: d :: (r ++ T))) "NaN".data
        '-' 'N' rfl rfl (by decide)),
      if_neg (ne_of_headq (List.take 8 ('-' :: d :: (r ++ T))) "Infinity".data
        '-' 'I' rfl rfl (by decide)),
      if_neg (ne_of_secondq (List.take 9 ('-' :: d :: (r ++ T)))
        "-Infinity".data d 'I' rfl rfl hdI)]
    simp [hx]

/-- The first character of a grammatical value: never whitespace and
never a closer. -/
theorem G_val_head (t : List Char) (h : G .val t) :
    ∃ c r, t = c :: r ∧ jsonWs c = false ∧ c ≠ ']' ∧ c ≠ rbrace ∧ c ≠ ',' := by
  have digitFacts : ∀ d : Char, isDigitCh d = true →
      jsonWs d = false ∧ d ≠ ']' ∧ d ≠ rbrace ∧ d ≠ ',' := by
    intro d hd
    refine ⟨?_, ?_, ?_, ?_⟩
    · cases hw : jsonWs d with
      | false => rfl
      | true =>
        have := safeStop_not_digit d (by simp [safeStop, hw])
        rw [hd] at this
        exact absurd this (by simp)
    all_goals intro hc
    all_goals rw [hc] at hd
    all_goals exact absurd hd (by decide)
  cases h with
  | str b hb =>
    exact ⟨'"', b ++ ['"'], rfl, by decide, by decide, by decide, by decide⟩
  | num t ht =>
    rcases numShape_head t ht with ⟨d, r, hh, hdd⟩ | ⟨d, r, hh, hdd⟩
    · obtain ⟨f1, f2, f3, f4⟩ := digitFacts d hdd
      exact ⟨d, r, hh, f1, f2, f3, f4⟩
    · exact ⟨'-', d :: r, hh, by decide, by decide, by decide, by decide⟩
  | lit_true => exact ⟨'t', _, rfl, by decide, by decide, by decide, by decide⟩
  | lit_false => exact ⟨'f', _, rfl, by decide, by decide, by decide, by decide⟩
  | lit_null => exact ⟨'n', _, rfl, by decide, by decide, by decide, by decide⟩
  | lit_nan => exact ⟨'N', _, rfl, by decide, by decide, by decide, by decide⟩
  | lit_inf => exact ⟨'I', _, rfl, by decide, by decide, by decide, by decide⟩
  | lit_ninf => exact ⟨'-', _, rfl, by decide, by decide, by decide, by decide⟩
  | obj M hm =>
    exact ⟨lbrace, M, rfl, by decide, by decide, by decide, by decide⟩
  | arr A ha =>
    exact ⟨'[', A, rfl, by decide, by decide, by decide, by decide⟩

/-- Skipping whitespace over a whitespace chunk followed by a
non-whitespace character. -/
theorem skipWs_ws_cons (w : List Char) (hw : AllWs w) (c : Char)
    (hc : jsonWs c = false) (x : List Char) :
    skipWs (w ++ c :: x) = c :: x := by
  rw [skipWs_ws_append w (c :: x) hw]
  refine skipWs_nonWs (c :: x) ?_
  intro c' r' h
  injection h with h1 _
  rw [← h1]
  exact hc

/-- The head of a members-loop text is a safe stop. -/
theorem G_ml_head_safe (L : List Char) (h : G .ml L) :
    ∃ c r, L = c :: r ∧ safeStop c = true := by
  cases h with
  | ml_close w hwv =>
    cases w with
    | nil => exact ⟨rbrace, [], rfl, by decide⟩
    | cons c r =>
      refine ⟨c, r ++ [rbrace], rfl, ?_⟩
      simp [safeStop, hwv c (by simp)]
  | ml_member w1 w2 b w3 w4 v L hw1 hw2 hb hw3 hw4 hv hL =>
    cases w1 with
    | nil => exact ⟨',', _, rfl, by decide⟩
    | cons c r =>
      refine ⟨c, _, rfl, ?_⟩
      simp [safeStop, hw1 c (by simp)]

/-- The head of an items-loop text is a safe stop. -/
theorem G_il_head_safe (L : List Char) (h : G .il L) :
    ∃ c r, L = c :: r ∧ safeStop c = true := by
  cases h with
  | il_close w hwv =>
    cases w with
    | nil => exact ⟨']', [], rfl, by decide⟩
    | cons c r =>
      refine ⟨c, r ++ [']'], rfl, ?_⟩
      simp [safeStop, hwv c (by simp)]
  | il_item w w2 v L hw hw2 hv hL =>
    cases w with
    | nil => exact ⟨',', _, rfl, by decide⟩
    | cons c r =>
      refine ⟨c, _, rfl, ?_⟩
      simp [safeStop, hw c (by simp)]

/-- Completeness: the parser accepts every text of the grammar. -/
theorem parse_complete (k : GK) (t : List Char) (h : G k t) :
    CompleteStmt k t := by
  induction h with
  | str b hb =>
    simp only [CompleteStmt]
    intro w fuel T hw hT hfuel
    cases fuel with
    | zero => exact absurd hfuel (by simp)
    | succ f =>
      have harg : w ++ (('"' :: b ++ ['"']) ++ T) =
          w ++ '"' :: (b ++ '"' :: T) := by simp
      obtain ⟨s, hs⟩ := parseStringBody_complete b hb f T (by
        simp only [List.length_cons, List.length_append] at hfuel ⊢
        omega)
      refine ⟨Json.str s, ?_⟩
      rw [harg]
      simp only [parseValue, skipWs_ws_cons w hw '"' (by decide) _]
      rw [if_neg (by decide : ¬('"' : Char) = lbrace)]
      simp [hs]
  | num t ht =>
    simp only [CompleteStmt]
    intro w fuel T hw hT hfuel
    cases fuel with
    | zero => exact absurd hfuel (by simp)
    | succ f =>
      obtain ⟨c, r, hh, hcw, hc1, hc2, hc3⟩ := G_val_head t (G.num t ht)
      have harg : w ++ (t ++ T) = w ++ c :: (r ++ T) := by rw [hh]; simp
      have hlit := parseLit_num t T ht hT
      have hcb : c ≠ lbrace := by
        rcases numShape_head t ht with ⟨d, rr, hd, hdd⟩ | ⟨d, rr, hd, hdd⟩ <;>
          rw [hd] at hh
        · injection hh with h1 _
          rw [← h1]
          intro hx
          rw [hx] at hdd
          exact absurd hdd (by decide)
        · injection hh with h1 _
          rw [← h1]
          decide
      have hcq : c ≠ '"' := by
        rcases numShape_head t ht with ⟨d, rr, hd, hdd⟩ | ⟨d, rr, hd, hdd⟩ <;>
          rw [hd] at hh
        · injection hh with h1 _
          rw [← h1]
          intro hx
          rw [hx] at hdd
          exact absurd hdd (by decide)
        · injection hh with h1 _
          rw [← h1]
          decide
      have hcl : c ≠ '[' := by
        rcases numShape_head t ht with ⟨d, rr, hd, hdd⟩ | ⟨d, rr, hd, hdd⟩ <;>
          rw [hd] at hh
        · injection hh with h1 _
          rw [← h1]
          intro hx
          rw [hx] at hdd
          exact absurd hdd (by decide)
        · injection hh with h1 _
          rw [← h1]
          decide
      refine ⟨Json.num t, ?_⟩
      rw [harg]
      simp only [parseValue, skipWs_ws_cons w hw c hcw _]
      rw [if_neg hcb, if_neg hcl, if_neg hcq,
        show c :: (r ++ T) = t ++ T from by rw [hh]; simp]
      exact hlit
  | lit_true =>
    simp only [CompleteStmt]
    intro w fuel T hw hT hfuel
    cases fuel with
    | zero => exact absurd hfuel (by simp)
    | succ f =>
      have harg : w ++ ("true".data ++ T) = w ++ 't' :: ("rue".data ++ T) := by
        simp
      refine ⟨Json.bool true, ?_⟩
      rw [harg]
      simp only [parseValue, skipWs_ws_cons w hw 't' (by decide) _]
      rw [if_neg (by decide : ¬('t' : Char) = lbrace)]
      simpa using parseLit_true T
  | lit_false =>
    simp only [CompleteStmt]
    intro w fuel T hw hT hfuel
    cases fuel with
    | zero => exact absurd hfuel (by simp)
    | succ f =>
      have harg : w ++ ("false".data ++ T) = w ++ 'f' :: ("alse".data ++ T) := by
        simp
      refine ⟨Json.bool false, ?_⟩
      rw [harg]
      simp only [parseValue, skipWs_ws_cons w hw 'f' (by decide) _]
      rw [if_neg (by decide : ¬('f' : Char) = lbrace)]
      simpa using parseLit_false T
  | lit_null =>
    simp only [CompleteStmt]
    intro w fuel T hw hT hfuel
    cases fuel with
    | zero => exact absurd hfuel (by simp)
    | succ f =>
      have harg : w ++ ("null".data ++ T) = w ++ 'n' :: ("ull".data ++ T) := by
        simp
      refine ⟨Json.null, ?_⟩
      rw [harg]
      simp only [parseValue, skipWs_ws_cons w hw 'n' (by decide) _]
      rw [if_neg (by decide : ¬('n' : Char) = lbrace)]
      simpa using parseLit_null T
  | lit_nan =>
    simp only [CompleteStmt]
    intro w fuel T hw hT hfuel
    cases fuel with
    | zero => exact absurd hfuel (by simp)
    | succ f =>
      have harg : w ++ ("NaN".data ++ T) = w ++ 'N' :: ("aN".data ++ T) := by
        simp
      refine ⟨Json.num "NaN".data, ?_⟩
      rw [harg]
      simp only [parseValue, skipWs_ws_cons w hw 'N' (by decide) _]
      rw [if_neg (by decide : ¬('N' : Char) = lbrace)]
      simpa using parseLit_nan T
  | lit_inf =>
    simp only [CompleteStmt]
    intro w fuel T hw hT hfuel
    cases fuel with
    | zero => exact absurd hfuel (by simp)
    | succ f =>
      have harg : w ++ ("Infinity".data ++ T) =
          w ++ 'I' :: ("nfinity".data ++ T) := by simp
      refine ⟨Json.num "Infinity".data, ?_⟩
      rw [harg]
      simp only [parseValue, skipWs_ws_cons w hw 'I' (by decide) _]
      rw [if_neg (by decide : ¬('I' : Char) = lbrace)]
      simpa using parseLit_inf T
  | lit_ninf =>
    simp only [CompleteStmt]
    intro w fuel T hw hT hfuel
    cases fuel with
    | zero => exact absurd hfuel (by simp)
    | succ f =>
      have harg : w ++ ("-Infinity".data ++ T) =
          w ++ '-' :: ("Infinity".data ++ T) := by simp
      refine ⟨Json.num "-Infinity".data, ?_⟩
      rw [harg]
      simp only [parseValue, skipWs_ws_cons w hw '-' (by decide) _]
      rw [if_neg (by decide : ¬('-' : Char) = lbrace)]
      simpa using parseLit_ninf T
  | obj M hm ihm =>
    simp only [CompleteStmt] at ihm ⊢
    intro w fuel T hw hT hfuel
    cases fuel with
    | zero => exact absurd hfuel (by simp)
    | succ f =>
      obtain ⟨ms, hms⟩ := ihm f T (by
        simp only [List.length_cons] at hfuel
        omega)
      have harg : w ++ ((lbrace :: M) ++ T) = w ++ lbrace :: (M ++ T) := by simp
      refine ⟨Json.obj ms, ?_⟩
      rw [harg]
      simp only [parseValue, skipWs_ws_cons w hw lbrace (by decide) _]
      simp [hms]
  | arr A ha iha =>
    simp only [CompleteStmt] at iha ⊢
    intro w fuel T hw hT hfuel
    cases fuel with
    | zero => exact absurd hfuel (by simp)
    | succ f =>
      obtain ⟨vs, hvs⟩ := iha f T hT (by
        simp only [List.length_cons] at hfuel
        omega)
      have harg : w ++ (('[' :: A) ++ T) = w ++ '[' :: (A ++ T) := by simp
      refine ⟨Json.arr vs, ?_⟩
      rw [harg]
      simp only [parseValue, skipWs_ws_cons w hw '[' (by decide) _]
      rw [if_neg (by decide : ¬('[' : Char) = lbrace)]
      simp [hvs]
  | ms_close w hwv =>
    simp only [CompleteStmt]
    intro fuel T hfuel
    cases fuel with
    | zero => exact absurd hfuel (by simp)
    | succ f =>
      have harg : (w ++ [rbrace]) ++ T = w ++ rbrace :: T := by simp
      refine ⟨[], ?_⟩
      rw [harg]
      simp [parseMembersStart, skipWs_ws_cons w hwv rbrace (by decide) _]
  | ms_member w1 b w2 w3 v L hw1 hb hw2 hw3 hv hL ihv ihL =>
    simp only [CompleteStmt] at ihv ihL ⊢
    intro fuel T hfuel
    cases fuel with
    | zero => exact absurd hfuel (by simp)
    | succ f =>
      simp only [List.length_append, List.length_cons] at hfuel
      obtain ⟨cL, rL, hLh, hLs⟩ := G_ml_head_safe L hL
      obtain ⟨s, hsb⟩ := parseStringBody_complete b hb f
        (w2 ++ ':' :: (w3 ++ (v ++ (L ++ T)))) (by omega)
      obtain ⟨vv, hvv⟩ := ihv w3 f (L ++ T) hw3 (by rw [hLh]; exact hLs)
        (by omega)
      obtain ⟨ms, hms⟩ := ihL f T (by omega)
      have harg : (w1 ++ '"' :: (b ++ '"' :: (w2 ++ ':' :: (w3 ++ (v ++ L))))) ++ T =
          w1 ++ '"' :: (b ++ '"' :: (w2 ++ ':' :: (w3 ++ (v ++ (L ++ T))))) := by
        simp
      refine ⟨(s, vv) :: ms, ?_⟩
      rw [harg]
      simp only [parseMembersStart, skipWs_ws_cons w1 hw1 '"' (by decide) _]
      rw [if_neg (by decide : ¬('"' : Char) = rbrace)]
      simp only [hsb, skipWs_ws_cons w2 hw2 ':' (by decide) _]
      simp [hvv, hms]
  | ml_close w hwv =>
    simp only [CompleteStmt]
    intro fuel T hfuel
    cases fuel with
    | zero => exact absurd hfuel (by simp)
    | succ f =>
      have harg : (w ++ [rbrace]) ++ T = w ++ rbrace :: T := by simp
      refine ⟨[], ?_⟩
      rw [harg]
      simp [parseMembersLoop, skipWs_ws_cons w hwv rbrace (by decide) _]
  | ml_member w1 w2 b w3 w4 v L hw1 hw2 hb hw3 hw4 hv hL ihv ihL =>
    simp only [CompleteStmt] at ihv ihL ⊢
    intro fuel T hfuel
    cases fuel with
    | zero => exact absurd hfuel (by simp)
    | succ f =>
      simp only [List.length_append, List.length_cons] at hfuel
      obtain ⟨cL, rL, hLh, hLs⟩ := G_ml_head_safe L hL
      obtain ⟨s, hsb⟩ := parseStringBody_complete b hb f
        (w3 ++ ':' :: (w4 ++ (v ++ (L ++ T)))) (by omega)
      obtain ⟨vv, hvv⟩ := ihv w4 f (L ++ T) hw4 (by rw [hLh]; exact hLs)
        (by omega)
      obtain ⟨ms, hms⟩ := ihL f T (by omega)
      have harg : (w1 ++ ',' :: (w2 ++ '"' :: (b ++ '"' :: (w3 ++ ':' :: (w4 ++ (v ++ L)))))) ++ T =
          w1 ++ ',' :: (w2 ++ '"' :: (b ++ '"' :: (w3 ++ ':' :: (w4 ++ (v ++ (L ++ T)))))) := by
        simp
      refine ⟨(s, vv) :: ms, ?_⟩
      rw [harg]
      simp only [parseMembersLoop, skipWs_ws_cons w1 hw1 ',' (by decide) _]
      rw [if_neg (by decide : ¬(',' : Char) = rbrace)]
      simp only [skipWs_ws_cons w2 hw2 '"' (by decide) _]
      simp only [hsb, skipWs_ws_cons w3 hw3 ':' (by decide) _]
      simp [hvv, hms]
  | is_close w hwv =>
    simp only [CompleteStmt]
    intro fuel T hT hfuel
    cases fuel with
    | zero => exact absurd hfuel (by simp)
    | succ f =>
      have harg : (w ++ [']']) ++ T = w ++ ']' :: T := by simp
      refine ⟨[], ?_⟩
      rw [harg]
      simp [parseItemsStart, skipWs_ws_cons w hwv ']' (by decide) _]
  | is_item w v L hw hv hL ihv ihL =>
    simp only [CompleteStmt] at ihv ihL ⊢
    intro fuel T hT hfuel
    cases fuel with
    | zero => exact absurd hfuel (by simp)
    | succ f =>
      simp only [List.length_append] at hfuel
      obtain ⟨cL, rL, hLh, hLs⟩ := G_il_head_safe L hL
      obtain ⟨c, r, hvh, hcw, hc1, hc2, hc3⟩ := G_val_head v hv
      have hLlen : L.length = rL.length + 1 := by rw [hLh]; simp
      have hvlen : v.length = r.length + 1 := by rw [hvh]; simp
      obtain ⟨vv, hvv⟩ := ihv w f (L ++ T) hw (by rw [hLh]; exact hLs)
        (by omega)
      obtain ⟨vs, hvs⟩ := ihL f T hT (by omega)
      have harg : (w ++ (v ++ L)) ++ T = w ++ c :: (r ++ (L ++ T)) := by
        rw [hvh]; simp
      have harg2 : w ++ (v ++ (L ++ T)) = w ++ c :: (r ++ (L ++ T)) := by
        rw [hvh]; simp
      refine ⟨vv :: vs, ?_⟩
      rw [harg]
      simp only [parseItemsStart, skipWs_ws_cons w hw c hcw _]
      rw [if_neg hc1]
      rw [harg2] at hvv
      simp [hvv, hvs]
  | il_close w hwv =>
    simp only [CompleteStmt]
    intro fuel T hT hfuel
    cases fuel with
    | zero => exact absurd hfuel (by simp)
    | succ f =>
      have harg : (w ++ [']']) ++ T = w ++ ']' :: T := by simp
      refine ⟨[], ?_⟩
      rw [harg]
      simp [parseItemsLoop, skipWs_ws_cons w hwv ']' (by decide) _]
  | il_item w w2 v L hw hw2 hv hL ihv ihL =>
    simp only [CompleteStmt] at ihv ihL ⊢
    intro fuel T hT hfuel
    cases fuel with
    | zero => exact absurd hfuel (by simp)
    | succ f =>
      simp only [List.length_append, List.length_cons] at hfuel
      obtain ⟨cL, rL, hLh, hLs⟩ := G_il_head_safe L hL
      obtain ⟨vv, hvv⟩ := ihv w2 f (L ++ T) hw2 (by rw [hLh]; exact hLs)
        (by omega)
      obtain ⟨vs, hvs⟩ := ihL f T hT (by omega)
      have harg : (w ++ ',' :: (w2 ++ (v ++ L))) ++ T =
          w ++ ',' :: (w2 ++ (v ++ (L ++ T))) := by simp
      refine ⟨vv :: vs, ?_⟩
      rw [harg]
      simp only [parseItemsLoop, skipWs_ws_cons w hw ',' (by decide) _]
      simp [hvv, hvs]

/-- Inversion for `parseHex4`: exactly four characters are consumed, and
they parse on their own. -/
theorem parseHex4_sound (l : List Char) (n : Nat) (r : List Char)
    (h : parseHex4 l = some (n, r)) :
    ∃ h1 h2 h3 h4, l = h1 :: h2 :: h3 :: h4 :: r ∧
      parseHex4 [h1, h2, h3, h4] = some (n, []) := by
  match l with
  | [] => exact absurd h (by simp [parseHex4])
  | [a] => exact absurd h (by simp [parseHex4])
  | [a, b] => exact absurd h (by simp [parseHex4])
  | [a, b, c] => exact absurd h (by simp [parseHex4])
  | a :: b :: c :: d :: r' =>
    simp only [parseHex4] at h
    cases ha : hexVal a with
    | none => rw [ha] at h; exact absurd h (by simp)
    | some va =>
      cases hb : hexVal b with
      | none => rw [ha, hb] at h; exact absurd h (by simp)
      | some vb =>
        cases hc : hexVal c with
        | none => rw [ha, hb, hc] at h; exact absurd h (by simp)
        | some vc =>
          cases hd : hexVal d with
          | none => rw [ha, hb, hc, hd] at h; exact absurd h (by simp)
          | some vd =>
            simp only [ha, hb, hc, hd, Option.some.injEq,
              Prod.mk.injEq] at h
            refine ⟨a, b, c, d, by rw [h.2], ?_⟩
            simp only [parseHex4, ha, hb, hc, hd, Option.some.injEq,
              Prod.mk.injEq]
            exact ⟨h.1, trivial⟩

/-- Inversion for `readEscape`: the consumed text is one of the three
escape forms. -/
theorem readEscape_sound (l : List Char) (ch : Char) (r : List Char)
    (h : readEscape l = some (ch, r)) :
    (∃ e, l = e :: r ∧ SimpleEsc e) ∨
    (∃ h1 h2 h3 h4 n, l = 'u' :: h1 :: h2 :: h3 :: h4 :: r ∧
      parseHex4 [h1, h2, h3, h4] = some (n, []) ∧
      (0xD800 ≤ n && n ≤ 0xDBFF) = false ∧
      (0xDC00 ≤ n && n ≤ 0xDFFF) = false) ∨
    (∃ h1 h2 h3 h4 n h5 h6 h7 h8 m,
      l = 'u' :: h1 :: h2 :: h3 :: h4 :: '\\' :: 'u' :: h5 :: h6 :: h7 :: h8 :: r ∧
      parseHex4 [h1, h2, h3, h4] = some (n, []) ∧
      (0xD800 ≤ n && n ≤ 0xDBFF) = true ∧
      parseHex4 [h5, h6, h7, h8] = some (m, []) ∧
      (0xDC00 ≤ m && m ≤ 0xDFFF) = true) := by
  match l with
  | [] => exact absurd h (by simp [readEscape])
  | e :: r2 =>
    simp only [readEscape] at h
    by_cases h1 : e = '"'
    · rw [if_pos h1] at h
      simp only [Option.some.injEq, Prod.mk.injEq] at h
      exact Or.inl ⟨e, by rw [h.2], Or.inl h1⟩
    · rw [if_neg h1] at h
      by_cases h2 : e = '\\'
      · rw [if_pos h2] at h
        simp only [Option.some.injEq, Prod.mk.injEq] at h
        exact Or.inl ⟨e, by rw [h.2], Or.inr (Or.inl h2)⟩
      · rw [if_neg h2] at h
        by_cases h3 : e = '/'
        · rw [if_pos h3] at h
          simp only [Option.some.injEq, Prod.mk.injEq] at h
          exact Or.inl ⟨e, by rw [h.2], Or.inr (Or.inr (Or.inl h3))⟩
        · rw [if_neg h3] at h
          by_cases h4 : e = 'b'
          · rw [if_pos h4] at h
            simp only [Option.some.injEq, Prod.mk.injEq] at h
            exact Or.inl ⟨e, by rw [h.2], Or.inr (Or.inr (Or.inr (Or.inl h4)))⟩
          · rw [if_neg h4] at h
            by_cases h5 : e = 'f'
            · rw [if_pos h5] at h
              simp only [Option.some.injEq, Prod.mk.injEq] at h
              exact Or.inl ⟨e, by rw [h.2],
                Or.inr (Or.inr (Or.inr (Or.inr (Or.inl h5))))⟩
            · rw [if_neg h5] at h
              by_cases h6 : e = 'n'
              · rw [if_pos h6] at h
                simp only [Option.some.injEq, Prod.mk.injEq] at h
                exact Or.inl ⟨e, by rw [h.2],
                  Or.inr (Or.inr (Or.inr (Or.inr (Or.inr (Or.inl h6)))))⟩
              · rw [if_neg h6] at h
                by_cases h7 : e = 'r'
                · rw [if_pos h7] at h
                  simp only [Option.some.injEq, Prod.mk.injEq] at h
                  exact Or.inl ⟨e, by rw [h.2],
                    Or.inr (Or.inr (Or.inr (Or.inr (Or.inr (Or.inr (Or.inl h7))))))⟩
                · rw [if_neg h7] at h
                  by_cases h8 : e = 't'
                  · rw [if_pos h8] at h
                    simp only [Option.some.injEq, Prod.mk.injEq] at h
                    exact Or.inl ⟨e, by rw [h.2],
                      Or.inr (Or.inr (Or.inr (Or.inr (Or.inr (Or.inr (Or.inr h8))))))⟩
                  · rw [if_neg h8] at h
                    by_cases h9 : e = 'u'
                    · rw [if_pos h9] at h
                      cases hh : parseHex4 r2 with
                      | none => rw [hh] at h; exact absurd h (by simp)
                      | some p =>
                        obtain ⟨n, r3⟩ := p
                        simp only [hh] at h
                        obtain ⟨a1, a2, a3, a4, hr2, hp4⟩ :=
                          parseHex4_sound r2 n r3 hh
                        by_cases hs : (0xD800 ≤ n && n ≤ 0xDBFF) = true
                        · rw [if_pos hs] at h
                          cases r3 with
                          | nil => exact absurd h (by simp)
                          | cons c1 rr =>
                            by_cases hc1 : c1 = '\\'
                            · subst hc1
                              cases rr with
                              | nil => exact absurd h (by simp)
                              | cons c2 rrr =>
                                by_cases hc2 : c2 = 'u'
                                · subst hc2
                                  cases hh2 : parseHex4 rrr with
                                  | none =>
                                    simp only [hh2] at h
                                    exact absurd h (by simp)
                                  | some q =>
                                    obtain ⟨m, r5⟩ := q
                                    simp only [hh2] at h
                                    obtain ⟨b1, b2, b3, b4, hr4, hp42⟩ :=
                                      parseHex4_sound rrr m r5 hh2
                                    by_cases hs2 : (0xDC00 ≤ m && m ≤ 0xDFFF) = true
                                    · rw [if_pos hs2] at h
                                      simp only [Option.some.injEq,
                                        Prod.mk.injEq] at h
                                      refine Or.inr (Or.inr
                                        ⟨a1, a2, a3, a4, n, b1, b2, b3, b4, m,
                                          ?_, hp4, hs, hp42, hs2⟩)
                                      rw [h9, hr2, hr4, h.2]
                                    · rw [if_neg hs2] at h
                                      exact absurd h (by simp)
                                · simp [hc2] at h
                            · simp [hc1] at h
                        · rw [if_neg hs] at h
                          by_cases hs3 : (0xDC00 ≤ n && n ≤ 0xDFFF) = true
                          · rw [if_pos hs3] at h
                            exact absurd h (by simp)
                          · rw [if_neg hs3] at h
                            simp only [Option.some.injEq, Prod.mk.injEq] at h
                            refine Or.inr (Or.inl
                              ⟨a1, a2, a3, a4, n, ?_, hp4,
                                by simpa using hs, by simpa using hs3⟩)
                            rw [h9, hr2, h.2]
                    · rw [if_neg h9] at h
                      exact absurd h (by simp)

/-- Inversion for `parseStringBody`: the consumed text is a grammatical
body followed by the closing quote. -/
theorem parseStringBody_sound (fuel : Nat) :
    ∀ cs s rest, parseStringBody fuel cs = some (s, rest) →
      ∃ b, cs = b ++ '"' :: rest ∧ Bdy b := by
  induction fuel with
  | zero =>
    intro cs s rest h
    exact absurd h (by simp [parseStringBody])
  | succ fuel ih =>
    intro cs s rest h
    cases cs with
    | nil => exact absurd h (by simp [parseStringBody])
    | cons c r =>
      simp only [parseStringBody] at h
      by_cases hq : c = '"'
      · rw [if_pos hq] at h
        simp only [Option.some.injEq, Prod.mk.injEq] at h
        exact ⟨[], by rw [hq, h.2]; simp, Bdy.nil⟩
      · rw [if_neg hq] at h
        by_cases hb : c = '\\'
        · rw [if_pos hb] at h
          cases he : readEscape r with
          | none =>
            simp only [he] at h
            exact absurd h (by simp)
          | some p =>
            obtain ⟨ch, r2⟩ := p
            simp only [he] at h
            cases hrec : parseStringBody fuel r2 with
            | none =>
              simp only [hrec] at h
              exact absurd h (by simp)
            | some q =>
              obtain ⟨s', rest'⟩ := q
              simp only [hrec, Option.map_some', Option.some.injEq,
                Prod.mk.injEq] at h
              obtain ⟨b2, hr2, hbd⟩ := ih r2 s' rest' hrec
              rcases readEscape_sound r ch r2 he with
                ⟨e, hre, hse⟩ |
                ⟨a1, a2, a3, a4, n, hre, hp4, hns1, hns2⟩ |
                ⟨a1, a2, a3, a4, n, b1, b2', b3, b4, m, hre, hp4, hhs,
                  hp42, hls⟩
              · refine ⟨'\\' :: e :: b2, ?_, Bdy.esc e b2 hse hbd⟩
                rw [hb, hre, hr2, ← h.2]
                simp
              · refine ⟨'\\' :: 'u' :: a1 :: a2 :: a3 :: a4 :: b2, ?_,
                  Bdy.hex a1 a2 a3 a4 n b2 hp4 hns1 hns2 hbd⟩
                rw [hb, hre, hr2, ← h.2]
                simp
              · refine ⟨'\\' :: 'u' :: a1 :: a2 :: a3 :: a4 ::
                  '\\' :: 'u' :: b1 :: b2' :: b3 :: b4 :: b2, ?_,
                  Bdy.surr a1 a2 a3 a4 n b1 b2' b3 b4 m b2 hp4 hhs hp42 hls hbd⟩
                rw [hb, hre, hr2, ← h.2]
                simp
        · rw [if_neg hb] at h
          by_cases hctl : c.toNat < 0x20
          · rw [if_pos hctl] at h
            exact absurd h (by simp)
          · rw [if_neg hctl] at h
            cases hrec : parseStringBody fuel r with
            | none =>
              simp only [hrec] at h
              exact absurd h (by simp)
            | some q =>
              obtain ⟨s', rest'⟩ := q
              simp only [hrec, Option.map_some', Option.some.injEq,
                Prod.mk.injEq] at h
              obtain ⟨b2, hr2, hbd⟩ := ih r s' rest' hrec
              refine ⟨c :: b2, ?_,
                Bdy.plain c b2 hq hb (Nat.le_of_not_lt hctl) hbd⟩
              rw [hr2, ← h.2]
              simp

/-- Inversion for `parseLit`: the consumed text is a grammatical value. -/
theorem parseLit_sound (l : List Char) (v : Json) (rest : List Char)
    (h : parseLit l = some (v, rest)) :
    ∃ t, l = t ++ rest ∧ G .val t := by
  unfold parseLit at h
  by_cases h1 : l.take 4 = "true".data
  · rw [if_pos h1] at h
    simp only [Option.some.injEq, Prod.mk.injEq] at h
    refine ⟨"true".data, ?_, G.lit_true⟩
    rw [← h.2, ← h1]
    exact (List.take_append_drop 4 l).symm
  rw [if_neg h1] at h
  by_cases h2 : l.take 5 = "false".data
  · rw [if_pos h2] at h
    simp only [Option.some.injEq, Prod.mk.injEq] at h
    refine ⟨"false".data, ?_, G.lit_false⟩
    rw [← h.2, ← h2]
    exact (List.take_append_drop 5 l).symm
  rw [if_neg h2] at h
  by_cases h3 : l.take 4 = "null".data
  · rw [if_pos h3] at h
    simp only [Option.some.injEq, Prod.mk.injEq] at h
    refine ⟨"null".data, ?_, G.lit_null⟩
    rw [← h.2, ← h3]
    exact (List.take_append_drop 4 l).symm
  rw [if_neg h3] at h
  by_cases h4 : l.take 3 = "NaN".data
  · rw [if_pos h4] at h
    simp only [Option.some.injEq, Prod.mk.injEq] at h
    refine ⟨"NaN".data, ?_, G.lit_nan⟩
    rw [← h.2, ← h4]
    exact (List.take_append_drop 3 l).symm
  rw [if_neg h4] at h
  by_cases h5 : l.take 8 = "Infinity".data
  · rw [if_pos h5] at h
    simp only [Option.some.injEq, Prod.mk.injEq] at h
    refine ⟨"Infinity".data, ?_, G.lit_inf⟩
    rw [← h.2, ← h5]
    exact (List.take_append_drop 8 l).symm
  rw [if_neg h5] at h
  by_cases h6 : l.take 9 = "-Infinity".data
  · rw [if_pos h6] at h
    simp only [Option.some.injEq, Prod.mk.injEq] at h
    refine ⟨"-Infinity".data, ?_, G.lit_ninf⟩
    rw [← h.2, ← h6]
    exact (List.take_append_drop 9 l).symm
  rw [if_neg h6] at h
  cases l with
  | nil => exact absurd h (by simp)
  | cons c r =>
    simp only [] at h
    by_cases hc : (c = '-' || isDigitCh c) = true
    · rw [if_pos hc] at h
      cases hn : parseNumber (c :: r) with
      | none =>
        rw [hn] at h
        exact absurd h (by simp)
      | some p =>
        obtain ⟨lex, rest'⟩ := p
        rw [hn] at h
        simp only [Option.map_some', Option.some.injEq, Prod.mk.injEq] at h
        obtain ⟨hsplit, _⟩ := parseNumber_split (c :: r) lex rest' hn
        refine ⟨lex, by rw [hsplit, h.2], G.num lex (parseNumber_shape _ _ _ hn)⟩
    · rw [if_neg hc] at h
      exact absurd h (by simp)

/-- Soundness: every successful parse consumes a text of the grammar
(with a leading whitespace chunk for values). -/
theorem parse_sound (fuel : Nat) :
    (∀ cs v rest, parseValue fuel cs = some (v, rest) →
      ∃ w t, cs = w ++ (t ++ rest) ∧ AllWs w ∧ G .val t) ∧
    (∀ cs ms rest, parseMembersStart fuel cs = some (ms, rest) →
      ∃ t, cs = t ++ rest ∧ G .ms t) ∧
    (∀ cs ms rest, parseMembersLoop fuel cs = some (ms, rest) →
      ∃ t, cs = t ++ rest ∧ G .ml t) ∧
    (∀ cs vs rest, parseItemsStart fuel cs = some (vs, rest) →
      ∃ t, cs = t ++ rest ∧ G .isk t) ∧
    (∀ cs vs rest, parseItemsLoop fuel cs = some (vs, rest) →
      ∃ t, cs = t ++ rest ∧ G .il t) := by
  induction fuel with
  | zero =>
    refine ⟨?_, ?_, ?_, ?_, ?_⟩ <;>
      exact fun cs a rest h => absurd h (by
        simp [parseValue, parseMembersStart, parseMembersLoop,
          parseItemsStart, parseItemsLoop])
  | succ fuel ih =>
    obtain ⟨ihV, ihMS, ihML, ihIS, ihIL⟩ := ih
    refine ⟨?_, ?_, ?_, ?_, ?_⟩
    · -- parseValue
      intro cs v rest h
      simp only [parseValue] at h
      obtain ⟨w, hw, hws⟩ := skipWs_split cs
      cases hsw : skipWs cs with
      | nil =>
        simp only [hsw] at h
        exact absurd h (by simp)
      | cons c r =>
        rw [hsw] at hw
        simp only [hsw] at h
        by_cases hc1 : c = lbrace
        · subst hc1
          rw [if_pos rfl] at h
          cases hm : parseMembersStart fuel r with
          | none => simp only [hm] at h; exact absurd h (by simp)
          | some p =>
            obtain ⟨ms, rest'⟩ := p
            simp only [hm, Option.map_some', Option.some.injEq,
              Prod.mk.injEq] at h
            obtain ⟨M, hcm, hg⟩ := ihMS r ms rest' hm
            refine ⟨w, lbrace :: M, ?_, hws, G.obj M hg⟩
            rw [hw, hcm, ← h.2]
            simp
        · rw [if_neg hc1] at h
          by_cases hc2 : c = '['
          · subst hc2
            rw [if_pos rfl] at h
            cases hm : parseItemsStart fuel r with
            | none => simp only [hm] at h; exact absurd h (by simp)
            | some p =>
              obtain ⟨vs, rest'⟩ := p
              simp only [hm, Option.map_some', Option.some.injEq,
                Prod.mk.injEq] at h
              obtain ⟨A, hca, hg⟩ := ihIS r vs rest' hm
              refine ⟨w, '[' :: A, ?_, hws, G.arr A hg⟩
              rw [hw, hca, ← h.2]
              simp
          · rw [if_neg hc2] at h
            by_cases hc3 : c = '"'
            · subst hc3
              rw [if_pos rfl] at h
              cases hm : parseStringBody fuel r with
              | none => simp only [hm] at h; exact absurd h (by simp)
              | some p =>
                obtain ⟨s, rest'⟩ := p
                simp only [hm, Option.map_some', Option.some.injEq,
                  Prod.mk.injEq] at h
                obtain ⟨b, hcb, hbd⟩ := parseStringBody_sound fuel r s rest' hm
                refine ⟨w, '"' :: b ++ ['"'], ?_, hws, G.str b hbd⟩
                rw [hw, hcb, ← h.2]
                simp
            · rw [if_neg hc3] at h
              obtain ⟨t, hct, hg⟩ := parseLit_sound (c :: r) v rest h
              refine ⟨w, t, ?_, hws, hg⟩
              rw [hw, hct]
    · -- parseMembersStart
      intro cs ms rest h
      simp only [parseMembersStart] at h
      obtain ⟨w, hw, hws⟩ := skipWs_split cs
      cases hsw : skipWs cs with
      | nil =>
        simp only [hsw] at h
        exact absurd h (by simp)
      | cons c r =>
        rw [hsw] at hw
        simp only [hsw] at h
        by_cases hc1 : c = rbrace
        · subst hc1
          rw [if_pos rfl] at h
          simp only [Option.some.injEq, Prod.mk.injEq] at h
          refine ⟨w ++ [rbrace], ?_, G.ms_close w hws⟩
          rw [hw, ← h.2]
          simp
        · rw [if_neg hc1] at h
          by_cases hc2 : c = '"'
          · subst hc2
            rw [if_pos rfl] at h
            cases hsb : parseStringBody fuel r with
            | none => simp only [hsb] at h; exact absurd h (by simp)
            | some p =>
              obtain ⟨k, r1⟩ := p
              simp only [hsb] at h
              obtain ⟨b, hcb, hbd⟩ := parseStringBody_sound fuel r k r1 hsb
              obtain ⟨w2, hw2, hws2⟩ := skipWs_split r1
              cases hsk2 : skipWs r1 with
              | nil =>
                simp only [hsk2] at h
                exact absurd h (by simp)
              | cons c2 r2 =>
                rw [hsk2] at hw2
                simp only [hsk2] at h
                by_cases hcol : c2 = ':'
                · subst hcol
                  rw [if_pos rfl] at h
                  cases hpv : parseValue fuel r2 with
                  | none => simp only [hpv] at h; exact absurd h (by simp)
                  | some q =>
                    obtain ⟨vv, r3⟩ := q
                    simp only [hpv] at h
                    obtain ⟨w3, tv, hcv, hw3, hgv⟩ := ihV r2 vv r3 hpv
                    cases hml : parseMembersLoop fuel r3 with
                    | none => simp only [hml] at h; exact absurd h (by simp)
                    | some q2 =>
                      obtain ⟨ms', rest'⟩ := q2
                      simp only [hml, Option.map_some', Option.some.injEq,
                        Prod.mk.injEq] at h
                      obtain ⟨L, hcL, hgL⟩ := ihML r3 ms' rest' hml
                      refine ⟨w ++ '"' :: (b ++ '"' :: (w2 ++ ':' :: (w3 ++ (tv ++ L)))),
                        ?_, G.ms_member w b w2 w3 tv L hws hbd hws2 hw3 hgv hgL⟩
                      rw [hw, hcb, hw2, hcv, hcL, ← h.2]
                      simp
                · rw [if_neg hcol] at h
                  exact absurd h (by simp)
          · rw [if_neg hc2] at h
            exact absurd h (by simp)
    · -- parseMembersLoop
      intro cs ms rest h
      simp only [parseMembersLoop] at h
      obtain ⟨w, hw, hws⟩ := skipWs_split cs
      cases hsw : skipWs cs with
      | nil =>
        simp only [hsw] at h
        exact absurd h (by simp)
      | cons c r =>
        rw [hsw] at hw
        simp only [hsw] at h
        by_cases hc1 : c = rbrace
        · subst hc1
          rw [if_pos rfl] at h
          simp only [Option.some.injEq, Prod.mk.injEq] at h
          refine ⟨w ++ [rbrace], ?_, G.ml_close w hws⟩
          rw [hw, ← h.2]
          simp
        · rw [if_neg hc1] at h
          by_cases hc2 : c = ','
          · subst hc2
            rw [if_pos rfl] at h
            obtain ⟨w1, hw1, hws1⟩ := skipWs_split r
            cases hsk1 : skipWs r with
            | nil =>
              simp only [hsk1] at h
              exact absurd h (by simp)
            | cons c1 r1 =>
              rw [hsk1] at hw1
              simp only [hsk1] at h
              by_cases hq : c1 = '"'
              · subst hq
                rw [if_pos rfl] at h
                cases hsb : parseStringBody fuel r1 with
                | none => simp only [hsb] at h; exact absurd h (by simp)
                | some p =>
                  obtain ⟨k, r2⟩ := p
                  simp only [hsb] at h
                  obtain ⟨b, hcb, hbd⟩ := parseStringBody_sound fuel r1 k r2 hsb
                  obtain ⟨w2, hw2, hws2⟩ := skipWs_split r2
                  cases hsk2 : skipWs r2 with
                  | nil =>
                    simp only [hsk2] at h
                    exact absurd h (by simp)
                  | cons c2 r3 =>
                    rw [hsk2] at hw2
                    simp only [hsk2] at h
                    by_cases hcol : c2 = ':'
                    · subst hcol
                      rw [if_pos rfl] at h
                      cases hpv : parseValue fuel r3 with
                      | none => simp only [hpv] at h; exact absurd h (by simp)
                      | some q =>
                        obtain ⟨vv, r4⟩ := q
                        simp only [hpv] at h
                        obtain ⟨w3, tv, hcv, hw3, hgv⟩ := ihV r3 vv r4 hpv
                        cases hml : parseMembersLoop fuel r4 with
                        | none => simp only [hml] at h; exact absurd h (by simp)
                        | some q2 =>
                          obtain ⟨ms', rest'⟩ := q2
                          simp only [hml, Option.map_some', Option.some.injEq,
                            Prod.mk.injEq] at h
                          obtain ⟨L, hcL, hgL⟩ := ihML r4 ms' rest' hml
                          refine ⟨w ++ ',' :: (w1 ++ '"' :: (b ++ '"' ::
                              (w2 ++ ':' :: (w3 ++ (tv ++ L))))), ?_,
                            G.ml_member w w1 b w2 w3 tv L hws hws1 hbd hws2
                              hw3 hgv hgL⟩
                          rw [hw, hw1, hcb, hw2, hcv, hcL, ← h.2]
                          simp
                    · rw [if_neg hcol] at h
                      exact absurd h (by simp)
              · rw [if_neg hq] at h
                exact absurd h (by simp)
          · rw [if_neg hc2] at h
            exact absurd h (by simp)
    · -- parseItemsStart
      intro cs vs rest h
      simp only [parseItemsStart] at h
      cases hsw : skipWs cs with
      | nil =>
        simp only [hsw] at h
        exact absurd h (by simp)
      | cons c r =>
        simp only [hsw] at h
        by_cases hc1 : c = ']'
        · subst hc1
          rw [if_pos rfl] at h
          simp only [Option.some.injEq, Prod.mk.injEq] at h
          obtain ⟨w, hw, hws⟩ := skipWs_split cs
          rw [hsw] at hw
          refine ⟨w ++ [']'], ?_, G.is_close w hws⟩
          rw [hw, ← h.2]
          simp
        · rw [if_neg hc1] at h
          cases hpv : parseValue fuel cs with
          | none => simp only [hpv] at h; exact absurd h (by simp)
          | some q =>
            obtain ⟨vv, r1⟩ := q
            simp only [hpv] at h
            obtain ⟨w', tv, hcv, hw', hgv⟩ := ihV cs vv r1 hpv
            cases hil : parseItemsLoop fuel r1 with
            | none => simp only [hil] at h; exact absurd h (by simp)
            | some q2 =>
              obtain ⟨vs', rest'⟩ := q2
              simp only [hil, Option.map_some', Option.some.injEq,
                Prod.mk.injEq] at h
              obtain ⟨L, hcL, hgL⟩ := ihIL r1 vs' rest' hil
              refine ⟨w' ++ (tv ++ L), ?_, G.is_item w' tv L hw' hgv hgL⟩
              rw [hcv, hcL, ← h.2]
              simp
    · -- parseItemsLoop
      intro cs vs rest h
      simp only [parseItemsLoop] at h
      obtain ⟨w, hw, hws⟩ := skipWs_split cs
      cases hsw : skipWs cs with
      | nil =>
        simp only [hsw] at h
        exact absurd h (by simp)
      | cons c r =>
        rw [hsw] at hw
        simp only [hsw] at h
        by_cases hc1 : c = ']'
        · subst hc1
          rw [if_pos rfl] at h
          simp only [Option.some.injEq, Prod.mk.injEq] at h
          refine ⟨w ++ [']'], ?_, G.il_close w hws⟩
          rw [hw, ← h.2]
          simp
        · rw [if_neg hc1] at h
          by_cases hc2 : c = ','
          · subst hc2
            rw [if_pos rfl] at h
            cases hpv : parseValue fuel r with
            | none => simp only [hpv] at h; exact absurd h (by simp)
            | some q =>
              obtain ⟨vv, r1⟩ := q
              simp only [hpv] at h
              obtain ⟨w2, tv, hcv, hw2, hgv⟩ := ihV r vv r1 hpv
              cases hil : parseItemsLoop fuel r1 with
              | none => simp only [hil] at h; exact absurd h (by simp)
              | some q2 =>
                obtain ⟨vs', rest'⟩ := q2
                simp only [hil, Option.map_some', Option.some.injEq,
                  Prod.mk.injEq] at h
                obtain ⟨L, hcL, hgL⟩ := ihIL r1 vs' rest' hil
                refine ⟨w ++ ',' :: (w2 ++ (tv ++ L)), ?_,
                  G.il_item w w2 tv L hws hw2 hgv hgL⟩
                rw [hw, hcv, hcL, ← h.2]
                simp
          · rw [if_neg hc2] at h
            exact absurd h (by simp)

/-- The characters a complete value text can end with: the backward
comma-scan of the patcher never sees whitespace, a comma, an opening
brace or an opening bracket there. -/
theorem digit_toNat (c : Char) (h : isDigitCh c = true) :
    48 ≤ c.toNat ∧ c.toNat ≤ 57 := by
  simp only [isDigitCh, Bool.and_eq_true, decide_eq_true_eq] at h
  obtain ⟨h1, h2⟩ := h
  exact ⟨h1, h2⟩

/-- A digit is not Python whitespace. -/
theorem digit_pyWs (c : Char) (h : isDigitCh c = true) : pyWs c = false := by
  obtain ⟨h1, h2⟩ := digit_toNat c h
  cases hpw : pyWs c with
  | false => rfl
  | true =>
    simp only [pyWs, Bool.or_eq_true, Bool.and_eq_true, decide_eq_true_eq] at hpw
    omega

/-- A digit is a value-end character. -/
theorem valueEnd_digit (c : Char) (h : isDigitCh c = true) : valueEnd c := by
  refine ⟨?_, digit_pyWs c h, ?_, ?_, ?_, ?_⟩
  · cases hw : jsonWs c with
    | false => rfl
    | true =>
      have := safeStop_not_digit c (by simp [safeStop, hw])
      rw [h] at this
      exact absurd this (by simp)
  all_goals intro hc
  all_goals rw [hc] at h
  all_goals exact absurd h (by decide)

/-- The last character of a number lexeme is a digit. -/
theorem numShape_last (t : List Char) (ht : NumShape t) :
    ∃ t' c, t = t' ++ [c] ∧ isDigitCh c = true := by
  obtain ⟨ip, fp, ep, hip, hfp, hep, hsh⟩ := ht
  have hbody : ∃ b' c, ip ++ fp ++ ep = b' ++ [c] ∧ isDigitCh c = true := by
    rcases hep with hep | ⟨e, ds, he, hne, hds, hshe⟩
    · subst hep
      rcases hfp with hfp | ⟨ds, hfp, hne, hds⟩
      · subst hfp
        rcases hip with hip | ⟨d, ds, hip, _, hdd, hds⟩
        · exact ⟨[], '0', by simp [hip], by decide⟩
        · subst hip
          rcases List.eq_nil_or_concat ds with hds0 | ⟨ds', c, hds0⟩
          · exact ⟨[], d, by simp [hds0], hdd⟩
          · refine ⟨d :: ds', c, by simp [hds0], ?_⟩
            exact hds c (by simp [hds0])
      · subst hfp
        rcases List.eq_nil_or_concat ds with hds0 | ⟨ds', c, hds0⟩
        · exact absurd hds0 hne
        · refine ⟨ip ++ '.' :: ds', c, by simp [hds0], ?_⟩
          exact hds c (by simp [hds0])
    · rcases List.eq_nil_or_concat ds with hds0 | ⟨ds', c, hds0⟩
      · exact absurd hds0 hne
      · rcases hshe with hshe | ⟨s, hs, hshe⟩ <;> subst hshe
        · refine ⟨ip ++ fp ++ e :: ds', c, by simp [hds0], ?_⟩
          exact hds c (by simp [hds0])
        · refine ⟨ip ++ fp ++ e :: s :: ds', c, by simp [hds0], ?_⟩
          exact hds c (by simp [hds0])
  obtain ⟨b', c, hb, hc⟩ := hbody
  rcases hsh with hsh | hsh <;> subst hsh
  · exact ⟨b', c, hb, hc⟩
  · exact ⟨'-' :: b', c, by rw [hb]; simp, hc⟩

/-- Every grammar text is nonempty and ends in the character class of its
kind. -/
theorem G_ends (k : GK) (t : List Char) (h : G k t) :
    ∃ t' c, t = t' ++ [c] ∧ endOk k c := by
  induction h with
  | str b hb =>
    exact ⟨'"' :: b, '"', by simp, by decide, by decide, by decide, by decide,
      by decide, by decide⟩
  | num t ht =>
    obtain ⟨t', c, hc, hdig⟩ := numShape_last t ht
    exact ⟨t', c, hc, valueEnd_digit c hdig⟩
  | lit_true =>
    exact ⟨"tru".data, 'e', by decide, by decide, by decide, by decide, by decide,
      by decide, by decide⟩
  | lit_false =>
    exact ⟨"fals".data, 'e', by decide, by decide, by decide, by decide, by decide,
      by decide, by decide⟩
  | lit_null =>
    exact ⟨"nul".data, 'l', by decide, by decide, by decide, by decide, by decide,
      by decide, by decide⟩
  | lit_nan =>
    exact ⟨"Na".data, 'N', by decide, by decide, by decide, by decide, by decide,
      by decide, by decide⟩
  | lit_inf =>
    exact ⟨"Infinit".data, 'y', by decide, by decide, by decide, by decide, by decide,
      by decide, by decide⟩
  | lit_ninf =>
    exact ⟨"-Infinit".data, 'y', by decide, by decide, by decide, by decide, by decide,
      by decide, by decide⟩
  | obj M hm ihm =>
    obtain ⟨M', c, hc, he⟩ := ihm
    refine ⟨lbrace :: M', c, by rw [hc]; simp, ?_⟩
    simp only [endOk] at he
    subst he
    exact ⟨by decide, by decide, by decide, by decide, by decide, by decide⟩
  | arr A ha iha =>
    obtain ⟨A', c, hc, he⟩ := iha
    refine ⟨'[' :: A', c, by rw [hc]; simp, ?_⟩
    simp only [endOk] at he
    subst he
    exact ⟨by decide, by decide, by decide, by decide, by decide, by decide⟩
  | ms_close w hw => exact ⟨w, rbrace, rfl, rfl⟩
  | ms_member w1 b w2 w3 v L hw1 hb hw2 hw3 hv hL ihv ihL =>
    obtain ⟨L', c, hc, he⟩ := ihL
    refine ⟨w1 ++ '"' :: (b ++ '"' :: (w2 ++ ':' :: (w3 ++ (v ++ L')))), c,
      ?_, he⟩
    rw [hc]
    simp
  | ml_close w hw => exact ⟨w, rbrace, rfl, rfl⟩
  | ml_member w1 w2 b w3 w4 v L hw1 hw2 hb hw3 hw4 hv hL ihv ihL =>
    obtain ⟨L', c, hc, he⟩ := ihL
    refine ⟨w1 ++ ',' :: (w2 ++ '"' :: (b ++ '"' :: (w3 ++ ':' :: (w4 ++ (v ++ L'))))),
      c, ?_, he⟩
    rw [hc]
    simp
  | is_close w hw => exact ⟨w, ']', rfl, rfl⟩
  | is_item w v L hw hv hL ihv ihL =>
    obtain ⟨L', c, hc, he⟩ := ihL
    refine ⟨w ++ (v ++ L'), c, ?_, he⟩
    rw [hc]
    simp
  | il_close w hw => exact ⟨w, ']', rfl, rfl⟩
  | il_item w w2 v L hw hw2 hv hL ihv ihL =>
    obtain ⟨L', c, hc, he⟩ := ihL
    refine ⟨w ++ ',' :: (w2 ++ (v ++ L')), c, ?_, he⟩
    rw [hc]
    simp

/-- The members decomposition holds of every grammar text. -/
theorem G_split (k : GK) (t : List Char) (h : G k t) : SplitStmt k t := by
  induction h with
  | ms_close w hw =>
    exact Or.inl ⟨w, hw, rfl⟩
  | ms_member w1 b w2 w3 v L hw1 hb hw2 hw3 hv hL ihv ihL =>
    simp only [SplitStmt] at ihL ⊢
    obtain ⟨v', cv, hvsplit, hve⟩ : ∃ v' cv, v = v' ++ [cv] ∧ valueEnd cv := by
      obtain ⟨v', cv, hvs, hve⟩ := G_ends .val v hv
      exact ⟨v', cv, hvs, hve⟩
    rcases ihL with ⟨wc, hwc, hLc⟩ | ⟨L0, wc, hLc, hwc, hend, hswap⟩
    · refine Or.inr ⟨w1 ++ '"' :: (b ++ '"' :: (w2 ++ ':' :: (w3 ++ v))), wc,
        ?_, hwc, ?_, ?_⟩
      · rw [hLc]
        simp
      · exact ⟨w1 ++ '"' :: (b ++ '"' :: (w2 ++ ':' :: (w3 ++ v'))), cv,
          by rw [hvsplit]; simp, hve⟩
      · intro L2 hL2
        have := G.ms_member w1 b w2 w3 v L2 hw1 hb hw2 hw3 hv hL2
        have heq : w1 ++ '"' :: (b ++ '"' :: (w2 ++ ':' :: (w3 ++ (v ++ L2)))) =
            (w1 ++ '"' :: (b ++ '"' :: (w2 ++ ':' :: (w3 ++ v)))) ++ L2 := by
          simp
        rw [heq] at this
        exact this
    · refine Or.inr ⟨w1 ++ '"' :: (b ++ '"' :: (w2 ++ ':' :: (w3 ++ (v ++ L0)))),
        wc, ?_, hwc, ?_, ?_⟩
      · rw [hLc]
        simp
      · obtain ⟨L0', cL, hL0, hLe⟩ := hend
        exact ⟨w1 ++ '"' :: (b ++ '"' :: (w2 ++ ':' :: (w3 ++ (v ++ L0')))), cL,
          by rw [hL0]; simp, hLe⟩
      · intro L2 hL2
        have := G.ms_member w1 b w2 w3 v (L0 ++ L2) hw1 hb hw2 hw3 hv
          (hswap L2 hL2)
        have heq : w1 ++ '"' :: (b ++ '"' :: (w2 ++ ':' :: (w3 ++ (v ++ (L0 ++ L2))))) =
            (w1 ++ '"' :: (b ++ '"' :: (w2 ++ ':' :: (w3 ++ (v ++ L0))))) ++ L2 := by
          simp
        rw [heq] at this
        exact this
  | ml_close w hw =>
    exact Or.inl ⟨w, hw, rfl⟩
  | ml_member w1 w2 b w3 w4 v L hw1 hw2 hb hw3 hw4 hv hL ihv ihL =>
    simp only [SplitStmt] at ihL ⊢
    obtain ⟨v', cv, hvsplit, hve⟩ : ∃ v' cv, v = v' ++ [cv] ∧ valueEnd cv := by
      obtain ⟨v', cv, hvs, hve⟩ := G_ends .val v hv
      exact ⟨v', cv, hvs, hve⟩
    rcases ihL with ⟨wc, hwc, hLc⟩ | ⟨L0, wc, hLc, hwc, hend, hswap⟩
    · refine Or.inr ⟨w1 ++ ',' :: (w2 ++ '"' :: (b ++ '"' :: (w3 ++ ':' :: (w4 ++ v)))),
        wc, ?_, hwc, ?_, ?_⟩
      · rw [hLc]
        simp
      · exact ⟨w1 ++ ',' :: (w2 ++ '"' :: (b ++ '"' :: (w3 ++ ':' :: (w4 ++ v')))),
          cv, by rw [hvsplit]; simp, hve⟩
      · intro L2 hL2
        have := G.ml_member w1 w2 b w3 w4 v L2 hw1 hw2 hb hw3 hw4 hv hL2
        have heq : w1 ++ ',' :: (w2 ++ '"' :: (b ++ '"' :: (w3 ++ ':' :: (w4 ++ (v ++ L2))))) =
            (w1 ++ ',' :: (w2 ++ '"' :: (b ++ '"' :: (w3 ++ ':' :: (w4 ++ v))))) ++ L2 := by
          simp
        rw [heq] at this
        exact this
    · refine Or.inr ⟨w1 ++ ',' :: (w2 ++ '"' :: (b ++ '"' :: (w3 ++ ':' :: (w4 ++ (v ++ L0))))),
        wc, ?_, hwc, ?_, ?_⟩
      · rw [hLc]
        simp
      · obtain ⟨L0', cL, hL0, hLe⟩ := hend
        exact ⟨w1 ++ ',' :: (w2 ++ '"' :: (b ++ '"' :: (w3 ++ ':' :: (w4 ++ (v ++ L0'))))),
          cL, by rw [hL0]; simp, hLe⟩
      · intro L2 hL2
        have := G.ml_member w1 w2 b w3 w4 v (L0 ++ L2) hw1 hw2 hb hw3 hw4 hv
          (hswap L2 hL2)
        have heq : w1 ++ ',' :: (w2 ++ '"' :: (b ++ '"' :: (w3 ++ ':' :: (w4 ++ (v ++ (L0 ++ L2)))))) =
            (w1 ++ ',' :: (w2 ++ '"' :: (b ++ '"' :: (w3 ++ ':' :: (w4 ++ (v ++ L0)))))) ++ L2 := by
          simp
        rw [heq] at this
        exact this
  | str b hb => trivial
  | num t ht => trivial
  | lit_true => trivial
  | lit_false => trivial
  | lit_null => trivial
  | lit_nan => trivial
  | lit_inf => trivial
  | lit_ninf => trivial
  | obj M hm ihm => trivial
  | arr A ha iha => trivial
  | is_close w hw => trivial
  | is_item w v L hw hv hL ihv ihL => trivial
  | il_close w hw => trivial
  | il_item w w2 v L hw hw2 hv hL ihv ihL => trivial

theorem tc_pass_true (c : Char) (x : List Char) (h1 : c ≠ '"')
    (h2 : c ≠ '\\') :
    stripTCGo true (c :: x) = c :: stripTCGo true x := by
  rw [stripTCGo.eq_def]
  simp only []
  rw [if_neg h2, if_neg h1]

theorem tc_pass_false (c : Char) (x : List Char) (h1 : c ≠ '"')
    (h2 : c ≠ ',') :
    stripTCGo false (c :: x) = c :: stripTCGo false x := by
  rw [stripTCGo.eq_def]
  simp only []
  rw [if_neg h1, if_neg h2]

theorem tc_quote_false (x : List Char) :
    stripTCGo false ('"' :: x) = '"' :: stripTCGo true x := by
  rw [stripTCGo.eq_def]
  simp only []
  rw [if_pos trivial]

theorem tc_quote_true (x : List Char) :
    stripTCGo true ('"' :: x) = '"' :: stripTCGo false x := by
  rw [stripTCGo.eq_def]
  simp

theorem tc_bslash (c2 : Char) (x : List Char) :
    stripTCGo true ('\\' :: c2 :: x) = '\\' :: c2 :: stripTCGo true x := by
  rw [stripTCGo.eq_def]
  simp only []
  rw [if_pos trivial]

theorem tc_comma_keep (x : List Char) (h : headIsRBrace (skipWs x) = false) :
    stripTCGo false (',' :: x) = ',' :: stripTCGo false x := by
  rw [stripTCGo.eq_def]
  simp [h]

theorem tc_comma_drop (x : List Char) (h : headIsRBrace (skipWs x) = true) :
    stripTCGo false (',' :: x) = stripTCGo false x := by
  rw [stripTCGo.eq_def]
  simp [h]

theorem tcState_pass_true (c : Char) (x : List Char) (h1 : c ≠ '"')
    (h2 : c ≠ '\\') : tcState true (c :: x) = tcState true x := by
  rw [tcState.eq_def]
  simp only []
  rw [if_neg h2, if_neg h1]

theorem tcState_pass_false (c : Char) (x : List Char) (h1 : c ≠ '"') :
    tcState false (c :: x) = tcState false x := by
  rw [tcState.eq_def]
  simp only []
  rw [if_neg h1]

/-- A JSON whitespace character is neither a quote nor a comma nor a
backslash nor a slash nor a brace. -/
theorem jsonWs_classes (c : Char) (h : jsonWs c = true) :
    c ≠ '"' ∧ c ≠ ',' ∧ c ≠ '\\' ∧ c ≠ '/' ∧ c ≠ rbrace ∧ c ≠ '[' ∧
      c ≠ ']' ∧ c ≠ lbrace := by
  simp only [jsonWs, Bool.or_eq_true, decide_eq_true_eq] at h
  rcases h with ((h | h) | h) | h <;> subst h <;>
    exact ⟨by decide, by decide, by decide, by decide, by decide, by decide,
      by decide, by decide⟩

/-- JSON whitespace is Python whitespace. -/
theorem jsonWs_pyWs (c : Char) (h : jsonWs c = true) : pyWs c = true := by
  simp only [jsonWs, Bool.or_eq_true, decide_eq_true_eq] at h
  rcases h with ((h | h) | h) | h <;> subst h <;> decide

/-- Characters that are neither quotes nor commas pass through the
outside-string scan unchanged. -/
theorem tc_pass_list (l : List Char) (h : ∀ c ∈ l, c ≠ '"' ∧ c ≠ ',')
    (T : List Char) :
    stripTCGo false (l ++ T) = l ++ stripTCGo false T := by
  induction l with
  | nil => rfl
  | cons c r ih =>
    obtain ⟨h1, h2⟩ := h c (by simp)
    rw [List.cons_append, tc_pass_false c _ h1 h2,
      ih (fun x hx => h x (by simp [hx]))]
    rfl

/-- Whitespace passes through the outside-string scan unchanged. -/
theorem tc_ws (w : List Char) (hw : AllWs w) (T : List Char) :
    stripTCGo false (w ++ T) = w ++ stripTCGo false T :=
  tc_pass_list w
    (fun c hc => ⟨(jsonWs_classes c (hw c hc)).1, (jsonWs_classes c (hw c hc)).2.1⟩) T

/-- Characters that are neither quotes nor backslashes keep the scan state
and pass through untouched inside a string. -/
theorem tc_pass_list_true (l : List Char)
    (h : ∀ c ∈ l, c ≠ '"' ∧ c ≠ '\\') (T : List Char) :
    stripTCGo true (l ++ T) = l ++ stripTCGo true T := by
  induction l with
  | nil => rfl
  | cons c r ih =>
    obtain ⟨h1, h2⟩ := h c (by simp)
    rw [List.cons_append, tc_pass_true c _ h1 h2,
      ih (fun x hx => h x (by simp [hx]))]
    rfl

/-- Quote-free backslash-free chunks do not change the scan state. -/
theorem tcState_clean (l : List Char)
    (h : ∀ c ∈ l, c ≠ '"' ∧ c ≠ '\\') (s : Bool) : tcState s l = s := by
  induction l generalizing s with
  | nil => cases s <;> rfl
  | cons c r ih =>
    obtain ⟨h1, h2⟩ := h c (by simp)
    have ih2 := ih (fun x hx => h x (by simp [hx]))
    cases s with
    | true => rw [tcState_pass_true c r h1 h2]; exact ih2 true
    | false => rw [tcState_pass_false c r h1]; exact ih2 false

/-- The scan never lengthens the text. -/
theorem strip_len (N : Nat) : ∀ l : List Char, l.length ≤ N → ∀ s,
    (stripTCGo s l).length ≤ l.length := by
  induction N with
  | zero =>
    intro l hl s
    rw [List.length_eq_zero.mp (Nat.le_zero.mp hl)]
    simp [stripTCGo]
  | succ N ih =>
    intro l hl s
    cases l with
    | nil => simp [stripTCGo]
    | cons c r =>
      simp only [List.length_cons] at hl
      have hr : r.length ≤ N := by omega
      cases s with
      | true =>
        by_cases hb : c = '\\'
        · subst hb
          cases r with
          | nil => simp [stripTCGo]
          | cons c2 r2 =>
            rw [tc_bslash]
            have := ih r2 (by simp at hl ⊢; omega) true
            simp only [List.length_cons]
            omega
        · by_cases hq : c = '"'
          · subst hq
            rw [tc_quote_true]
            have := ih r hr false
            simp only [List.length_cons]
            omega
          · rw [tc_pass_true c r hq hb]
            have := ih r hr true
            simp only [List.length_cons]
            omega
      | false =>
        by_cases hq : c = '"'
        · subst hq
          rw [tc_quote_false]
          have := ih r hr true
          simp only [List.length_cons]
          omega
        · by_cases hc : c = ','
          · subst hc
            cases hhd : headIsRBrace (skipWs r) with
            | true =>
              rw [tc_comma_drop r hhd]
              have := ih r hr false
              simp only [List.length_cons]
              omega
            | false =>
              rw [tc_comma_keep r hhd]
              have := ih r hr false
              simp only [List.length_cons]
              omega
          · rw [tc_pass_false c r hq hc]
            have := ih r hr false
            simp only [List.length_cons]
            omega

theorem tc_nil (s : Bool) : stripTCGo s [] = [] := by cases s <;> rfl

theorem tcState_nil (s : Bool) : tcState s [] = s := by cases s <;> rfl

theorem tcState_quote_false (x : List Char) :
    tcState false ('"' :: x) = tcState true x := by
  rw [tcState.eq_def]
  simp

theorem tcState_quote_true (x : List Char) :
    tcState true ('"' :: x) = tcState false x := by
  rw [tcState.eq_def]
  simp

theorem tcState_bslash (c2 : Char) (x : List Char) :
    tcState true ('\\' :: c2 :: x) = tcState true x := by
  rw [tcState.eq_def]
  simp

/-- A chunk ending in a non-whitespace character does not whitespace-skip
to nothing. -/
theorem skipWs_end_nonnil (a : List Char) (c0 : Char) (h : jsonWs c0 = false) :
    skipWs (a ++ [c0]) ≠ [] := by
  induction a with
  | nil => simp [skipWs, h]
  | cons c r ih =>
    by_cases hc : jsonWs c
    · simpa [skipWs, hc] using ih
    · simp [skipWs, hc]

/-- Whitespace skipping that stops inside the first chunk ignores the
second. -/
theorem skipWs_append_of_ne (r T : List Char) (h : skipWs r ≠ []) :
    skipWs (r ++ T) = skipWs r ++ T := by
  induction r with
  | nil => exact absurd rfl h
  | cons c r' ih =>
    by_cases hc : jsonWs c
    · have h' : skipWs r' ≠ [] := by simpa [skipWs, hc] using h
      simp only [List.cons_append, skipWs, hc, if_true]
      exact ih h'
    · simp [skipWs, hc]

theorem headIsRBrace_append (x T : List Char) (h : x ≠ []) :
    headIsRBrace (x ++ T) = headIsRBrace x := by
  cases x with
  | nil => exact absurd rfl h
  | cons c r => rfl

/-- Frame property of the comma-removing scan: on a chunk whose last
character is not whitespace, not a comma and not a backslash, the scan
acts locally — its output and final state on the chunk do not depend on
what follows. -/
theorem strip_frame (N : Nat) : ∀ t : List Char, t.length ≤ N →
    ∀ t' c0, t = t' ++ [c0] → jsonWs c0 = false → c0 ≠ ',' → c0 ≠ '\\' →
    ∀ s,
    (∀ T, stripTCGo s (t ++ T) = stripTCGo s t ++ stripTCGo (tcState s t) T) ∧
    (∀ b, tcState s (t ++ b) = tcState (tcState s t) b) := by
  induction N with
  | zero =>
    intro t ht t' c0 heq _ _ _ s
    subst heq
    simp at ht
  | succ N ih =>
    intro t ht t' c0 heq hws hcm hbs s
    cases t' with
    | nil =>
      subst heq
      simp only [List.nil_append] at ht ⊢
      cases s with
      | false =>
        by_cases hq : c0 = '"'
        · subst hq
          refine ⟨?_, ?_⟩
          · intro T
            rw [List.singleton_append, tc_quote_false, tc_quote_false,
              tc_nil, tcState_quote_false, tcState_nil]
            rfl
          · intro b
            rw [List.singleton_append, tcState_quote_false,
              tcState_quote_false, tcState_nil]
        · refine ⟨?_, ?_⟩
          · intro T
            rw [List.singleton_append, tc_pass_false c0 T hq hcm,
              tc_pass_false c0 [] hq hcm, tc_nil,
              tcState_pass_false c0 [] hq, tcState_nil]
            rfl
          · intro b
            rw [List.singleton_append, tcState_pass_false c0 b hq,
              tcState_pass_false c0 [] hq, tcState_nil]
      | true =>
        by_cases hq : c0 = '"'
        · subst hq
          refine ⟨?_, ?_⟩
          · intro T
            rw [List.singleton_append, tc_quote_true, tc_quote_true,
              tc_nil, tcState_quote_true, tcState_nil]
            rfl
          · intro b
            rw [List.singleton_append, tcState_quote_true,
              tcState_quote_true, tcState_nil]
        · refine ⟨?_, ?_⟩
          · intro T
            rw [List.singleton_append, tc_pass_true c0 T hq hbs,
              tc_pass_true c0 [] hq hbs, tc_nil,
              tcState_pass_true c0 [] hq hbs, tcState_nil]
            rfl
          · intro b
            rw [List.singleton_append, tcState_pass_true c0 b hq hbs,
              tcState_pass_true c0 [] hq hbs, tcState_nil]
    | cons d t'' =>
      subst heq
      simp only [List.cons_append, List.length_cons] at ht ⊢
      have hrlen : (t'' ++ [c0]).length ≤ N := by
        simp only [List.length_append, List.length_cons, List.length_nil] at ht ⊢
        omega
      have ihr := ih (t'' ++ [c0]) hrlen t'' c0 rfl hws hcm hbs
      cases s with
      | true =>
        by_cases hb : d = '\\'
        · subst hb
          cases t'' with
          | nil =>
            simp only [List.nil_append] at ihr ⊢
            refine ⟨?_, ?_⟩
            · intro T
              rw [List.singleton_append, tc_bslash, tc_bslash, tc_nil,
                tcState_bslash, tcState_nil]
              rfl
            · intro b
              rw [List.singleton_append, tcState_bslash, tcState_bslash,
                tcState_nil]
          | cons e t3 =>
            simp only [List.cons_append] at ihr ⊢
            have hrlen2 : (t3 ++ [c0]).length ≤ N := by
              simp only [List.length_append, List.length_cons,
                List.length_nil] at ht ⊢
              omega
            have ihr2 := ih (t3 ++ [c0]) hrlen2 t3 c0 rfl hws hcm hbs
            refine ⟨?_, ?_⟩
            · intro T
              rw [tc_bslash, tc_bslash, tcState_bslash, (ihr2 true).1 T]
              rfl
            · intro b
              rw [tcState_bslash, tcState_bslash, (ihr2 true).2 b]
        · by_cases hq : d = '"'
          · subst hq
            refine ⟨?_, ?_⟩
            · intro T
              rw [tc_quote_true, tc_quote_true, tcState_quote_true,
                (ihr false).1 T]
              rfl
            · intro b
              rw [tcState_quote_true, tcState_quote_true, (ihr false).2 b]
          · refine ⟨?_, ?_⟩
            · intro T
              rw [tc_pass_true d _ hq hb, tc_pass_true d _ hq hb,
                tcState_pass_true d _ hq hb, (ihr true).1 T]
              rfl
            · intro b
              rw [tcState_pass_true d _ hq hb, tcState_pass_true d _ hq hb,
                (ihr true).2 b]
      | false =>
        by_cases hq : d = '"'
        · subst hq
          refine ⟨?_, ?_⟩
          · intro T
            rw [tc_quote_false, tc_quote_false, tcState_quote_false,
              (ihr true).1 T]
            rfl
          · intro b
            rw [tcState_quote_false, tcState_quote_false, (ihr true).2 b]
        · by_cases hc : d = ','
          · subst hc
            have hsw : skipWs (t'' ++ [c0]) ≠ [] := skipWs_end_nonnil t'' c0 hws
            have hswa : ∀ T, skipWs ((t'' ++ [c0]) ++ T) =
                skipWs (t'' ++ [c0]) ++ T :=
              fun T => skipWs_append_of_ne _ T hsw
            have hhd : ∀ T, headIsRBrace (skipWs ((t'' ++ [c0]) ++ T)) =
                headIsRBrace (skipWs (t'' ++ [c0])) := by
              intro T
              rw [hswa T]
              exact headIsRBrace_append _ T hsw
            cases hbr : headIsRBrace (skipWs (t'' ++ [c0])) with
            | true =>
              refine ⟨?_, ?_⟩
              · intro T
                rw [tc_comma_drop _ (by rw [hhd T]; exact hbr),
                  tc_comma_drop _ hbr, tcState_pass_false _ _
                    (by decide : (',' : Char) ≠ '"'), (ihr false).1 T]
              · intro b
                rw [tcState_pass_false _ _ (by decide : (',' : Char) ≠ '"'),
                  tcState_pass_false _ _ (by decide : (',' : Char) ≠ '"'),
                  (ihr false).2 b]
            | false =>
              refine ⟨?_, ?_⟩
              · intro T
                rw [tc_comma_keep _ (by rw [hhd T]; exact hbr),
                  tc_comma_keep _ hbr, tcState_pass_false _ _
                    (by decide : (',' : Char) ≠ '"'), (ihr false).1 T]
                rfl
              · intro b
                rw [tcState_pass_false _ _ (by decide : (',' : Char) ≠ '"'),
                  tcState_pass_false _ _ (by decide : (',' : Char) ≠ '"'),
                  (ihr false).2 b]
          · refine ⟨?_, ?_⟩
            · intro T
              rw [tc_pass_false d _ hq hc, tc_pass_false d _ hq hc,
                tcState_pass_false d _ hq, (ihr false).1 T]
              rfl
            · intro b
              rw [tcState_pass_false d _ hq, tcState_pass_false d _ hq,
                (ihr false).2 b]

/-- A hex digit character is neither a quote nor a backslash. -/
theorem hexVal_classes (c : Char) (m : Nat) (h : hexVal c = some m) :
    c ≠ '"' ∧ c ≠ '\\' := by
  constructor <;> intro hc <;> subst hc <;> simp [hexVal] at h

/-- The four characters of a parsed hex quadruple are neither quotes nor
backslashes. -/
theorem parseHex4_chars (a b c d : Char) (n : Nat)
    (h : parseHex4 [a, b, c, d] = some (n, [])) :
    (a ≠ '"' ∧ a ≠ '\\') ∧ (b ≠ '"' ∧ b ≠ '\\') ∧
      (c ≠ '"' ∧ c ≠ '\\') ∧ (d ≠ '"' ∧ d ≠ '\\') := by
  cases hva : hexVal a with
  | none => simp [parseHex4, hva] at h
  | some va =>
    cases hvb : hexVal b with
    | none => simp [parseHex4, hva, hvb] at h
    | some vb =>
      cases hvc : hexVal c with
      | none => simp [parseHex4, hva, hvb, hvc] at h
      | some vc =>
        cases hvd : hexVal d with
        | none => simp [parseHex4, hva, hvb, hvc, hvd] at h
        | some vd =>
          exact ⟨hexVal_classes a va hva, hexVal_classes b vb hvb,
            hexVal_classes c vc hvc, hexVal_classes d vd hvd⟩

/-- Quote-free backslash-free chunks do not change the scan state, for any
continuation. -/
theorem tcState_clean_append (l : List Char)
    (h : ∀ c ∈ l, c ≠ '"' ∧ c ≠ '\\') :
    ∀ s x, tcState s (l ++ x) = tcState s x := by
  induction l with
  | nil => intro s x; rfl
  | cons c r ih =>
    intro s x
    obtain ⟨h1, h2⟩ := h c (by simp)
    have ih2 := ih (fun y hy => h y (by simp [hy]))
    cases s with
    | true =>
      rw [List.cons_append, tcState_pass_true c _ h1 h2]
      exact ih2 true x
    | false =>
      rw [List.cons_append, tcState_pass_false c _ h1]
      exact ih2 false x

theorem TC_append (a b : List Char) (ha : TC a) (hb : TC b) : TC (a ++ b) := by
  constructor
  · intro T
    rw [List.append_assoc, ha.1, hb.1, List.append_assoc]
  · intro x
    rw [List.append_assoc, ha.2, hb.2]

theorem TC_char (c : Char) (h1 : c ≠ '"') (h2 : c ≠ ',') : TC [c] := by
  constructor
  · intro T
    rw [List.singleton_append, tc_pass_false c T h1 h2]
    rfl
  · intro x
    rw [List.singleton_append, tcState_pass_false c x h1]

theorem TC_clean_list (l : List Char)
    (h : ∀ c ∈ l, c ≠ '"' ∧ c ≠ ',' ∧ c ≠ '\\') : TC l :=
  ⟨tc_pass_list l (fun c hc => ⟨(h c hc).1, (h c hc).2.1⟩),
   fun x => tcState_clean_append l (fun c hc => ⟨(h c hc).1, (h c hc).2.2⟩) false x⟩

theorem TC_ws (w : List Char) (hw : AllWs w) : TC w :=
  TC_clean_list w (fun c hc =>
    ⟨(jsonWs_classes c (hw c hc)).1, (jsonWs_classes c (hw c hc)).2.1,
      (jsonWs_classes c (hw c hc)).2.2.1⟩)

theorem TCin_append (a b : List Char) (ha : TCin a) (hb : TCin b) :
    TCin (a ++ b) := by
  constructor
  · intro T
    rw [List.append_assoc, ha.1, hb.1, List.append_assoc]
  · intro x
    rw [List.append_assoc, ha.2, hb.2]

theorem TCin_char (c : Char) (h1 : c ≠ '"') (h2 : c ≠ '\\') : TCin [c] := by
  constructor
  · intro T
    rw [List.singleton_append, tc_pass_true c T h1 h2]
    rfl
  · intro x
    rw [List.singleton_append, tcState_pass_true c x h1 h2]

theorem TCin_pair (c2 : Char) : TCin ['\\', c2] := by
  constructor
  · intro T
    rw [List.cons_append, List.singleton_append, tc_bslash]
    rfl
  · intro x
    rw [List.cons_append, List.singleton_append, tcState_bslash]

/-- A complete string literal commutes with the outside-string scan. -/
theorem TC_qseg (b : List Char) (hb : TCin b) : TC ('"' :: (b ++ ['"'])) := by
  constructor
  · intro T
    have h1 : ('"' :: (b ++ ['"'])) ++ T = '"' :: (b ++ ('"' :: T)) := by simp
    rw [h1, tc_quote_false, hb.1, tc_quote_true]
    simp
  · intro x
    have h1 : ('"' :: (b ++ ['"'])) ++ x = '"' :: (b ++ ('"' :: x)) := by simp
    rw [h1, tcState_quote_false, hb.2, tcState_quote_true]

/-- A comma whose continuation never whitespace-skips to a closing brace
commutes with the scan. -/
theorem TC_comma (u : List Char) (hu : TC u)
    (h : ∀ T, headIsRBrace (skipWs (u ++ T)) = false) : TC (',' :: u) := by
  constructor
  · intro T
    rw [List.cons_append, tc_comma_keep _ (h T), hu.1]
    rfl
  · intro x
    rw [List.cons_append, tcState_pass_false ',' _ (by decide), hu.2]

/-- After whitespace, a chunk starting with a quote never looks ahead to a
closing brace. -/
theorem lookahead_quote (w y : List Char) (hw : AllWs w) :
    headIsRBrace (skipWs (w ++ '"' :: y)) = false := by
  rw [skipWs_ws_append w _ hw]
  have h1 : skipWs ('"' :: y) = '"' :: y := by simp [skipWs, jsonWs]
  rw [h1]
  simp only [headIsRBrace, decide_eq_false_iff_not]
  decide

/-- Every string-body text commutes with the inside-string scan. -/
theorem Bdy_tc (b : List Char) (h : Bdy b) : TCin b := by
  induction h with
  | nil => exact ⟨fun T => rfl, fun x => rfl⟩
  | plain c b hq hb h20 hbd ih =>
    exact TCin_append [c] b (TCin_char c hq hb) ih
  | esc e b he hbd ih =>
    exact TCin_append ['\\', e] b (TCin_pair e) ih
  | hex h1 h2 h3 h4 n b hp hs1 hs2 hbd ih =>
    obtain ⟨c1, c2, c3, c4⟩ := parseHex4_chars h1 h2 h3 h4 n hp
    exact TCin_append ['\\', 'u'] _ (TCin_pair 'u')
      (TCin_append [h1] _ (TCin_char h1 c1.1 c1.2)
        (TCin_append [h2] _ (TCin_char h2 c2.1 c2.2)
          (TCin_append [h3] _ (TCin_char h3 c3.1 c3.2)
            (TCin_append [h4] _ (TCin_char h4 c4.1 c4.2) ih))))
  | surr h1 h2 h3 h4 n h5 h6 h7 h8 m b hp1 hr1 hp2 hr2 hbd ih =>
    obtain ⟨c1, c2, c3, c4⟩ := parseHex4_chars h1 h2 h3 h4 n hp1
    obtain ⟨c5, c6, c7, c8⟩ := parseHex4_chars h5 h6 h7 h8 m hp2
    exact TCin_append ['\\', 'u'] _ (TCin_pair 'u')
      (TCin_append [h1] _ (TCin_char h1 c1.1 c1.2)
        (TCin_append [h2] _ (TCin_char h2 c2.1 c2.2)
          (TCin_append [h3] _ (TCin_char h3 c3.1 c3.2)
            (TCin_append [h4] _ (TCin_char h4 c4.1 c4.2)
              (TCin_append ['\\', 'u'] _ (TCin_pair 'u')
                (TCin_append [h5] _ (TCin_char h5 c5.1 c5.2)
                  (TCin_append [h6] _ (TCin_char h6 c6.1 c6.2)
                    (TCin_append [h7] _ (TCin_char h7 c7.1 c7.2)
                      (TCin_append [h8] _ (TCin_char h8 c8.1 c8.2) ih)))))))))

/-- A digit is none of quote, comma, backslash. -/
theorem digit_classes (c : Char) (hc : isDigitCh c = true) :
    c ≠ '"' ∧ c ≠ ',' ∧ c ≠ '\\' := by
  obtain ⟨h1, h2⟩ := digit_toNat c hc
  refine ⟨?_, ?_, ?_⟩ <;> intro he <;> subst he
  · exact absurd h1 (by decide)
  · exact absurd h1 (by decide)
  · exact absurd h2 (by decide)

/-- The characters of a number lexeme are none of quote, comma,
backslash. -/
theorem numShape_chars (t : List Char) (ht : NumShape t) :
    ∀ c ∈ t, c ≠ '"' ∧ c ≠ ',' ∧ c ≠ '\\' := by
  obtain ⟨ip, fp, ep, hip, hfp, hep, hsh⟩ := ht
  have hbody : ∀ c ∈ ip ++ fp ++ ep, c ≠ '"' ∧ c ≠ ',' ∧ c ≠ '\\' := by
    intro c hc
    rcases List.mem_append.mp hc with hc2 | hcep
    · rcases List.mem_append.mp hc2 with hcip | hcfp
      · rcases hip with hip | ⟨d, ds, hipe, _, hd, hds⟩
        · rw [hip] at hcip
          simp only [List.mem_singleton] at hcip
          subst hcip
          exact ⟨by decide, by decide, by decide⟩
        · rw [hipe] at hcip
          rcases List.mem_cons.mp hcip with hcd | hcds
          · subst hcd; exact digit_classes c hd
          · exact digit_classes c (hds c hcds)
      · rcases hfp with hfp | ⟨ds, hfpe, _, hds⟩
        · rw [hfp] at hcfp; simp at hcfp
        · rw [hfpe] at hcfp
          rcases List.mem_cons.mp hcfp with hcd | hcds
          · subst hcd; exact ⟨by decide, by decide, by decide⟩
          · exact digit_classes c (hds c hcds)
    · rcases hep with hep | ⟨e, ds, he, _, hds, hshe⟩
      · rw [hep] at hcep; simp at hcep
      · rcases hshe with hshe | ⟨s, hs, hshe⟩
        · rw [hshe] at hcep
          rcases List.mem_cons.mp hcep with hcd | hcds
          · subst hcd
            rcases he with he | he <;> subst he <;>
              exact ⟨by decide, by decide, by decide⟩
          · exact digit_classes c (hds c hcds)
        · rw [hshe] at hcep
          rcases List.mem_cons.mp hcep with hcd | hcds
          · subst hcd
            rcases he with he | he <;> subst he <;>
              exact ⟨by decide, by decide, by decide⟩
          · rcases List.mem_cons.mp hcds with hcs | hcds2
            · subst hcs
              rcases hs with hs | hs <;> subst hs <;>
                exact ⟨by decide, by decide, by decide⟩
            · exact digit_classes c (hds c hcds2)
  intro c hc
  rcases hsh with hsh | hsh <;> rw [hsh] at hc
  · exact hbody c hc
  · rcases List.mem_cons.mp hc with hcd | hcb
    · subst hcd; exact ⟨by decide, by decide, by decide⟩
    · exact hbody c hcb

/-- Every grammar text commutes with the outside-string comma scan: the
scan changes nothing inside a complete derivation (all its commas are
followed by a member or item, never by a closing brace). -/
theorem G_tc (k : GK) (t : List Char) (h : G k t) : TC t := by
  induction h with
  | str b hb => exact TC_qseg b (Bdy_tc b hb)
  | num t ht => exact TC_clean_list t (numShape_chars t ht)
  | lit_true => exact TC_clean_list _ (by decide)
  | lit_false => exact TC_clean_list _ (by decide)
  | lit_null => exact TC_clean_list _ (by decide)
  | lit_nan => exact TC_clean_list _ (by decide)
  | lit_inf => exact TC_clean_list _ (by decide)
  | lit_ninf => exact TC_clean_list _ (by decide)
  | obj M hm ihm =>
    exact TC_append [lbrace] M (TC_char lbrace (by decide) (by decide)) ihm
  | arr A ha iha =>
    exact TC_append ['['] A (TC_char '[' (by decide) (by decide)) iha
  | ms_close w hw =>
    exact TC_append w [rbrace] (TC_ws w hw) (TC_char rbrace (by decide) (by decide))
  | ms_member w1 b w2 w3 v L hw1 hb hw2 hw3 hv hL ihv ihL =>
    have heq : w1 ++ '"' :: (b ++ '"' :: (w2 ++ ':' :: (w3 ++ (v ++ L)))) =
        w1 ++ (('"' :: (b ++ ['"'])) ++ (w2 ++ ([':'] ++ (w3 ++ (v ++ L))))) := by
      simp
    rw [heq]
    exact TC_append _ _ (TC_ws w1 hw1)
      (TC_append _ _ (TC_qseg b (Bdy_tc b hb))
        (TC_append _ _ (TC_ws w2 hw2)
          (TC_append _ _ (TC_char ':' (by decide) (by decide))
            (TC_append _ _ (TC_ws w3 hw3) (TC_append _ _ ihv ihL)))))
  | ml_close w hw =>
    exact TC_append w [rbrace] (TC_ws w hw) (TC_char rbrace (by decide) (by decide))
  | ml_member w1 w2 b w3 w4 v L hw1 hw2 hb hw3 hw4 hv hL ihv ihL =>
    have hu : TC (w2 ++ (('"' :: (b ++ ['"'])) ++ (w3 ++ ([':'] ++ (w4 ++ (v ++ L)))))) :=
      TC_append _ _ (TC_ws w2 hw2)
        (TC_append _ _ (TC_qseg b (Bdy_tc b hb))
          (TC_append _ _ (TC_ws w3 hw3)
            (TC_append _ _ (TC_char ':' (by decide) (by decide))
              (TC_append _ _ (TC_ws w4 hw4) (TC_append _ _ ihv ihL)))))
    have hlook : ∀ T, headIsRBrace (skipWs
        ((w2 ++ (('"' :: (b ++ ['"'])) ++ (w3 ++ ([':'] ++ (w4 ++ (v ++ L)))))) ++ T)) =
        false := by
      intro T
      have heq2 : (w2 ++ (('"' :: (b ++ ['"'])) ++ (w3 ++ ([':'] ++ (w4 ++ (v ++ L)))))) ++ T =
          w2 ++ '"' :: ((b ++ ['"']) ++ (w3 ++ ([':'] ++ (w4 ++ (v ++ L)))) ++ T) := by
        simp
      rw [heq2]
      exact lookahead_quote w2 _ hw2
    have heq : w1 ++ ',' :: (w2 ++ '"' :: (b ++ '"' :: (w3 ++ ':' :: (w4 ++ (v ++ L))))) =
        w1 ++ (',' :: (w2 ++ (('"' :: (b ++ ['"'])) ++ (w3 ++ ([':'] ++ (w4 ++ (v ++ L))))))) := by
      simp
    rw [heq]
    exact TC_append _ _ (TC_ws w1 hw1) (TC_comma _ hu hlook)
  | is_close w hw =>
    exact TC_append w [']'] (TC_ws w hw) (TC_char ']' (by decide) (by decide))
  | is_item w v L hw hv hL ihv ihL =>
    exact TC_append _ _ (TC_ws w hw) (TC_append _ _ ihv ihL)
  | il_close w hw =>
    exact TC_append w [']'] (TC_ws w hw) (TC_char ']' (by decide) (by decide))
  | il_item w w2 v L hw hw2 hv hL ihv ihL =>
    obtain ⟨cv, rv, hvh, hcw, _, hcb, _⟩ := G_val_head v hv
    have hu : TC (w2 ++ (v ++ L)) :=
      TC_append _ _ (TC_ws w2 hw2) (TC_append _ _ ihv ihL)
    have hlook : ∀ T, headIsRBrace (skipWs ((w2 ++ (v ++ L)) ++ T)) = false := by
      intro T
      have heq2 : (w2 ++ (v ++ L)) ++ T = w2 ++ (cv :: (rv ++ L ++ T)) := by
        rw [hvh]; simp
      rw [heq2, skipWs_ws_append w2 _ hw2]
      have h1 : skipWs (cv :: (rv ++ L ++ T)) = cv :: (rv ++ L ++ T) := by
        simp [skipWs, hcw]
      rw [h1]
      simp [headIsRBrace, hcb]
    have heq : w ++ ',' :: (w2 ++ (v ++ L)) = w ++ (',' :: (w2 ++ (v ++ L))) := rfl
    rw [heq]
    exact TC_append _ _ (TC_ws w hw) (TC_comma _ hu hlook)

theorem markerEnd_cons :
    markerEnd = '/' :: (List.replicate 37 '/' ++ " New key end".data) := rfl

theorem splitNl_ne_nil (x : List Char) : splitNl x ≠ [] := by
  cases x with
  | nil => simp [splitNl]
  | cons c r =>
    simp only [splitNl]
    by_cases hc : c = '\n'
    · simp [hc]
    · rw [if_neg hc]
      cases h : splitNl r with
      | nil => simp
      | cons l ls => simp

theorem splitNl_cons_exists (x : List Char) :
    ∃ l ls, splitNl x = l :: ls := by
  cases h : splitNl x with
  | nil => exact absurd h (splitNl_ne_nil x)
  | cons l ls => exact ⟨l, ls, rfl⟩

/-- Splitting at newlines splits over a concatenation at a newline. -/
theorem splitNl_append (a b : List Char) :
    splitNl (a ++ '\n' :: b) = splitNl a ++ splitNl b := by
  induction a with
  | nil => simp [splitNl]
  | cons c r ih =>
    by_cases hc : c = '\n'
    · subst hc
      simp [splitNl, ih]
    · obtain ⟨l, ls, hls⟩ := splitNl_cons_exists r
      rw [List.cons_append]
      simp only [splitNl, if_neg hc, ih, hls, List.cons_append]

/-- A newline-free text is a single line. -/
theorem splitNl_no_nl (a : List Char) (h : '\n' ∉ a) : splitNl a = [a] := by
  induction a with
  | nil => rfl
  | cons c r ih =>
    have hc : c ≠ '\n' := by
      intro he
      exact h (by simp [he])
    have ih2 := ih (fun hm => h (by simp [hm]))
    simp [splitNl, hc, ih2]

theorem intercalate_singleton (s a : List Char) :
    List.intercalate s [a] = a := by
  simp [List.intercalate]

theorem intercalate_cons2 (s a : List Char) (l : List (List Char))
    (h : l ≠ []) :
    List.intercalate s (a :: l) = a ++ s ++ List.intercalate s l := by
  cases l with
  | nil => exact absurd rfl h
  | cons b bs => simp [List.intercalate, List.intersperse]

/-- Joining the lines with newlines restores the text. -/
theorem intercalate_splitNl (x : List Char) :
    List.intercalate ['\n'] (splitNl x) = x := by
  induction x with
  | nil => rfl
  | cons c r ih =>
    by_cases hc : c = '\n'
    · subst hc
      have h1 : splitNl ('\n' :: r) = [] :: splitNl r := by simp [splitNl]
      rw [h1, intercalate_cons2 _ _ _ (splitNl_ne_nil r), ih]
      rfl
    · obtain ⟨l, ls, hls⟩ := splitNl_cons_exists r
      have h1 : splitNl (c :: r) = (c :: l) :: ls := by
        simp only [splitNl, if_neg hc, hls]
      rw [h1]
      rw [hls] at ih
      cases ls with
      | nil =>
        rw [intercalate_singleton] at ih ⊢
        rw [ih]
      | cons m ms =>
        rw [intercalate_cons2 _ _ _ (by simp)] at ih
        rw [intercalate_cons2 _ _ _ (by simp), ← ih]
        simp

/-- Every character of every line comes from the split text. -/
theorem mem_splitNl_subset (x : List Char) :
    ∀ l ∈ splitNl x, ∀ c ∈ l, c ∈ x := by
  induction x with
  | nil =>
    intro l hl c hc
    simp [splitNl] at hl
    subst hl
    simp at hc
  | cons d r ih =>
    intro l hl c hc
    by_cases hd : d = '\n'
    · subst hd
      have h1 : splitNl ('\n' :: r) = [] :: splitNl r := by simp [splitNl]
      rw [h1] at hl
      rcases List.mem_cons.mp hl with hl | hl
      · subst hl; simp at hc
      · exact List.mem_cons_of_mem _ (ih l hl c hc)
    · obtain ⟨m, ms, hms⟩ := splitNl_cons_exists r
      have h1 : splitNl (d :: r) = (d :: m) :: ms := by
        simp only [splitNl, if_neg hd, hms]
      rw [h1] at hl
      rcases List.mem_cons.mp hl with hl | hl
      · subst hl
        rcases List.mem_cons.mp hc with hc | hc
        · subst hc; simp
        · exact List.mem_cons_of_mem _
            (ih m (by rw [hms]; simp) c hc)
      · exact List.mem_cons_of_mem _
          (ih l (by rw [hms]; simp [hl]) c hc)

/-- A line whose space-stripped form starts with a slash has a leading
spaces-then-slash prefix. -/
theorem leadSlash_of_dropWhile (l : List Char) :
    ∀ y, l.dropWhile (fun c => c = ' ') = '/' :: y → leadSlashB l = true := by
  induction l with
  | nil => intro y h; simp at h
  | cons c r ih =>
    intro y h
    by_cases hc : c = ' '
    · subst hc
      rw [List.dropWhile_cons_of_pos (by simp)] at h
      simp only [leadSlashB, if_pos rfl]
      exact ih y h
    · rw [List.dropWhile_cons_of_neg (by simpa using hc)] at h
      obtain ⟨hc2, _⟩ := List.cons.inj h
      subst hc2
      simp [leadSlashB]

/-- A marker line has a leading spaces-then-slash prefix. -/
theorem isMarkerLine_lead (l : List Char) (h : isMarkerLine l = true) :
    leadSlashB l = true := by
  simp only [isMarkerLine, Bool.or_eq_true, decide_eq_true_eq] at h
  rcases h with h | h
  · exact leadSlash_of_dropWhile l _ (by rw [h, markerStart_cons])
  · exact leadSlash_of_dropWhile l _ (by rw [h, markerEnd_cons])

/-- A leading-slash line of the split lifts to the whole text. -/
theorem splitNl_lead_head (x : List Char) :
    ∀ l0 ls, splitNl x = l0 :: ls → leadSlashB l0 = true →
    leadSlashB x = true := by
  induction x with
  | nil =>
    intro l0 ls h hl
    simp [splitNl] at h
    rw [h.1] at hl
    simp [leadSlashB] at hl
  | cons c r ih =>
    intro l0 ls h hl
    by_cases hc : c = '\n'
    · subst hc
      have h1 : splitNl ('\n' :: r) = [] :: splitNl r := by simp [splitNl]
      rw [h1] at h
      obtain ⟨h2, _⟩ := List.cons.inj h
      rw [← h2] at hl
      simp [leadSlashB] at hl
    · obtain ⟨m, ms, hms⟩ := splitNl_cons_exists r
      have h1 : splitNl (c :: r) = (c :: m) :: ms := by
        simp only [splitNl, if_neg hc, hms]
      rw [h1] at h
      obtain ⟨h2, _⟩ := List.cons.inj h
      rw [← h2] at hl
      by_cases hsp : c = ' '
      · subst hsp
        simp only [leadSlashB, if_pos rfl] at hl ⊢
        exact ih m ms hms hl
      · simp only [leadSlashB, if_neg hsp] at hl ⊢
        exact hl

/-- A leading-slash line in the tail of the split lifts to the
newline-spaces-slash pattern. -/
theorem splitNl_lead_tail (x : List Char) :
    ∀ l0 ls, splitNl x = l0 :: ls → (∃ l ∈ ls, leadSlashB l = true) →
    hasNlSlashB x = true := by
  induction x with
  | nil =>
    intro l0 ls h hex
    simp [splitNl] at h
    obtain ⟨l, hl, _⟩ := hex
    rw [h.2] at hl
    simp at hl
  | cons c r ih =>
    intro l0 ls h hex
    by_cases hc : c = '\n'
    · subst hc
      have h1 : splitNl ('\n' :: r) = [] :: splitNl r := by simp [splitNl]
      rw [h1] at h
      obtain ⟨_, h3⟩ := List.cons.inj h
      obtain ⟨l, hl, hlead⟩ := hex
      rw [← h3] at hl
      obtain ⟨m, ms, hms⟩ := splitNl_cons_exists r
      rw [hms] at hl
      rcases List.mem_cons.mp hl with hl | hl
      · subst hl
        have hr := splitNl_lead_head r l ms hms hlead
        simp [hasNlSlashB, hr]
      · have hr := ih m ms hms ⟨l, hl, hlead⟩
        simp [hasNlSlashB, hr]
    · obtain ⟨m, ms, hms⟩ := splitNl_cons_exists r
      have h1 : splitNl (c :: r) = (c :: m) :: ms := by
        simp only [splitNl, if_neg hc, hms]
      rw [h1] at h
      obtain ⟨_, h3⟩ := List.cons.inj h
      obtain ⟨l, hl, hlead⟩ := hex
      rw [← h3] at hl
      have hr := ih m ms hms ⟨l, hl, hlead⟩
      simp [hasNlSlashB, hr]

/-- No line of a marker-free text is a marker line. -/
theorem noMarker_of_MarkerFree (x : List Char) (hmf : MarkerFree x) :
    ∀ l ∈ splitNl x, isMarkerLine l = false := by
  intro l hl
  cases hm : isMarkerLine l with
  | false => rfl
  | true =>
    have hlead := isMarkerLine_lead l hm
    obtain ⟨l0, ls, hls⟩ := splitNl_cons_exists x
    rw [hls] at hl
    rcases List.mem_cons.mp hl with hl | hl
    · subst hl
      have h1 := splitNl_lead_head x l ls hls hlead
      rw [hmf.2] at h1
      exact absurd h1 (by simp)
    · have h1 := splitNl_lead_tail x l0 ls hls ⟨l, hl, hlead⟩
      rw [hmf.1] at h1
      exact absurd h1 (by simp)

/-- A leading-slash text contains a slash. -/
theorem leadSlash_mem (l : List Char) (h : leadSlashB l = true) : '/' ∈ l := by
  induction l with
  | nil => simp [leadSlashB] at h
  | cons c r ih =>
    by_cases hc : c = ' '
    · subst hc
      simp only [leadSlashB, if_pos rfl] at h
      exact List.mem_cons_of_mem _ (ih h)
    · simp only [leadSlashB, if_neg hc, decide_eq_true_eq] at h
      simp [h]

/-- An all-whitespace line is not a marker line. -/
theorem notMarker_ws (l : List Char) (h : ∀ c ∈ l, jsonWs c = true) :
    isMarkerLine l = false := by
  cases hm : isMarkerLine l with
  | false => rfl
  | true =>
    have := leadSlash_mem l (isMarkerLine_lead l hm)
    have h2 := h '/' this
    simp [jsonWs] at h2

/-- A line starting with a non-space non-slash character is not a marker
line. -/
theorem notMarker_head (c : Char) (l : List Char) (hc : c ≠ ' ')
    (hs : c ≠ '/') : isMarkerLine (c :: l) = false := by
  cases hm : isMarkerLine (c :: l) with
  | false => rfl
  | true =>
    have := isMarkerLine_lead _ hm
    simp [leadSlashB, hc, hs] at this

theorem isMarkerLine_m1 (n : Nat) :
    isMarkerLine (indentSp n ++ markerStart) = true := by
  simp only [isMarkerLine, Bool.or_eq_true, decide_eq_true_eq]
  refine Or.inl ?_
  induction n with
  | zero => rfl
  | succ k ih =>
    have h1 : indentSp (k + 1) = ' ' :: indentSp k := by
      simp [indentSp, List.replicate_succ]
    rw [h1, List.cons_append, List.dropWhile_cons_of_pos (by simp)]
    exact ih

theorem isMarkerLine_m2 (n : Nat) :
    isMarkerLine (indentSp n ++ markerEnd) = true := by
  simp only [isMarkerLine, Bool.or_eq_true, decide_eq_true_eq]
  refine Or.inr ?_
  induction n with
  | zero => rfl
  | succ k ih =>
    have h1 : indentSp (k + 1) = ' ' :: indentSp k := by
      simp [indentSp, List.replicate_succ]
    rw [h1, List.cons_append, List.dropWhile_cons_of_pos (by simp)]
    exact ih

/-- Facts about the lowercase hex digits `0..f`. -/
theorem hexDigit_props : ∀ m : Nat, m < 16 →
    hexVal (hexDigit m) = some m ∧ hexDigit m ≠ '\n' ∧ hexDigit m ≠ '"' ∧
      hexDigit m ≠ '\\' := by decide

/-- The exhaustive case analysis of `json.dumps` character escaping. -/
theorem escapeChar_cases (c : Char) :
    escapeChar c = ['\\', '"'] ∨ escapeChar c = ['\\', '\\'] ∨
    escapeChar c = ['\\', 'n'] ∨ escapeChar c = ['\\', 'r'] ∨
    escapeChar c = ['\\', 't'] ∨ escapeChar c = ['\\', 'b'] ∨
    escapeChar c = ['\\', 'f'] ∨
    (∃ h l, h < 2 ∧ l < 16 ∧
      escapeChar c = ['\\', 'u', '0', '0', hexDigit h, hexDigit l]) ∨
    (escapeChar c = [c] ∧ c ≠ '"' ∧ c ≠ '\\' ∧ 0x20 ≤ c.toNat) := by
  by_cases h1 : c = '"'
  · exact Or.inl (by simp [escapeChar, h1])
  by_cases h2 : c = '\\'
  · exact Or.inr (Or.inl (by simp [escapeChar, h1, h2]))
  by_cases h3 : c = '\n'
  · exact Or.inr (Or.inr (Or.inl (by simp [escapeChar, h1, h2, h3])))
  by_cases h4 : c = '\r'
  · exact Or.inr (Or.inr (Or.inr (Or.inl (by simp [escapeChar, h1, h2, h3, h4]))))
  by_cases h5 : c = '\t'
  · exact Or.inr (Or.inr (Or.inr (Or.inr (Or.inl
      (by simp [escapeChar, h1, h2, h3, h4, h5])))))
  by_cases h6 : c.toNat = 8
  · exact Or.inr (Or.inr (Or.inr (Or.inr (Or.inr (Or.inl
      (by simp [escapeChar, h1, h2, h3, h4, h5, h6]))))))
  by_cases h7 : c.toNat = 12
  · exact Or.inr (Or.inr (Or.inr (Or.inr (Or.inr (Or.inr (Or.inl
      (by simp [escapeChar, h1, h2, h3, h4, h5, h6, h7])))))))
  by_cases h8 : c.toNat < 0x20
  · refine Or.inr (Or.inr (Or.inr (Or.inr (Or.inr (Or.inr (Or.inr (Or.inl
      ⟨c.toNat / 16, c.toNat % 16, by omega, by omega, ?_⟩)))))))
    simp [escapeChar, h1, h2, h3, h4, h5, h6, h7, h8]
  · refine Or.inr (Or.inr (Or.inr (Or.inr (Or.inr (Or.inr (Or.inr (Or.inr
      ⟨?_, h1, h2, by omega⟩)))))))
    simp [escapeChar, h1, h2, h3, h4, h5, h6, h7, h8]

/-- Escaped characters never contain a raw newline. -/
theorem escapeChar_no_nl (c : Char) : '\n' ∉ escapeChar c := by
  rcases escapeChar_cases c with h | h | h | h | h | h | h |
    ⟨hi, lo, hh, hl, h⟩ | ⟨h, _, _, h20⟩ <;> rw [h]
  · decide
  · decide
  · decide
  · decide
  · decide
  · decide
  · decide
  · intro hm
    simp only [List.mem_cons] at hm
    rcases hm with hm | hm | hm | hm | hm | hm | hm
    · exact absurd hm (by decide)
    · exact absurd hm (by decide)
    · exact absurd hm (by decide)
    · exact absurd hm (by decide)
    · exact (hexDigit_props hi (by omega)).2.1 hm.symm
    · exact (hexDigit_props lo hl).2.1 hm.symm
    · simp at hm
  · intro hm
    simp only [List.mem_singleton] at hm
    rw [← hm] at h20
    exact absurd h20 (by decide)

theorem jsonEscape_no_nl (s : List Char) : '\n' ∉ jsonEscape s := by
  induction s with
  | nil => simp [jsonEscape]
  | cons c r ih =>
    intro h
    have h2 : jsonEscape (c :: r) = escapeChar c ++ jsonEscape r := by
      simp [jsonEscape]
    rw [h2] at h
    rcases List.mem_append.mp h with h | h
    · exact escapeChar_no_nl c h
    · exact ih h

theorem no_nl_append (a b : List Char) (ha : '\n' ∉ a) (hb : '\n' ∉ b) :
    '\n' ∉ a ++ b := by
  intro h
  rcases List.mem_append.mp h with h | h
  · exact ha h
  · exact hb h

theorem no_nl_cons (c : Char) (l : List Char) (hc : c ≠ '\n')
    (hl : '\n' ∉ l) : '\n' ∉ c :: l := by
  intro h
  rcases List.mem_cons.mp h with h | h
  · exact hc h.symm
  · exact hl h

theorem no_nl_indent (n : Nat) : '\n' ∉ indentSp n := by
  intro h
  exact absurd (List.eq_of_mem_replicate h) (by decide)

theorem qstr_no_nl (s : List Char) : '\n' ∉ qstr s :=
  no_nl_cons _ _ (by decide)
    (no_nl_append _ _ (jsonEscape_no_nl s)
      (no_nl_cons _ _ (by decide) (by simp)))

/-- Every escaped character extends a string-body derivation. -/
theorem Bdy_escape (c : Char) (b : List Char) (hb : Bdy b) :
    Bdy (escapeChar c ++ b) := by
  rcases escapeChar_cases c with h | h | h | h | h | h | h |
    ⟨hi, lo, hh, hl, h⟩ | ⟨h, h1, h2, h20⟩ <;> rw [h]
  · exact Bdy.esc '"' b (by simp [SimpleEsc]) hb
  · exact Bdy.esc '\\' b (by simp [SimpleEsc]) hb
  · exact Bdy.esc 'n' b (by simp [SimpleEsc]) hb
  · exact Bdy.esc 'r' b (by simp [SimpleEsc]) hb
  · exact Bdy.esc 't' b (by simp [SimpleEsc]) hb
  · exact Bdy.esc 'b' b (by simp [SimpleEsc]) hb
  · exact Bdy.esc 'f' b (by simp [SimpleEsc]) hb
  · have hv0 : hexVal '0' = some 0 := by decide
    have hvh := (hexDigit_props hi (by omega)).1
    have hvl := (hexDigit_props lo hl).1
    have hp : parseHex4 ['0', '0', hexDigit hi, hexDigit lo] =
        some (hi * 16 + lo, []) := by
      simp [parseHex4, hv0, hvh, hvl]
    have hb1 : hi * 16 + lo < 0xD800 := by omega
    refine Bdy.hex '0' '0' (hexDigit hi) (hexDigit lo) (hi * 16 + lo) b hp
      ?_ ?_ hb
    · have : ¬(0xD800 ≤ hi * 16 + lo) := by omega
      simp [this]
    · have : ¬(0xDC00 ≤ hi * 16 + lo) := by omega
      simp [this]
  · exact Bdy.plain c b h1 h2 (by omega) hb

/-- The printer's escaping of any string is a valid string body. -/
theorem Bdy_jsonEscape (s : List Char) : Bdy (jsonEscape s) := by
  induction s with
  | nil => exact Bdy.nil
  | cons c r ih =>
    have h2 : jsonEscape (c :: r) = escapeChar c ++ jsonEscape r := by
      simp [jsonEscape]
    rw [h2]
    exact Bdy_escape c _ ih

/-- Every printed string literal is a grammar value. -/
theorem G_qstr (s : List Char) : G .val (qstr s) :=
  G.str (jsonEscape s) (Bdy_jsonEscape s)

theorem AllWs_indent (n : Nat) : AllWs (indentSp n) := by
  intro c hc
  rw [List.eq_of_mem_replicate hc]
  decide

theorem AllWs_nl_indent (n : Nat) : AllWs ('\n' :: indentSp n) := by
  intro c hc
  rcases List.mem_cons.mp hc with h | h
  · subst h; decide
  · rw [List.eq_of_mem_replicate h]; decide

/-- The printed `\x7btitle, help\x7d` object is a grammar value. -/
theorem G_objText (v : Entry) : G .val (objText v) := by
  have hwnil : AllWs ([] : List Char) := by intro c hc; simp at hc
  have hwsp : AllWs [' '] := by
    intro c hc
    simp at hc
    subst hc
    decide
  have heq : objText v = lbrace :: (('\n' :: indentSp 4) ++ '"' :: (jsonEscape "title".data ++ '"' :: ([] ++ ':' :: ([' '] ++ (qstr v.title ++ ([] ++ ',' :: (('\n' :: indentSp 4) ++ '"' :: (jsonEscape "help".data ++ '"' :: ([] ++ ':' :: ([' '] ++ (qstr v.help ++ (('\n' :: indentSp 2) ++ [rbrace])))))))))))) := by
    simp [objText, qstr]
  rw [heq]
  exact G.obj _ (G.ms_member ('\n' :: indentSp 4) (jsonEscape "title".data)
    [] [' '] (qstr v.title) _ (AllWs_nl_indent 4) (Bdy_jsonEscape _)
    hwnil hwsp (G_qstr v.title)
    (G.ml_member [] ('\n' :: indentSp 4) (jsonEscape "help".data) [] [' ']
      (qstr v.help) _ hwnil (AllWs_nl_indent 4) (Bdy_jsonEscape _)
      hwnil hwsp (G_qstr v.help)
      (G.ml_close ('\n' :: indentSp 2) (AllWs_nl_indent 2))))

/-- The six lines of the pretty-printed one-key object. -/
theorem splitNl_dumps (k : List Char) (v : Entry) :
    splitNl (dumpsKeyEntry k v 2) =
      [lbrace] :: (indentSp 2 ++ qstr k ++ ':' :: ' ' :: [lbrace]) ::
      (indentSp 4 ++ qstr "title".data ++ ':' :: ' ' :: qstr v.title ++ [',']) ::
      (indentSp 4 ++ qstr "help".data ++ ':' :: ' ' :: qstr v.help) ::
      (indentSp 2 ++ [rbrace]) :: [[rbrace]] := by
  have h1 : dumpsKeyEntry k v 2 =
      [lbrace] ++ '\n' :: ((indentSp 2 ++ qstr k ++ ':' :: ' ' :: [lbrace]) ++
        '\n' :: ((indentSp 4 ++ qstr "title".data ++ ':' :: ' ' ::
            qstr v.title ++ [',']) ++
          '\n' :: ((indentSp 4 ++ qstr "help".data ++ ':' :: ' ' ::
              qstr v.help) ++
            '\n' :: ((indentSp 2 ++ [rbrace]) ++ '\n' :: [rbrace])))) := by
    simp [dumpsKeyEntry]
  rw [h1, splitNl_append, splitNl_append, splitNl_append, splitNl_append,
    splitNl_append]
  rw [splitNl_no_nl [lbrace] (by decide)]
  rw [splitNl_no_nl ((indentSp 2 ++ qstr k) ++ (':' :: ' ' :: [lbrace]))
    (no_nl_append _ _ (no_nl_append _ _ (no_nl_indent 2) (qstr_no_nl k))
      (no_nl_cons _ _ (by decide) (no_nl_cons _ _ (by decide) (by decide))))]
  rw [splitNl_no_nl (((indentSp 4 ++ qstr "title".data) ++
      (':' :: ' ' :: qstr v.title)) ++ [','])
    (no_nl_append _ _ (no_nl_append _ _ (no_nl_append _ _ (no_nl_indent 4)
        (qstr_no_nl _))
      (no_nl_cons _ _ (by decide) (no_nl_cons _ _ (by decide)
        (qstr_no_nl _)))) (by decide))]
  rw [splitNl_no_nl ((indentSp 4 ++ qstr "help".data) ++
      (':' :: ' ' :: qstr v.help))
    (no_nl_append _ _ (no_nl_append _ _ (no_nl_indent 4) (qstr_no_nl _))
      (no_nl_cons _ _ (by decide) (no_nl_cons _ _ (by decide)
        (qstr_no_nl _))))]
  rw [splitNl_no_nl (indentSp 2 ++ [rbrace])
    (no_nl_append _ _ (no_nl_indent 2) (by decide))]
  rw [splitNl_no_nl [rbrace] (by decide)]
  rfl

/-- Closed form of the inserted member text between the markers. -/
theorem innerContent_eq (k : List Char) (v : Entry) :
    innerContent k v = indentSp 2 ++ (qstr k ++ ':' :: ' ' :: objText v) := by
  unfold innerContent
  rw [splitNl_dumps]
  have h1 : (([lbrace] :: (indentSp 2 ++ qstr k ++ ':' :: ' ' :: [lbrace]) ::
      (indentSp 4 ++ qstr "title".data ++ ':' :: ' ' :: qstr v.title ++ [',']) ::
      (indentSp 4 ++ qstr "help".data ++ ':' :: ' ' :: qstr v.help) ::
      (indentSp 2 ++ [rbrace]) :: [[rbrace]]).drop 1).dropLast =
      [(indentSp 2 ++ qstr k ++ ':' :: ' ' :: [lbrace]),
       (indentSp 4 ++ qstr "title".data ++ ':' :: ' ' :: qstr v.title ++ [',']),
       (indentSp 4 ++ qstr "help".data ++ ':' :: ' ' :: qstr v.help),
       (indentSp 2 ++ [rbrace])] := by
    simp
  rw [h1]
  rw [intercalate_cons2 _ _ _ (by simp), intercalate_cons2 _ _ _ (by simp),
    intercalate_cons2 _ _ _ (by simp), intercalate_singleton]
  simp [objText]

/-- The stripped member chain is a members-loop text. -/
theorem memChain_ml (ms : List (List Char × Entry)) : G .ml (memChain ms) := by
  induction ms with
  | nil => exact G.ml_close ['\n'] (by intro c hc; simp at hc; subst hc; decide)
  | cons p ms ih =>
    obtain ⟨k, v⟩ := p
    have hwnil : AllWs ([] : List Char) := by intro c hc; simp at hc
    have hwsp : AllWs [' '] := by
      intro c hc
      simp at hc
      subst hc
      decide
    have h := G.ml_member [] ('\n' :: indentSp 2) (jsonEscape k) [] [' ']
      (objText v) (memChain ms) hwnil (AllWs_nl_indent 2) (Bdy_jsonEscape k)
      hwnil hwsp (G_objText v) ih
    have heq : [] ++ ',' :: (('\n' :: indentSp 2) ++ '"' :: (jsonEscape k ++ '"' :: ([] ++ ':' :: ([' '] ++ (objText v ++ memChain ms))))) =
        memChain ((k, v) :: ms) := by
      show _ = ',' :: '\n' :: (innerContent k v ++ memChain ms)
      rw [innerContent_eq]
      simp [qstr]
    rw [heq] at h
    exact h

theorem TC_qstr (s : List Char) : TC (qstr s) :=
  TC_qseg (jsonEscape s) (Bdy_tc _ (Bdy_jsonEscape s))

/-- The member text between the markers commutes with the comma scan. -/
theorem TC_innerContent (k : List Char) (v : Entry) :
    TC (innerContent k v) := by
  rw [innerContent_eq]
  exact TC_append _ _ (TC_ws _ (AllWs_indent 2))
    (TC_append _ _ (TC_qstr k)
      (TC_append [':'] _ (TC_char ':' (by decide) (by decide))
        (TC_append [' '] _ (TC_char ' ' (by decide) (by decide))
          (G_tc .val _ (G_objText v)))))

/-- A comma before an (unstripped) member chain never sees a closing
brace. -/
theorem fatTail_lookahead (k : List Char) (v : Entry)
    (ms : List (List Char × Entry)) (X : List Char) :
    headIsRBrace (skipWs (fatTail ((k, v) :: ms) ++ X)) = false := by
  have heq : fatTail ((k, v) :: ms) ++ X =
      ('\n' :: indentSp 2) ++ '"' :: (jsonEscape k ++ ('"' ::
        (':' :: ' ' :: (objText v ++ (',' :: (fatTail ms ++ X)))))) := by
    simp [fatTail, innerContent_eq, qstr]
  rw [heq]
  exact lookahead_quote _ _ (AllWs_nl_indent 2)

theorem strip_ws_id (w : List Char) (hw : AllWs w) :
    stripTCGo false w = w := by
  have h := tc_ws w hw []
  simpa [tc_nil] using h

/-- Scanning the unstripped member chain followed by the final newline and
closing brace removes exactly the last comma, producing the member-chain
continuation text. -/
theorem fatSlim (ms : List (List Char × Entry)) : ∀ (k : List Char)
    (v : Entry) (T : List Char),
    stripTCGo false (fatTail ((k, v) :: ms) ++ '\n' :: rbrace :: T) =
      ('\n' :: (innerContent k v ++ memChain ms)) ++ stripTCGo false T := by
  induction ms with
  | nil =>
    intro k v T
    have h1 : fatTail [(k, v)] ++ '\n' :: rbrace :: T =
        '\n' :: (innerContent k v ++ (',' :: ('\n' :: (rbrace :: T)))) := by
      simp [fatTail]
    rw [h1, tc_pass_false '\n' _ (by decide) (by decide),
      (TC_innerContent k v).1]
    have h2 : stripTCGo false (',' :: ('\n' :: (rbrace :: T))) =
        '\n' :: rbrace :: stripTCGo false T := by
      rw [tc_comma_drop _ (by
          have hnl : jsonWs '\n' = true := by decide
          have hrb : jsonWs rbrace = false := by decide
          have hsk : skipWs ('\n' :: (rbrace :: T)) = rbrace :: T := by
            simp [skipWs, hnl, hrb]
          rw [hsk]
          simp [headIsRBrace]),
        tc_pass_false '\n' _ (by decide) (by decide),
        tc_pass_false rbrace _ (by decide) (by decide)]
    rw [h2]
    simp [memChain]
  | cons p ms2 ih =>
    obtain ⟨k2, v2⟩ := p
    intro k v T
    have h1 : fatTail ((k, v) :: (k2, v2) :: ms2) ++ '\n' :: rbrace :: T =
        '\n' :: (innerContent k v ++
          (',' :: (fatTail ((k2, v2) :: ms2) ++ '\n' :: rbrace :: T))) := by
      simp [fatTail]
    rw [h1, tc_pass_false '\n' _ (by decide) (by decide),
      (TC_innerContent k v).1]
    have h2 : stripTCGo false
        (',' :: (fatTail ((k2, v2) :: ms2) ++ '\n' :: rbrace :: T)) =
        ',' :: (('\n' :: (innerContent k2 v2 ++ memChain ms2)) ++
          stripTCGo false T) := by
      rw [tc_comma_keep _ (fatTail_lookahead k2 v2 ms2 _), ih k2 v2 T]
    rw [h2]
    have h3 : memChain ((k2, v2) :: ms2) =
        ',' :: '\n' :: (innerContent k2 v2 ++ memChain ms2) := rfl
    rw [h3]
    simp

/-- `parseLit` never produces an object. -/
theorem parseLit_not_obj (cs : List Char) (ms : List (List Char × Json))
    (rest : List Char) : parseLit cs ≠ some (Json.obj ms, rest) := by
  intro h
  simp only [parseLit] at h
  split at h
  · exact absurd h (by simp)
  split at h
  · exact absurd h (by simp)
  split at h
  · exact absurd h (by simp)
  split at h
  · exact absurd h (by simp)
  split at h
  · exact absurd h (by simp)
  split at h
  · exact absurd h (by simp)
  cases cs with
  | nil => exact absurd h (by simp)
  | cons c r =>
    simp only [] at h
    split at h
    · obtain ⟨p, _, hp2⟩ := Option.map_eq_some'.mp h
      exact absurd hp2 (by simp)
    · exact absurd h (by simp)

/-- A parsed object input decomposes as whitespace, an opening brace, a
members text of the grammar, and trailing whitespace. -/
theorem jsonLoads_obj_decomp (content : List Char)
    (ms : List (List Char × Json))
    (h : jsonLoads content = some (Json.obj ms)) :
    ∃ w0 M rest, content = w0 ++ lbrace :: (M ++ rest) ∧ AllWs w0 ∧
      G .ms M ∧ AllWs rest := by
  unfold jsonLoads at h
  cases hpv : parseValue (2 * content.length + 4) content with
  | none => rw [hpv] at h; exact absurd h (by simp)
  | some p =>
    obtain ⟨v, rest⟩ := p
    rw [hpv] at h
    simp only [] at h
    by_cases hsk : skipWs rest = []
    · rw [if_pos hsk] at h
      have hv : v = Json.obj ms := by
        simpa using h
      subst hv
      have hrest : AllWs rest := skipWs_nil_allWs rest hsk
      rw [show 2 * content.length + 4 = (2 * content.length + 3) + 1 from rfl]
        at hpv
      simp only [parseValue] at hpv
      obtain ⟨w0, hw0, hws⟩ := skipWs_split content
      cases hsw : skipWs content with
      | nil => rw [hsw] at hpv; exact absurd hpv (by simp)
      | cons c r =>
        rw [hsw] at hpv
        simp only [] at hpv
        by_cases hc : c = lbrace
        · subst hc
          rw [if_pos rfl] at hpv
          obtain ⟨⟨ms', rest'⟩, hms, heq⟩ := Option.map_eq_some'.mp hpv
          have heq2 : ms' = ms ∧ rest' = rest := by
            have h1 := congrArg Prod.fst heq
            have h2 := congrArg Prod.snd heq
            simp at h1 h2
            exact ⟨h1, h2⟩
          obtain ⟨hms2, hrest2⟩ := heq2
          obtain ⟨M, hM, hGms⟩ :=
            (parse_sound (2 * content.length + 3)).2.1 r ms' rest' hms
          refine ⟨w0, M, rest', ?_, hws, hGms, ?_⟩
          · rw [hw0, hsw, hM]
          · rw [hrest2]
            exact hrest
        · rw [if_neg hc] at hpv
          by_cases hc2 : c = '['
          · rw [if_pos hc2] at hpv
            obtain ⟨q, _, hq2⟩ := Option.map_eq_some'.mp hpv
            exact absurd hq2 (by simp)
          · rw [if_neg hc2] at hpv
            by_cases hc3 : c = '"'
            · rw [if_pos hc3] at hpv
              obtain ⟨q, _, hq2⟩ := Option.map_eq_some'.mp hpv
              exact absurd hq2 (by simp)
            · rw [if_neg hc3] at hpv
              exact absurd hpv (parseLit_not_obj (c :: r) ms rest)
    · rw [if_neg hsk] at h
      exact absurd h (by simp)

theorem rfindIdx_not_mem (ch : Char) (y : List Char) (h : ch ∉ y) :
    UpdateFlags.rfindIdx ch y = none := by
  induction y with
  | nil => rfl
  | cons c r ih =>
    have hc : c ≠ ch := fun he => h (by simp [he])
    have ih2 := ih (fun hm => h (by simp [hm]))
    simp [UpdateFlags.rfindIdx, ih2, hc]

/-- The last occurrence of a character, located. -/
theorem rfindIdx_last (ch : Char) (x y : List Char) (h : ch ∉ y) :
    UpdateFlags.rfindIdx ch (x ++ ch :: y) = some x.length := by
  induction x with
  | nil =>
    simp [UpdateFlags.rfindIdx, rfindIdx_not_mem ch y h]
  | cons c r ih =>
    simp [UpdateFlags.rfindIdx, ih]

theorem firstNonWs_ws_append (a b : List Char)
    (ha : ∀ c ∈ a, pyWs c = true) :
    UpdateFlags.firstNonWs (a ++ b) =
      (UpdateFlags.firstNonWs b).map (fun p => (p.1 + a.length, p.2)) := by
  induction a with
  | nil =>
    cases h : UpdateFlags.firstNonWs b with
    | none => simp [h]
    | some p => simp [h]
  | cons c r ih =>
    have hc := ha c (by simp)
    have ih2 := ih (fun x hx => ha x (by simp [hx]))
    rw [List.cons_append]
    simp only [UpdateFlags.firstNonWs, hc, if_true, ih2]
    cases h : UpdateFlags.firstNonWs b with
    | none => simp
    | some p =>
      simp [Nat.add_assoc]

theorem firstNonWs_head (c : Char) (r : List Char) (hc : pyWs c = false) :
    UpdateFlags.firstNonWs (c :: r) = some (0, c) := by
  simp [UpdateFlags.firstNonWs, hc]

/-- The backward whitespace scan over text ending in a non-whitespace
character followed by whitespace finds that character. -/
theorem lastNonWs_ws_end (x w : List Char) (c0 : Char)
    (hw : ∀ c ∈ w, pyWs c = true) (hc : pyWs c0 = false) :
    UpdateFlags.lastNonWs ((x ++ [c0]) ++ w) = some (x.length, c0) := by
  unfold UpdateFlags.lastNonWs
  rw [List.reverse_append, List.reverse_append]
  have hwrev : ∀ c ∈ w.reverse, pyWs c = true := by
    intro c hcm
    exact hw c (List.mem_reverse.mp hcm)
  rw [firstNonWs_ws_append w.reverse _ hwrev]
  have h1 : [c0].reverse ++ x.reverse = c0 :: x.reverse := by simp
  rw [h1, firstNonWs_head c0 _ hc]
  simp only [Option.map_some, Option.map_map]
  refine congrArg some ?_
  simp only [Function.comp]
  refine Prod.ext ?_ rfl
  simp only [List.length_append, List.length_reverse, List.length_cons,
    List.length_nil]
  omega

theorem take_app (a : List Char) : ∀ (b : List Char) (n : Nat),
    (a ++ b).take (a.length + n) = a ++ b.take n := by
  induction a with
  | nil => intro b n; simp
  | cons c r ih =>
    intro b n
    have h1 : (c :: r).length + n = (r.length + n) + 1 := by
      simp only [List.length_cons]
      omega
    rw [h1, List.cons_append, List.take_succ_cons, ih, List.cons_append]

theorem drop_app (a : List Char) : ∀ (b : List Char) (n : Nat),
    (a ++ b).drop (a.length + n) = b.drop n := by
  induction a with
  | nil => intro b n; simp
  | cons c r ih =>
    intro b n
    have h1 : (c :: r).length + n = (r.length + n) + 1 := by
      simp only [List.length_cons]
      omega
    rw [h1, List.cons_append, List.drop_succ_cons, ih]

/-- Full inversion of a write of the flags updater, recording the
comma decision together with the written text. -/
theorem UpdateFlags.update_file_out_form
    (content : List Char) (d : List (List Char × Entry)) (out : List Char)
    (h : UpdateFlags.update_file (some content) d = .ok (some out)) :
    ∃ cur missing b,
      jsonLoads content = some cur ∧
      UpdateFlags.missingKeys d cur = .ok missing ∧
      missing ≠ [] ∧
      UpdateFlags.rfindIdx rbrace content = some b ∧
      ((∃ j c, UpdateFlags.lastNonWs (content.take b) = some (j, c) ∧
          (!(c = ',' || c = lbrace || c = '[')) = true ∧
          out = (content.take (j + 1) ++ ',' :: content.drop (j + 1)).take (b + 1)
            ++ (missing.map (fun p => format_new_key_block p.1 p.2 2)).flatten
            ++ '\n' :: (content.take (j + 1) ++ ',' :: content.drop (j + 1)).drop (b + 1)) ∨
        ((UpdateFlags.lastNonWs (content.take b) = none ∨
          ∃ j c, UpdateFlags.lastNonWs (content.take b) = some (j, c) ∧
            (!(c = ',' || c = lbrace || c = '[')) = false) ∧
         out = content.take b
            ++ (missing.map (fun p => format_new_key_block p.1 p.2 2)).flatten
            ++ '\n' :: content.drop b)) := by
  simp only [UpdateFlags.update_file] at h
  cases hparse : jsonLoads content with
  | none =>
    simp only [hparse] at h
    exact absurd h (by simp)
  | some cur =>
    simp only [hparse] at h
    cases hmiss : UpdateFlags.missingKeys d cur with
    | error e =>
      simp only [hmiss] at h
      exact absurd h (by simp)
    | ok missing =>
      simp only [hmiss] at h
      by_cases hne : missing.isEmpty = true
      · rw [if_pos hne] at h
        exact absurd h (by simp)
      · rw [if_neg hne] at h
        cases hb : UpdateFlags.rfindIdx rbrace content with
        | none =>
          simp only [hb] at h
          exact absurd h (by simp)
        | some b =>
          simp only [hb] at h
          refine ⟨cur, missing, b, rfl, hmiss, by simpa using hne, rfl, ?_⟩
          cases hscan : UpdateFlags.lastNonWs (content.take b) with
          | none =>
            simp only [hscan] at h
            refine Or.inr ⟨Or.inl rfl, ?_⟩
            have := h
            simp only [Except.ok.injEq, Option.some.injEq] at this
            exact this.symm
          | some jc =>
            obtain ⟨j, c⟩ := jc
            simp only [hscan] at h
            cases hc : (!(c = ',' || c = lbrace || c = '[')) with
            | true =>
              simp only [hc, if_true] at h
              simp only [Except.ok.injEq, Option.some.injEq] at h
              exact Or.inl ⟨j, c, rfl, hc, h.symm⟩
            | false =>
              simp only [hc, Bool.false_eq_true, if_false] at h
              simp only [Except.ok.injEq, Option.some.injEq] at h
              exact Or.inr ⟨Or.inr ⟨j, c, rfl, hc⟩, h.symm⟩

/-- `format_new_key_block` at indent two, in terms of the member text. -/
theorem format_eq (k : List Char) (v : Entry) :
    format_new_key_block k v 2 =
      '\n' :: ((indentSp 2 ++ markerStart) ++ '\n' ::
        ((innerContent k v ++ [',']) ++ '\n' :: (indentSp 2 ++ markerEnd))) := by
  simp only [format_new_key_block]
  rw [if_pos (by rw [splitNl_dumps]; simp)]
  rfl

theorem isMarkerLine_cons_space (l : List Char) :
    isMarkerLine (' ' :: l) = isMarkerLine l := by
  simp only [isMarkerLine]
  rw [List.dropWhile_cons_of_pos (by simp)]

/-- A line of spaces followed by a non-space non-slash character is not a
marker line. -/
theorem notMarker_indent_head (n : Nat) (c : Char) (y : List Char)
    (hc : c ≠ ' ') (hs : c ≠ '/') :
    isMarkerLine (indentSp n ++ c :: y) = false := by
  induction n with
  | zero => exact notMarker_head c y hc hs
  | succ m ih =>
    have h1 : indentSp (m + 1) = ' ' :: indentSp m := by
      simp [indentSp, List.replicate_succ]
    rw [h1, List.cons_append, isMarkerLine_cons_space]
    exact ih

theorem intercalate_append2 (s : List Char) (P L : List (List Char))
    (hP : P ≠ []) (hL : L ≠ []) :
    List.intercalate s (P ++ L) =
      List.intercalate s P ++ s ++ List.intercalate s L := by
  induction P with
  | nil => exact absurd rfl hP
  | cons p ps ih =>
    cases ps with
    | nil =>
      rw [List.singleton_append, intercalate_cons2 s p L hL,
        intercalate_singleton]
    | cons q qs =>
      rw [List.cons_append, intercalate_cons2 s p (q :: qs ++ L) (by simp),
        intercalate_cons2 s p (q :: qs) (by simp), ih (by simp)]
      simp [List.append_assoc]

/-- The four lines of a block's member text with its trailing comma. -/
theorem splitNl_IC_comma (k : List Char) (v : Entry) :
    splitNl (innerContent k v ++ [',']) =
      [(indentSp 2 ++ qstr k) ++ (':' :: ' ' :: [lbrace]),
       (((indentSp 4 ++ qstr "title".data) ++ (':' :: ' ' :: qstr v.title)) ++ [',']),
       ((indentSp 4 ++ qstr "help".data) ++ (':' :: ' ' :: qstr v.help)),
       ((indentSp 2 ++ [rbrace]) ++ [','])] := by
  have h1 : innerContent k v ++ [','] =
      ((indentSp 2 ++ qstr k) ++ (':' :: ' ' :: [lbrace])) ++ '\n' ::
        (((((indentSp 4 ++ qstr "title".data) ++ (':' :: ' ' :: qstr v.title)) ++ [','])) ++ '\n' ::
          (((indentSp 4 ++ qstr "help".data) ++ (':' :: ' ' :: qstr v.help)) ++ '\n' ::
            ((indentSp 2 ++ [rbrace]) ++ [',']))) := by
    rw [innerContent_eq]
    simp [objText, qstr]
  rw [h1, splitNl_append, splitNl_append, splitNl_append]
  rw [splitNl_no_nl _ (no_nl_append _ _ (no_nl_append _ _ (no_nl_indent 2)
    (qstr_no_nl k)) (no_nl_cons _ _ (by decide) (no_nl_cons _ _ (by decide)
      (by decide))))]
  rw [splitNl_no_nl _ (no_nl_append _ _ (no_nl_append _ _ (no_nl_append _ _
    (no_nl_indent 4) (qstr_no_nl _)) (no_nl_cons _ _ (by decide)
      (no_nl_cons _ _ (by decide) (qstr_no_nl _)))) (by decide))]
  rw [splitNl_no_nl _ (no_nl_append _ _ (no_nl_append _ _ (no_nl_indent 4)
    (qstr_no_nl _)) (no_nl_cons _ _ (by decide) (no_nl_cons _ _ (by decide)
      (qstr_no_nl _))))]
  rw [splitNl_no_nl _ (no_nl_append _ _ (no_nl_append _ _ (no_nl_indent 2)
    (by decide)) (by decide))]
  rfl

/-- None of the four member-text lines is a marker line. -/
theorem IC_lines_filter (k : List Char) (v : Entry) :
    (splitNl (innerContent k v ++ [','])).filter
      (fun l => !(isMarkerLine l)) = splitNl (innerContent k v ++ [',']) := by
  rw [splitNl_IC_comma]
  have hq1 : (indentSp 2 ++ qstr k) ++ (':' :: ' ' :: [lbrace]) =
      indentSp 2 ++ '"' :: (jsonEscape k ++ ['"'] ++ (':' :: ' ' :: [lbrace])) := by
    simp [qstr]
  have hL1 : isMarkerLine ((indentSp 2 ++ qstr k) ++ (':' :: ' ' :: [lbrace])) =
      false := by
    rw [hq1]
    exact notMarker_indent_head 2 '"' _ (by decide) (by decide)
  have hq2 : ((indentSp 4 ++ qstr "title".data) ++ (':' :: ' ' :: qstr v.title)) ++ [','] =
      indentSp 4 ++ '"' :: (jsonEscape "title".data ++ ['"'] ++
        (':' :: ' ' :: qstr v.title) ++ [',']) := by
    simp [qstr]
  have hL2 : isMarkerLine (((indentSp 4 ++ qstr "title".data) ++
      (':' :: ' ' :: qstr v.title)) ++ [',']) = false := by
    rw [hq2]
    exact notMarker_indent_head 4 '"' _ (by decide) (by decide)
  have hq3 : (indentSp 4 ++ qstr "help".data) ++ (':' :: ' ' :: qstr v.help) =
      indentSp 4 ++ '"' :: (jsonEscape "help".data ++ ['"'] ++
        (':' :: ' ' :: qstr v.help)) := by
    simp [qstr]
  have hL3 : isMarkerLine ((indentSp 4 ++ qstr "help".data) ++
      (':' :: ' ' :: qstr v.help)) = false := by
    rw [hq3]
    exact notMarker_indent_head 4 '"' _ (by decide) (by decide)
  have hq4 : (indentSp 2 ++ [rbrace]) ++ [','] =
      indentSp 2 ++ rbrace :: [','] := by simp
  have hL4 : isMarkerLine ((indentSp 2 ++ [rbrace]) ++ [',']) = false := by
    rw [hq4]
    exact notMarker_indent_head 2 rbrace _ (by decide) (by decide)
  rw [List.filter_cons_of_pos (by rw [hL1]; rfl),
    List.filter_cons_of_pos (by rw [hL2]; rfl),
    List.filter_cons_of_pos (by rw [hL3]; rfl),
    List.filter_cons_of_pos (by rw [hL4]; rfl)]
  rfl

/-- The final closing-brace chunk keeps all its lines. -/
theorem rbrace_rest_filter (rest : List Char) (hrest : AllWs rest) :
    (splitNl (rbrace :: rest)).filter (fun l => !(isMarkerLine l)) =
      splitNl (rbrace :: rest) := by
  obtain ⟨l, ls, hls⟩ := splitNl_cons_exists rest
  have h1 : splitNl (rbrace :: rest) = (rbrace :: l) :: ls := by
    simp only [splitNl, if_neg (by decide : ¬rbrace = '\n'), hls]
  rw [h1]
  refine List.filter_eq_self.mpr ?_
  intro a ha
  rcases List.mem_cons.mp ha with ha | ha
  · subst ha
    rw [notMarker_head rbrace l (by decide) (by decide)]
    rfl
  · have hsub : ∀ c ∈ a, c ∈ rest := by
      intro c hc
      exact mem_splitNl_subset rest a (by rw [hls]; simp [ha]) c hc
    rw [notMarker_ws a (fun c hc => hrest c (hsub c hc))]
    rfl

/-- Stripping the marker lines from the block chain leaves the member
texts joined by newlines, with every trailing comma still in place. -/
theorem strip_blocks (missing : List (List Char × Entry)) :
    ∀ (k : List Char) (v : Entry) (rest : List Char), AllWs rest →
    List.intercalate ['\n']
      ((splitNl ((indentSp 2 ++ markerStart) ++ '\n' ::
        ((innerContent k v ++ [',']) ++ '\n' ::
          ((indentSp 2 ++ markerEnd) ++
            ((missing.map (fun p => format_new_key_block p.1 p.2 2)).flatten
              ++ '\n' :: rbrace :: rest))))).filter (fun l => !(isMarkerLine l))) =
    (innerContent k v ++ [',']) ++ (fatTail missing ++ '\n' :: rbrace :: rest) := by
  induction missing with
  | nil =>
    intro k v rest hrest
    have h1 : (indentSp 2 ++ markerStart) ++ '\n' ::
        ((innerContent k v ++ [',']) ++ '\n' ::
          ((indentSp 2 ++ markerEnd) ++
            (([] : List (List Char)).flatten ++ '\n' :: rbrace :: rest))) =
        (indentSp 2 ++ markerStart) ++ '\n' ::
        ((innerContent k v ++ [',']) ++ '\n' ::
          ((indentSp 2 ++ markerEnd) ++ '\n' :: rbrace :: rest)) := by
      simp
    simp only [List.map_nil, List.flatten_nil, List.nil_append]
    rw [splitNl_append, splitNl_append, splitNl_append]
    rw [splitNl_no_nl (indentSp 2 ++ markerStart)
      (no_nl_append _ _ (no_nl_indent 2) (by decide))]
    rw [splitNl_no_nl (indentSp 2 ++ markerEnd)
      (no_nl_append _ _ (no_nl_indent 2) (by decide))]
    rw [List.filter_append, List.filter_append, List.filter_append]
    rw [show ([indentSp 2 ++ markerStart]).filter (fun l => !(isMarkerLine l)) =
        [] from by simp [List.filter, isMarkerLine_m1 2]]
    rw [show ([indentSp 2 ++ markerEnd]).filter (fun l => !(isMarkerLine l)) =
        [] from by simp [List.filter, isMarkerLine_m2 2]]
    rw [IC_lines_filter, rbrace_rest_filter rest hrest]
    rw [List.nil_append, List.nil_append]
    rw [intercalate_append2 ['\n'] _ _ (splitNl_ne_nil _) (splitNl_ne_nil _)]
    rw [intercalate_splitNl, intercalate_splitNl]
    simp [fatTail]
  | cons p ms2 ih =>
    intro k v rest hrest
    obtain ⟨k2, v2⟩ := p
    have h1 : ((((k2, v2) :: ms2).map
        (fun p => format_new_key_block p.1 p.2 2)).flatten
          ++ '\n' :: rbrace :: rest) =
        '\n' :: ((indentSp 2 ++ markerStart) ++ '\n' ::
          ((innerContent k2 v2 ++ [',']) ++ '\n' ::
            ((indentSp 2 ++ markerEnd) ++
              ((ms2.map (fun p => format_new_key_block p.1 p.2 2)).flatten
                ++ '\n' :: rbrace :: rest)))) := by
      rw [List.map_cons, List.flatten_cons, format_eq]
      simp
    rw [h1]
    rw [splitNl_append, splitNl_append]
    rw [splitNl_no_nl (indentSp 2 ++ markerStart)
      (no_nl_append _ _ (no_nl_indent 2) (by decide))]
    have hsplit2 : splitNl ((indentSp 2 ++ markerEnd) ++
        '\n' :: ((indentSp 2 ++ markerStart) ++ '\n' ::
          ((innerContent k2 v2 ++ [',']) ++ '\n' ::
            ((indentSp 2 ++ markerEnd) ++
              ((ms2.map (fun p => format_new_key_block p.1 p.2 2)).flatten
                ++ '\n' :: rbrace :: rest))))) =
        [indentSp 2 ++ markerEnd] ++
          splitNl ((indentSp 2 ++ markerStart) ++ '\n' ::
            ((innerContent k2 v2 ++ [',']) ++ '\n' ::
              ((indentSp 2 ++ markerEnd) ++
                ((ms2.map (fun p => format_new_key_block p.1 p.2 2)).flatten
                  ++ '\n' :: rbrace :: rest)))) := by
      rw [splitNl_append, splitNl_no_nl (indentSp 2 ++ markerEnd)
        (no_nl_append _ _ (no_nl_indent 2) (by decide))]
    rw [hsplit2]
    rw [List.filter_append, List.filter_append, List.filter_append]
    rw [show ([indentSp 2 ++ markerStart]).filter (fun l => !(isMarkerLine l)) =
        [] from by simp [List.filter, isMarkerLine_m1 2]]
    rw [show ([indentSp 2 ++ markerEnd]).filter (fun l => !(isMarkerLine l)) =
        [] from by simp [List.filter, isMarkerLine_m2 2]]
    rw [IC_lines_filter]
    rw [List.nil_append, List.nil_append]
    have hne2 : (splitNl ((indentSp 2 ++ markerStart) ++ '\n' ::
        ((innerContent k2 v2 ++ [',']) ++ '\n' ::
          ((indentSp 2 ++ markerEnd) ++
            ((ms2.map (fun p => format_new_key_block p.1 p.2 2)).flatten
              ++ '\n' :: rbrace :: rest))))).filter
        (fun l => !(isMarkerLine l)) ≠ [] := by
      intro hnil
      have hih := ih k2 v2 rest hrest
      rw [hnil] at hih
      have : ((innerContent k2 v2 ++ [',']) ++
          (fatTail ms2 ++ '\n' :: rbrace :: rest)).length = 0 := by
        rw [← hih]
        rfl
      simp [innerContent_eq, indentSp] at this
    rw [intercalate_append2 ['\n'] _ _ (splitNl_ne_nil _) hne2]
    rw [intercalate_splitNl, ih k2 v2 rest hrest]
    have h3 : fatTail ((k2, v2) :: ms2) =
        '\n' :: (innerContent k2 v2 ++ [',']) ++ fatTail ms2 := by
      simp [fatTail]
    rw [h3]
    simp

/-- Stripping the marker lines from a full write: the original text part
is untouched, each block keeps its member text and comma. -/
theorem stripMarkers_out (A rest : List Char) (k1 : List Char) (v1 : Entry)
    (missing' : List (List Char × Entry))
    (hA : ∀ l ∈ splitNl A, isMarkerLine l = false) (hrest : AllWs rest) :
    stripMarkers (A ++ ((((k1, v1) :: missing').map
        (fun p => format_new_key_block p.1 p.2 2)).flatten
      ++ '\n' :: rbrace :: rest)) =
    A ++ (fatTail ((k1, v1) :: missing') ++ '\n' :: rbrace :: rest) := by
  have h1 : A ++ ((((k1, v1) :: missing').map
      (fun p => format_new_key_block p.1 p.2 2)).flatten
        ++ '\n' :: rbrace :: rest) =
      A ++ '\n' :: ((indentSp 2 ++ markerStart) ++ '\n' ::
        ((innerContent k1 v1 ++ [',']) ++ '\n' ::
          ((indentSp 2 ++ markerEnd) ++
            ((missing'.map (fun p => format_new_key_block p.1 p.2 2)).flatten
              ++ '\n' :: rbrace :: rest)))) := by
    rw [List.map_cons, List.flatten_cons, format_eq]
    simp
  unfold stripMarkers
  rw [h1, splitNl_append, List.filter_append]
  rw [List.filter_eq_self.mpr (fun l hl => by rw [hA l hl]; rfl)]
  have hne2 : (splitNl ((indentSp 2 ++ markerStart) ++ '\n' ::
      ((innerContent k1 v1 ++ [',']) ++ '\n' ::
        ((indentSp 2 ++ markerEnd) ++
          ((missing'.map (fun p => format_new_key_block p.1 p.2 2)).flatten
            ++ '\n' :: rbrace :: rest))))).filter
      (fun l => !(isMarkerLine l)) ≠ [] := by
    intro hnil
    have hih := strip_blocks missing' k1 v1 rest hrest
    rw [hnil] at hih
    have : ((innerContent k1 v1 ++ [',']) ++
        (fatTail missing' ++ '\n' :: rbrace :: rest)).length = 0 := by
      rw [← hih]
      rfl
    simp [innerContent_eq, indentSp] at this
  rw [intercalate_append2 ['\n'] _ _ (splitNl_ne_nil _) hne2]
  rw [intercalate_splitNl, strip_blocks missing' k1 v1 rest hrest]
  have h3 : fatTail ((k1, v1) :: missing') =
      '\n' :: (innerContent k1 v1 ++ [',']) ++ fatTail missing' := by
    simp [fatTail]
  rw [h3]
  simp

theorem leadSlash_front (x y : List Char)
    (h : leadSlashB (x ++ y) = false) : leadSlashB x = false := by
  induction x with
  | nil => rfl
  | cons c r ih =>
    simp only [List.cons_append, leadSlashB] at h ⊢
    by_cases hc : c = ' '
    · rw [if_pos hc] at h ⊢
      exact ih h
    · rw [if_neg hc] at h ⊢
      exact h

theorem hasNlSlash_front (x y : List Char)
    (h : hasNlSlashB (x ++ y) = false) : hasNlSlashB x = false := by
  induction x with
  | nil => rfl
  | cons c r ih =>
    simp only [List.cons_append, hasNlSlashB, Bool.or_eq_false_iff] at h ⊢
    obtain ⟨h1, h2⟩ := h
    refine ⟨?_, ih h2⟩
    by_cases hc : c = '\n'
    · rw [if_pos hc] at h1 ⊢
      exact leadSlash_front r y h1
    · rw [if_neg hc]

theorem MarkerFree_front (x y : List Char) (h : MarkerFree (x ++ y)) :
    MarkerFree x :=
  ⟨hasNlSlash_front x y h.1, leadSlash_front x y h.2⟩

theorem AllWs_append (a b : List Char) (ha : AllWs a) (hb : AllWs b) :
    AllWs (a ++ b) := by
  intro c hc
  rcases List.mem_append.mp hc with h | h
  · exact ha c h
  · exact hb c h

theorem SafeHead_ws (rest : List Char) (h : AllWs rest) : SafeHead rest := by
  cases rest with
  | nil => simp [SafeHead]
  | cons c r =>
    have hc := h c (by simp)
    simp [SafeHead, safeStop, hc]

theorem skipWs_allWs_nil (w : List Char) (h : AllWs w) : skipWs w = [] := by
  have h2 := skipWs_ws_append w [] h
  simpa using h2

/-- A parsed text in context: whitespace, a grammar value, trailing
whitespace always loads. -/
theorem reparse_of_val (x w0 t rest : List Char) (hx : x = w0 ++ (t ++ rest))
    (hw0 : AllWs w0) (hrest : AllWs rest) (hval : G .val t) :
    ∃ v, jsonLoads x = some v := by
  have hcomp := parse_complete .val t hval
  simp only [CompleteStmt] at hcomp
  have hsh : SafeHead rest := SafeHead_ws rest hrest
  have hfuel : 2 * t.length + 1 ≤ 2 * x.length + 4 := by
    rw [hx]
    simp only [List.length_append]
    omega
  obtain ⟨v, hv⟩ := hcomp w0 (2 * x.length + 4) rest hw0 hsh hfuel
  refine ⟨v, ?_⟩
  rw [hx] at hv ⊢
  unfold jsonLoads
  rw [hv]
  simp [skipWs_allWs_nil rest hrest]

/-- The comma scan acts as the identity on the members prefix produced by
the split, whatever follows it. -/
theorem strip_M0 (M0 wB M0' : List Char) (c0 : Char)
    (hM0 : M0 = M0' ++ [c0]) (hc0 : valueEnd c0)
    (hGms : G .ms (M0 ++ (wB ++ [rbrace]))) (hwB : AllWs wB) :
    ∀ T, stripTCGo false (M0 ++ T) = M0 ++ stripTCGo false T := by
  obtain ⟨hws, _hpy, hcm, _hlb, _hsq, hbs⟩ := hc0
  have hframe := strip_frame M0.length M0 le_rfl M0' c0 hM0 hws hcm hbs false
  have htc := G_tc .ms _ hGms
  have hidM : stripTCGo false (M0 ++ (wB ++ [rbrace])) =
      M0 ++ (wB ++ [rbrace]) := by
    have h2 := htc.1 []
    simpa [tc_nil] using h2
  have h3 := hframe.1 (wB ++ [rbrace])
  rw [hidM] at h3
  have hlen1 := strip_len M0.length M0 le_rfl false
  have hlen2 := strip_len (wB ++ [rbrace]).length (wB ++ [rbrace]) le_rfl
    (tcState false M0)
  have hlen : M0.length = (stripTCGo false M0).length := by
    have hc : M0.length + (wB ++ [rbrace]).length =
        (stripTCGo false M0).length +
          (stripTCGo (tcState false M0) (wB ++ [rbrace])).length := by
      rw [← List.length_append, ← List.length_append, h3]
    omega
  have hid0 : stripTCGo false M0 = M0 :=
    ((List.append_inj h3 hlen).1).symm
  have hstate : tcState false M0 = false := by
    have hS := htc.2 []
    have hS2 : tcState false (M0 ++ (wB ++ [rbrace])) = false := by
      simpa [tcState_nil] using hS
    have hF := hframe.2 (wB ++ [rbrace])
    rw [hF] at hS2
    have hclean : ∀ c ∈ wB ++ [rbrace], c ≠ '"' ∧ c ≠ '\\' := by
      intro c hcmem
      rcases List.mem_append.mp hcmem with hm | hm
      · exact ⟨(jsonWs_classes c (hwB c hm)).1,
          (jsonWs_classes c (hwB c hm)).2.2.1⟩
      · simp at hm
        subst hm
        exact ⟨by decide, by decide⟩
    have hcl := tcState_clean_append (wB ++ [rbrace]) hclean
      (tcState false M0) []
    simp only [List.append_nil, tcState_nil] at hcl
    rw [hcl] at hS2
    exact hS2
  intro T
  have h4 := hframe.1 T
  rw [hid0, hstate] at h4
  exact h4

/-- The stripped insertion after an existing member is a members-loop
text. -/
theorem tail_ml (wB : List Char) (hwB : AllWs wB) (k1 : List Char)
    (v1 : Entry) (missing' : List (List Char × Entry)) :
    G .ml (',' :: (wB ++ ('\n' :: (innerContent k1 v1 ++ memChain missing')))) := by
  have h := G.ml_member [] (wB ++ '\n' :: indentSp 2) (jsonEscape k1) [] [' ']
    (objText v1) (memChain missing') (by intro c hc; simp at hc)
    (AllWs_append _ _ hwB (AllWs_nl_indent 2)) (Bdy_jsonEscape k1)
    (by intro c hc; simp at hc)
    (by intro c hc; simp at hc; subst hc; decide)
    (G_objText v1) (memChain_ml missing')
  have heq : [] ++ ',' :: ((wB ++ '\n' :: indentSp 2) ++ '"' ::
      (jsonEscape k1 ++ '"' :: ([] ++ ':' :: ([' '] ++
        (objText v1 ++ memChain missing'))))) =
      ',' :: (wB ++ ('\n' :: (innerContent k1 v1 ++ memChain missing'))) := by
    simp [innerContent_eq, qstr]
  rw [heq] at h
  exact h

/-- The stripped insertion into an empty object is a members text. -/
theorem tail_ms (wA : List Char) (hwA : AllWs wA) (k1 : List Char)
    (v1 : Entry) (missing' : List (List Char × Entry)) :
    G .ms (wA ++ ('\n' :: (innerContent k1 v1 ++ memChain missing'))) := by
  have h := G.ms_member (wA ++ '\n' :: indentSp 2) (jsonEscape k1) [] [' ']
    (objText v1) (memChain missing')
    (AllWs_append _ _ hwA (AllWs_nl_indent 2)) (Bdy_jsonEscape k1)
    (by intro c hc; simp at hc)
    (by intro c hc; simp at hc; subst hc; decide)
    (G_objText v1) (memChain_ml missing')
  have heq : (wA ++ '\n' :: indentSp 2) ++ '"' :: (jsonEscape k1 ++ '"' ::
      ([] ++ ':' :: ([' '] ++ (objText v1 ++ memChain missing')))) =
      wA ++ ('\n' :: (innerContent k1 v1 ++ memChain missing')) := by
    simp [innerContent_eq, qstr]
  rw [heq] at h
  exact h

/-- C4: for every valid JSON object input file and every run of the flags
updater that writes a patched file, the patched output text, after
removing the `New Key start` / `New key end` comment-marker lines and
every trailing comma before a closing brace, parses as valid JSON.  The
hypothesis `hw` covers exactly the runs with a non-empty set of missing
keys, since the updater writes only then. -/
theorem C4_stripped_patch_parses (content : List Char)
    (flags : List (List Char × Entry)) (ms : List (List Char × Json))
    (out : List Char)
    (hparse : jsonLoads content = some (Json.obj ms))
    (hw : UpdateFlags.update_file (some content) flags = Except.ok (some out)) :
    ∃ v, jsonLoads (stripTC (stripMarkers out)) = some v := by
  obtain ⟨cur, missing, b, hparse0, hmiss, hne, hb, hcase⟩ :=
    UpdateFlags.update_file_out_form content flags out hw
  obtain ⟨w0, M, rest, hdecomp, hw0, hGms, hrest⟩ :=
    jsonLoads_obj_decomp content ms hparse
  cases missing with
  | nil => exact absurd rfl hne
  | cons p0 missing' =>
  obtain ⟨k1, v1⟩ := p0
  have hnotrb : rbrace ∉ rest := by
    intro hm
    exact absurd (hrest rbrace hm) (by decide)
  have hsp := G_split .ms M hGms
  simp only [SplitStmt] at hsp
  rcases hsp with ⟨wA, hwA, hMa⟩ |
    ⟨M0, wB, hMb, hwB, ⟨M0', c0, hM0e, hc0⟩, hswap⟩
  · -- the object was empty: no comma is inserted
    have hcontent : content = (w0 ++ lbrace :: wA) ++ rbrace :: rest := by
      rw [hdecomp, hMa]
      simp
    have hbv : UpdateFlags.rfindIdx rbrace content =
        some (w0 ++ lbrace :: wA).length := by
      rw [hcontent]
      exact rfindIdx_last rbrace _ rest hnotrb
    have hbeq : b = (w0 ++ lbrace :: wA).length := by
      rw [hb] at hbv
      exact Option.some.inj hbv
    subst hbeq
    have htake : content.take (w0 ++ lbrace :: wA).length =
        w0 ++ lbrace :: wA := by
      rw [hcontent]
      have h0 := take_app (w0 ++ lbrace :: wA) (rbrace :: rest) 0
      simpa using h0
    have hdrop : content.drop (w0 ++ lbrace :: wA).length = rbrace :: rest := by
      rw [hcontent]
      have h0 := drop_app (w0 ++ lbrace :: wA) (rbrace :: rest) 0
      simp
    have hlast : UpdateFlags.lastNonWs
        (content.take (w0 ++ lbrace :: wA).length) =
        some (w0.length, lbrace) := by
      rw [htake]
      have h0 := lastNonWs_ws_end w0 wA lbrace
        (fun c hc => jsonWs_pyWs c (hwA c hc)) (by decide)
      have heq : (w0 ++ [lbrace]) ++ wA = w0 ++ lbrace :: wA := by simp
      rw [heq] at h0
      exact h0
    rcases hcase with ⟨j, c, hscan, hcomma, hout⟩ | ⟨_, hout⟩
    · rw [hlast] at hscan
      have hcc : c = lbrace := by
        have h1 := Option.some.inj hscan
        simp only [Prod.mk.injEq] at h1
        exact h1.2.symm
      rw [hcc] at hcomma
      simp at hcomma
    · rw [htake, hdrop] at hout
      have hA : ∀ l ∈ splitNl (w0 ++ lbrace :: wA), isMarkerLine l = false := by
        apply noMarker_of_MarkerFree
        have hmfc := jsonLoads_MarkerFree content _ hparse
        rw [hcontent] at hmfc
        exact MarkerFree_front _ _ hmfc
      have hout2 : out = (w0 ++ lbrace :: wA) ++
          ((((k1, v1) :: missing').map
            (fun p => format_new_key_block p.1 p.2 2)).flatten
            ++ '\n' :: rbrace :: rest) := by
        rw [hout]
        simp
      have hsm : stripMarkers out = (w0 ++ lbrace :: wA) ++
          (fatTail ((k1, v1) :: missing') ++ '\n' :: rbrace :: rest) := by
        rw [hout2]
        exact stripMarkers_out _ rest k1 v1 missing' hA hrest
      have hst : stripTC (stripMarkers out) =
          w0 ++ ((lbrace :: (wA ++ ('\n' ::
            (innerContent k1 v1 ++ memChain missing')))) ++ rest) := by
        rw [hsm]
        unfold stripTC
        have e1 : (w0 ++ lbrace :: wA) ++
            (fatTail ((k1, v1) :: missing') ++ '\n' :: rbrace :: rest) =
            w0 ++ (lbrace :: (wA ++ (fatTail ((k1, v1) :: missing')
              ++ '\n' :: rbrace :: rest))) := by
          simp
        rw [e1, tc_ws w0 hw0, tc_pass_false lbrace _ (by decide) (by decide),
          tc_ws wA hwA, fatSlim missing' k1 v1 rest, strip_ws_id rest hrest]
        simp
      exact reparse_of_val _ w0 _ rest hst hw0 hrest
        (G.obj _ (tail_ms wA hwA k1 v1 missing'))
  · -- the object had members: a comma is inserted after the last value
    have hPc : w0 ++ lbrace :: M0 = (w0 ++ lbrace :: M0') ++ [c0] := by
      rw [hM0e]
      simp
    have hcontent : content =
        (((w0 ++ lbrace :: M0') ++ [c0]) ++ wB) ++ rbrace :: rest := by
      rw [hdecomp, hMb, hM0e]
      simp
    have hbv : UpdateFlags.rfindIdx rbrace content =
        some (((w0 ++ lbrace :: M0') ++ [c0]) ++ wB).length := by
      rw [hcontent]
      exact rfindIdx_last rbrace _ rest hnotrb
    have hbeq : b = (((w0 ++ lbrace :: M0') ++ [c0]) ++ wB).length := by
      rw [hb] at hbv
      exact Option.some.inj hbv
    subst hbeq
    have htake : content.take (((w0 ++ lbrace :: M0') ++ [c0]) ++ wB).length =
        ((w0 ++ lbrace :: M0') ++ [c0]) ++ wB := by
      rw [hcontent]
      have h0 := take_app (((w0 ++ lbrace :: M0') ++ [c0]) ++ wB)
        (rbrace :: rest) 0
      simpa using h0
    have hlast : UpdateFlags.lastNonWs
        (content.take (((w0 ++ lbrace :: M0') ++ [c0]) ++ wB).length) =
        some ((w0 ++ lbrace :: M0').length, c0) := by
      rw [htake]
      exact lastNonWs_ws_end (w0 ++ lbrace :: M0') wB c0
        (fun c hc => jsonWs_pyWs c (hwB c hc)) hc0.2.1
    have hcval : (!(c0 = ',' || c0 = lbrace || c0 = '[')) = true := by
      obtain ⟨_, _, hcm, hlb, hsq, _⟩ := hc0
      simp [hcm, hlb, hsq]
    rcases hcase with ⟨j, c, hscan, _hcomma, hout⟩ |
      ⟨hcond, _hout⟩
    · rw [hlast] at hscan
      have h1 := Option.some.inj hscan
      simp only [Prod.mk.injEq] at h1
      have hj : j = (w0 ++ lbrace :: M0').length := h1.1.symm
      subst hj
      -- compute the spliced text
      have htake1 : content.take ((w0 ++ lbrace :: M0').length + 1) =
          (w0 ++ lbrace :: M0') ++ [c0] := by
        rw [hcontent]
        have h0 := take_app ((w0 ++ lbrace :: M0') ++ [c0])
          (wB ++ rbrace :: rest) 0
        have hl : ((w0 ++ lbrace :: M0') ++ [c0]).length =
            (w0 ++ lbrace :: M0').length + 1 := by
          simp only [List.length_append, List.length_cons, List.length_nil]
          try omega
        rw [← hl]
        have e2 : (((w0 ++ lbrace :: M0') ++ [c0]) ++ wB) ++ rbrace :: rest =
            ((w0 ++ lbrace :: M0') ++ [c0]) ++ (wB ++ rbrace :: rest) := by
          simp
        rw [e2]
        simpa using h0
      have hdrop1 : content.drop ((w0 ++ lbrace :: M0').length + 1) =
          wB ++ rbrace :: rest := by
        rw [hcontent]
        have h0 := drop_app ((w0 ++ lbrace :: M0') ++ [c0])
          (wB ++ rbrace :: rest) 0
        have hl : ((w0 ++ lbrace :: M0') ++ [c0]).length =
            (w0 ++ lbrace :: M0').length + 1 := by
          simp only [List.length_append, List.length_cons, List.length_nil]
          try omega
        rw [← hl]
        have e2 : (((w0 ++ lbrace :: M0') ++ [c0]) ++ wB) ++ rbrace :: rest =
            ((w0 ++ lbrace :: M0') ++ [c0]) ++ (wB ++ rbrace :: rest) := by
          simp
        rw [e2]
        simp
      rw [htake1, hdrop1] at hout
      -- the spliced text and its cut at b + 1
      have htk2 : (((w0 ++ lbrace :: M0') ++ [c0]) ++
          ',' :: (wB ++ rbrace :: rest)).take
            ((((w0 ++ lbrace :: M0') ++ [c0]) ++ wB).length + 1) =
          ((w0 ++ lbrace :: M0') ++ [c0]) ++ ',' :: wB := by
        have hb1 : (((w0 ++ lbrace :: M0') ++ [c0]) ++ wB).length + 1 =
            ((w0 ++ lbrace :: M0') ++ [c0]).length + (wB.length + 1) := by
          simp only [List.length_append, List.length_cons, List.length_nil]
          try omega
        rw [hb1, take_app, List.take_succ_cons]
        have h0 := take_app wB (rbrace :: rest) 0
        simp only [Nat.add_zero, List.take_zero, List.append_nil] at h0
        rw [h0]
      have hdk2 : (((w0 ++ lbrace :: M0') ++ [c0]) ++
          ',' :: (wB ++ rbrace :: rest)).drop
            ((((w0 ++ lbrace :: M0') ++ [c0]) ++ wB).length + 1) =
          rbrace :: rest := by
        have hb1 : (((w0 ++ lbrace :: M0') ++ [c0]) ++ wB).length + 1 =
            ((w0 ++ lbrace :: M0') ++ [c0]).length + (wB.length + 1) := by
          simp only [List.length_append, List.length_cons, List.length_nil]
          try omega
        rw [hb1, drop_app, List.drop_succ_cons]
        have h0 := drop_app wB (rbrace :: rest) 0
        simp
      rw [htk2, hdk2] at hout
      -- markers
      have hmfA : MarkerFree ((((w0 ++ lbrace :: M0') ++ [c0])) ++ ',' :: wB) := by
        refine MarkerFree_append _ _ ?_ ?_
        · have hmfc := jsonLoads_MarkerFree content _ hparse
          rw [hcontent] at hmfc
          exact MarkerFree_front _ _ (MarkerFree_front _ _ hmfc)
        · have hmfw := MarkerFree_ws wB hwB
          constructor
          · simp [hasNlSlashB, hmfw.1]
          · simp [leadSlashB]
      have hA : ∀ l ∈ splitNl ((((w0 ++ lbrace :: M0') ++ [c0])) ++ ',' :: wB),
          isMarkerLine l = false := noMarker_of_MarkerFree _ hmfA
      have hout2 : out = ((((w0 ++ lbrace :: M0') ++ [c0])) ++ ',' :: wB) ++
          ((((k1, v1) :: missing').map
            (fun p => format_new_key_block p.1 p.2 2)).flatten
            ++ '\n' :: rbrace :: rest) := by
        rw [hout]
        simp
      have hsm : stripMarkers out =
          ((((w0 ++ lbrace :: M0') ++ [c0])) ++ ',' :: wB) ++
          (fatTail ((k1, v1) :: missing') ++ '\n' :: rbrace :: rest) := by
        rw [hout2]
        exact stripMarkers_out _ rest k1 v1 missing' hA hrest
      -- comma scan
      have hGms2 : G .ms (M0 ++ (wB ++ [rbrace])) := by
        rw [← hMb]
        exact hGms
      have hM0strip := strip_M0 M0 wB M0' c0 hM0e hc0 hGms2 hwB
      have hst : stripTC (stripMarkers out) =
          w0 ++ ((lbrace :: (M0 ++ (',' :: (wB ++ ('\n' ::
            (innerContent k1 v1 ++ memChain missing')))))) ++ rest) := by
        rw [hsm]
        unfold stripTC
        have e1 : ((((w0 ++ lbrace :: M0') ++ [c0])) ++ ',' :: wB) ++
            (fatTail ((k1, v1) :: missing') ++ '\n' :: rbrace :: rest) =
            w0 ++ (lbrace :: (M0 ++ (',' :: (wB ++
              (fatTail ((k1, v1) :: missing') ++ '\n' :: rbrace :: rest))))) := by
          rw [hM0e]
          simp
        rw [e1, tc_ws w0 hw0, tc_pass_false lbrace _ (by decide) (by decide),
          hM0strip]
        have hlook : headIsRBrace (skipWs (wB ++
            (fatTail ((k1, v1) :: missing') ++ '\n' :: rbrace :: rest))) =
            false := by
          rw [skipWs_ws_append wB _ hwB]
          exact fatTail_lookahead k1 v1 missing' _
        rw [tc_comma_keep _ hlook, tc_ws wB hwB,
          fatSlim missing' k1 v1 rest, strip_ws_id rest hrest]
        simp
      have hml := tail_ml wB hwB k1 v1 missing'
      have hms2 := hswap _ hml
      exact reparse_of_val _ w0 _ rest hst hw0 hrest (G.obj _ hms2)
    · -- the needs-comma-false branch contradicts the value ending
      rcases hcond with hnone | ⟨j, c, hscan2, hfalse⟩
      · rw [hlast] at hnone
        exact absurd hnone (by simp)
      · rw [hlast] at hscan2
        have h1 := Option.some.inj hscan2
        simp only [Prod.mk.injEq] at h1
        have hcc : c = c0 := h1.2.symm
        rw [hcc, hcval] at hfalse
        exact absurd hfalse (by simp)

theorem C4_witness :
    jsonLoads c4content = some (Json.obj []) ∧
    UpdateFlags.update_file (some c4content) c4flags = Except.ok (some c4out) ∧
    ∃ v, jsonLoads (stripTC (stripMarkers c4out)) = some v :=
  ⟨rfl, rfl, C4_stripped_patch_parses c4content c4flags [] c4out rfl rfl⟩

end RcloneManager
